import Mathlib

/-!
Shallow embedding of the pathfinding core of `pathfinder-edu`:
the grid model, the weighted A* search (`src/algorithms/astar.js`),
the breadth-first search and path reconstruction (`src/algorithms/bfs.js`),
over positions `(row, col) : Nat × Nat`.  Node identity in the JavaScript
source is object identity of `grid[row][col]`, which is faithfully modelled
by equality of positions.  Mutable per-node scratch fields become explicit
state functions `Pos → _`; the JavaScript `Infinity` sentinel for distances
becomes `⊤ : WithTop ℚ`; loops become fuel-indexed recursion, with fuel
`rows * cols + 1`, which is proved sufficient for the runs the claims are
about.  The A* result additionally records the f-value of each selected
cell and whether the `current.distance === Infinity` early return fired,
and the BFS result records whether the queue was exhausted; these are pure
instrumentation of control flow already present in the source.
-/

namespace PathfinderEdu

/-- A grid coordinate `(row, col)`. -/
abbrev Pos := Nat × Nat

/-- The static part of the grid: dimensions, wall flags and terrain weights.
Walls are never entered, so their (JavaScript `Infinity`) weight is never
read and a total `ℚ`-valued weight function loses nothing. -/
structure Grid where
  rows : Nat
  cols : Nat
  isWall : Pos → Bool
  weight : Pos → ℚ

/-- `p` is a cell of the grid (`grid[row][col]` exists). -/
def Grid.inB (g : Grid) (p : Pos) : Prop := p.1 < g.rows ∧ p.2 < g.cols

instance (g : Grid) (p : Pos) : Decidable (g.inB p) :=
  inferInstanceAs (Decidable (p.1 < g.rows ∧ p.2 < g.cols))

/-- `neighbor.weight || 1` from the source: JavaScript replaces the falsy
weight `0` by `1`. -/
def jsWeight (g : Grid) (p : Pos) : ℚ := if g.weight p = 0 then 1 else g.weight p

/-- `getNeighbors` / the unfiltered part of `getUnvisitedNeighbors`:
the in-bounds cells up, down, left, right of `p`, in that order. -/
def getNeighbors (g : Grid) (p : Pos) : List Pos :=
  (if 0 < p.1 then [(p.1 - 1, p.2)] else []) ++
  (if p.1 < g.rows - 1 then [(p.1 + 1, p.2)] else []) ++
  (if 0 < p.2 then [(p.1, p.2 - 1)] else []) ++
  (if p.2 < g.cols - 1 then [(p.1, p.2 + 1)] else [])

/-- `heuristic(nodeA, nodeB)`: Manhattan distance. -/
def heuristic (a b : Pos) : ℚ := ((Nat.dist a.1 b.1 + Nat.dist a.2 b.2 : ℕ) : ℚ)

/-! ### Paths (specification-side notions)

A path of non-wall cells connecting `s` to `e` by 4-directional moves,
its entered-cell cost (start's weight excluded) and its edge count. -/

/-- A valid path: nonempty, starts at `s`, ends at `e`, consecutive cells
adjacent (4-directional), every cell in bounds and not a wall. -/
def ValidPath (g : Grid) (s e : Pos) (l : List Pos) : Prop :=
  l.head? = some s ∧ l.getLast? = some e ∧
  List.Chain' (fun p q => q ∈ getNeighbors g p) l ∧
  ∀ p ∈ l, g.inB p ∧ g.isWall p = false

/-- Computable form of the adjacency-chain condition of a path. -/
def ChainOk (g : Grid) : List Pos → Prop
  | [] => True
  | [_] => True
  | p :: q :: l => q ∈ getNeighbors g p ∧ ChainOk g (q :: l)

def chainOkDec (g : Grid) : ∀ l : List Pos, Decidable (ChainOk g l)
  | [] => isTrue trivial
  | [_] => isTrue trivial
  | p :: q :: l =>
    haveI : Decidable (ChainOk g (q :: l)) := chainOkDec g (q :: l)
    inferInstanceAs (Decidable (q ∈ getNeighbors g p ∧ ChainOk g (q :: l)))

instance (g : Grid) (l : List Pos) : Decidable (ChainOk g l) := chainOkDec g l

instance (g : Grid) (s e : Pos) (l : List Pos) : Decidable (ValidPath g s e l) :=
  decidable_of_iff (l.head? = some s ∧ l.getLast? = some e ∧ ChainOk g l ∧
    ∀ p ∈ l, g.inB p ∧ g.isWall p = false) (by
    have hiff : ∀ l' : List Pos, ChainOk g l' ↔
        List.Chain' (fun p q => q ∈ getNeighbors g p) l' := by
      intro l'
      induction l' with
      | nil => simp [ChainOk]
      | cons a t iht =>
        cases t with
        | nil => simp [ChainOk]
        | cons b t2 =>
          rw [List.chain'_cons]
          unfold ChainOk
          rw [iht]
    unfold ValidPath
    rw [hiff])

/-- Total cost of a path: the sum of the weights of every cell entered,
the start cell's weight excluded. -/
def pathCost (g : Grid) (l : List Pos) : ℚ := (l.tail.map g.weight).sum

/-- `e` is connected to `s` through non-wall cells. -/
def Reachable (g : Grid) (s e : Pos) : Prop := ∃ l, ValidPath g s e l

/-- The finset of grid cells, used for fuel bounds. -/
def posFinset (g : Grid) : Finset Pos := Finset.range g.rows ×ˢ Finset.range g.cols

/-! ### Scratch state -/

/-- Per-node scratch fields used by A* (`createInitialGrid` initialises
them to `Infinity`, `0`, `Infinity`, `null`, `false`). -/
structure ANode where
  distance : WithTop ℚ
  heuristic : ℚ
  totalCost : WithTop ℚ
  previousNode : Option Pos
  isVisited : Bool

/-- The reset A* scratch state. -/
def resetA : Pos → ANode := fun _ => ⟨⊤, 0, ⊤, none, false⟩

/-- Pointwise update of the scratch state at one node. -/
def setNode (st : Pos → ANode) (p : Pos) (n : ANode) : Pos → ANode :=
  fun q => if q = p then n else st q

/-- Per-node scratch fields used by BFS. -/
structure BNode where
  isVisited : Bool
  previousNode : Option Pos

/-- The reset BFS scratch state. -/
def resetB : Pos → BNode := fun _ => ⟨false, none⟩

/-! ### A* search (`astar.js`) -/

/-- The sort key of the open list: `a.totalCost`. -/
def sortKey (st : Pos → ANode) (p : Pos) : WithTop ℚ := (st p).totalCost

/-- The comparison relation of `openList.sort((a, b) => a.totalCost - b.totalCost)`. -/
def tcLE (st : Pos → ANode) : Pos → Pos → Prop := fun a b => sortKey st a ≤ sortKey st b

instance (st : Pos → ANode) : DecidableRel (tcLE st) := fun a b =>
  inferInstanceAs (Decidable (sortKey st a ≤ sortKey st b))

instance (st : Pos → ANode) : IsTotal Pos (tcLE st) :=
  ⟨fun a b => le_total (sortKey st a) (sortKey st b)⟩

instance (st : Pos → ANode) : IsTrans Pos (tcLE st) :=
  ⟨fun _ _ _ h1 h2 => le_trans h1 h2⟩

instance (st : Pos → ANode) : IsRefl Pos (tcLE st) := ⟨fun a => le_refl (sortKey st a)⟩

/-- The in-place stable sort of the open list by `totalCost`
(JavaScript `Array.prototype.sort` is stable). -/
def sortOpen (st : Pos → ANode) (l : List Pos) : List Pos := l.insertionSort (tcLE st)

/-- The relaxed scratch record for neighbor `n` of `cur`:
`distance`, `heuristic`, `totalCost`, `previousNode` as assigned in the
source's neighbor loop. -/
def relaxedNode (endP cur n : Pos) (old : ANode) (tg : WithTop ℚ) : ANode :=
  { old with
    distance := tg
    heuristic := heuristic n endP
    totalCost := tg + (heuristic n endP : WithTop ℚ)
    previousNode := some cur }

/-- One iteration of the neighbor loop of `astar`. -/
def relaxOne (g : Grid) (endP cur : Pos) (closed : List Pos)
    (acc : (Pos → ANode) × List Pos) (n : Pos) : (Pos → ANode) × List Pos :=
  if n ∈ closed ∨ g.isWall n = true then acc
  else
    let tg : WithTop ℚ := (acc.1 cur).distance + (jsWeight g n : WithTop ℚ)
    if tg < (acc.1 n).distance then
      (setNode acc.1 n (relaxedNode endP cur n (acc.1 n) tg),
        if n ∈ acc.2 then acc.2 else acc.2 ++ [n])
    else acc

/-- The whole neighbor loop of `astar`. -/
def relaxAll (g : Grid) (endP cur : Pos) (closed : List Pos)
    (st : Pos → ANode) (openL : List Pos) (ns : List Pos) : (Pos → ANode) × List Pos :=
  ns.foldl (relaxOne g endP cur closed) (st, openL)

/-- The result of a run of `astar`: the visitation order, the f-value of
each cell at the moment it was selected and appended to the order, whether
the `current.distance === Infinity` early return fired, the final scratch
state, and whether the loop ended with the open list exhausted. -/
structure AResult where
  order : List Pos
  fs : List (WithTop ℚ)
  infGuard : Bool
  exhausted : Bool
  state : Pos → ANode

/-- The main loop of `astar`, with explicit fuel.  Each iteration sorts the
open list by `totalCost`, shifts the head, skips walls and closed cells,
returns on an infinite distance, closes and emits the cell, returns if it
is the end, and otherwise relaxes its neighbors. -/
def astarLoop (g : Grid) (endP : Pos) :
    Nat → (Pos → ANode) → List Pos → List Pos → AResult
  | 0, st, _, _ => ⟨[], [], false, false, st⟩
  | fuel + 1, st, openL, closed =>
    match sortOpen st openL with
    | [] => ⟨[], [], false, true, st⟩
    | cur :: rest =>
      if g.isWall cur = true then astarLoop g endP fuel st rest closed
      else if cur ∈ closed then astarLoop g endP fuel st rest closed
      else if (st cur).distance = ⊤ then ⟨[], [], true, false, st⟩
      else
        let st1 := setNode st cur { st cur with isVisited := true }
        if cur = endP then ⟨[cur], [(st cur).totalCost], false, false, st1⟩
        else
          let pr := relaxAll g endP cur (cur :: closed) st1 rest (getNeighbors g cur)
          let r := astarLoop g endP fuel pr.1 pr.2 (cur :: closed)
          ⟨cur :: r.order, (st cur).totalCost :: r.fs, r.infGuard, r.exhausted, r.state⟩

/-- `astar(grid, startNode, endNode)` on scratch state `st0`: sets
`startNode.distance = 0` and `startNode.totalCost = heuristic(start, end)`
and runs the loop with open list `[start]` and empty closed set. -/
def astar (g : Grid) (s e : Pos) (st0 : Pos → ANode) : AResult :=
  let st1 := setNode st0 s
    { st0 s with distance := 0, totalCost := (heuristic s e : WithTop ℚ) }
  astarLoop g e (g.rows * g.cols + 1) st1 [s] []

/-! ### BFS (`bfs.js`) -/

/-- `getUnvisitedNeighbors(node, grid)`. -/
def getUnvisitedNeighbors (g : Grid) (st : Pos → BNode) (p : Pos) : List Pos :=
  (getNeighbors g p).filter (fun n => !(st n).isVisited && !g.isWall n)

/-- Marking a discovered neighbor: `isVisited = true`, `previousNode = current`. -/
def markNeighbor (cur : Pos) (st : Pos → BNode) (n : Pos) : Pos → BNode :=
  fun q => if q = n then ⟨true, some cur⟩ else st q

/-- The result of a run of `bfs`: the visitation order, whether the loop
ended with the queue exhausted, and the final scratch state. -/
structure BResult where
  order : List Pos
  exhausted : Bool
  state : Pos → BNode

/-- The main loop of `bfs`, with explicit fuel. -/
def bfsLoop (g : Grid) (endP : Pos) :
    Nat → (Pos → BNode) → List Pos → BResult
  | 0, st, _ => ⟨[], false, st⟩
  | _ + 1, st, [] => ⟨[], true, st⟩
  | fuel + 1, st, cur :: qs =>
    if g.isWall cur = true then bfsLoop g endP fuel st qs
    else if cur = endP then ⟨[cur], false, st⟩
    else
      let ns := getUnvisitedNeighbors g st cur
      let st' := ns.foldl (markNeighbor cur) st
      let r := bfsLoop g endP fuel st' (qs ++ ns)
      ⟨cur :: r.order, r.exhausted, r.state⟩

/-- The state after `startNode.isVisited = true` at the top of `bfs`. -/
def bfsInit (st0 : Pos → BNode) (s : Pos) : Pos → BNode :=
  fun q => if q = s then ⟨true, (st0 s).previousNode⟩ else st0 q

/-- `bfs(grid, startNode, endNode)` on scratch state `st0`: marks the start
visited and runs the loop with queue `[start]`. -/
def bfs (g : Grid) (s e : Pos) (st0 : Pos → BNode) : BResult :=
  bfsLoop g e (g.rows * g.cols + 1) (bfsInit st0 s) [s]

/-! ### Path reconstruction (`getNodesInShortestPathOrder`) -/

/-- `getNodesInShortestPathOrder(endNode)`: walk `previousNode` links from
the end, prepending each cell.  The fuel argument is a modelling device;
on the acyclic predecessor states the searches produce, any fuel at least
the chain length yields the full walk. -/
def getNodesInShortestPathOrder (prev : Pos → Option Pos) :
    Nat → Pos → List Pos
  | 0, p => [p]
  | fuel + 1, p =>
    match prev p with
    | none => [p]
    | some q => getNodesInShortestPathOrder prev fuel q ++ [p]

/-- The `n`-th iterated predecessor of `p` (`some` while the chain lives,
`none` once a cell with no predecessor has been passed). -/
def prevIter (prev : Pos → Option Pos) : Nat → Pos → Option Pos
  | 0, p => some p
  | n + 1, p =>
    match prev p with
    | none => none
    | some q => prevIter prev n q

/-- Following `previousNode` links from `p` reaches a cell with no
predecessor in finitely many steps. -/
def chainHalts (prev : Pos → Option Pos) (p : Pos) : Prop :=
  ∃ n, prevIter prev n p = none

/-- The walk `l` is complete: its first element has no predecessor. -/
def walkComplete (prev : Pos → Option Pos) (l : List Pos) : Prop :=
  ∃ q, l.head? = some q ∧ prev q = none

/-- The predecessor relation admits a rank function, hence is acyclic. -/
def Ranked (prev : Pos → Option Pos) : Prop :=
  ∃ ρ : Pos → Nat, ∀ v u, prev v = some u → ρ u < ρ v

/-- The condition under which the neighbor loop of `astar` relaxes `p`. -/
def relaxCond (g : Grid) (cur : Pos) (closed : List Pos) (st : Pos → ANode) (p : Pos) :
    Prop :=
  p ∉ closed ∧ g.isWall p = false ∧
    (st cur).distance + (jsWeight g p : WithTop ℚ) < (st p).distance

/-- Characterisation of one run of the neighbor loop of `astar`. -/
structure RelaxOut (g : Grid) (endP cur : Pos) (closed : List Pos) (st : Pos → ANode)
    (openL ns : List Pos) (out : (Pos → ANode) × List Pos) : Prop where
  untouched : ∀ p, p ∉ ns → out.1 p = st p
  changed : ∀ p ∈ ns, relaxCond g cur closed st p →
    out.1 p = relaxedNode endP cur p (st p)
      ((st cur).distance + (jsWeight g p : WithTop ℚ)) ∧ p ∈ out.2
  unchanged : ∀ p ∈ ns, ¬ relaxCond g cur closed st p → out.1 p = st p
  shape : ∃ news, out.2 = openL ++ news ∧ news.Nodup ∧
    ∀ x ∈ news, x ∈ ns ∧ x ∉ openL ∧ relaxCond g cur closed st x

/-- Predecessor projection of the A* scratch state. -/
def aPrev (st : Pos → ANode) : Pos → Option Pos := fun p => (st p).previousNode

/-- Predecessor projection of the BFS scratch state. -/
def bPrev (st : Pos → BNode) : Pos → Option Pos := fun p => (st p).previousNode

/-- The loop invariant of `astar` between iterations, for a start `s` and an
end `e` that are in-bounds non-wall cells.  `openL` is the open list,
`closed` the closed set. -/
structure AInv (g : Grid) (s e : Pos) (st : Pos → ANode)
    (openL closed : List Pos) : Prop where
  open_nodup : openL.Nodup
  open_closed : ∀ p ∈ openL, p ∉ closed
  open_inB : ∀ p ∈ openL, g.inB p
  closed_inB : ∀ p ∈ closed, g.inB p
  open_wall : ∀ p ∈ openL, g.isWall p = false
  closed_wall : ∀ p ∈ closed, g.isWall p = false
  open_finite : ∀ p ∈ openL, (st p).distance ≠ ⊤
  closed_finite : ∀ p ∈ closed, (st p).distance ≠ ⊤
  open_f : ∀ p ∈ openL,
    (st p).totalCost = (st p).distance + (heuristic p e : WithTop ℚ)
  dist_nonneg : ∀ p, 0 ≤ (st p).distance
  start_dist : (st s).distance = 0
  start_prev : (st s).previousNode = none
  start_in : s ∈ openL ∨ s ∈ closed
  finite_in : ∀ p, (st p).distance ≠ ⊤ → p ∈ openL ∨ p ∈ closed
  prev_of_inf : ∀ p, (st p).distance = ⊤ → (st p).previousNode = none
  chain : ∀ v, v ≠ s → (st v).distance ≠ ⊤ →
    ∃ u, (st v).previousNode = some u ∧ u ∈ closed ∧ v ∈ getNeighbors g u ∧
      g.inB v ∧ g.isWall v = false ∧
      (st u).distance + ((g.weight v : ℚ) : WithTop ℚ) = (st v).distance
  ranked : Ranked (aPrev st)
  prev_closed : ∀ v u, (st v).previousNode = some u → u ∈ closed
  closed_min : ∀ u ∈ closed, ∀ l, ValidPath g s u l →
    (st u).distance ≤ ((pathCost g l : ℚ) : WithTop ℚ)
  expanded : ∀ u ∈ closed, ∀ v ∈ getNeighbors g u, g.isWall v = false →
    v ∈ closed ∨ (st v).distance ≤ (st u).distance + ((g.weight v : ℚ) : WithTop ℚ)

/-- State-only facts that survive to the end of a run of `astar` and let the
predecessor walk from any finite-distance cell be reconstructed as an
optimal path. -/
structure AFinal (g : Grid) (s e : Pos) (st : Pos → ANode) : Prop where
  start_dist : (st s).distance = 0
  start_prev : (st s).previousNode = none
  start_wall : g.isWall s = false
  finite_inB : ∀ p, (st p).distance ≠ ⊤ → g.inB p
  prev_of_inf : ∀ p, (st p).distance = ⊤ → (st p).previousNode = none
  chain : ∀ v, v ≠ s → (st v).distance ≠ ⊤ →
    ∃ u, (st v).previousNode = some u ∧ v ∈ getNeighbors g u ∧ g.inB v ∧
      g.isWall v = false ∧ (st u).distance ≠ ⊤ ∧
      (st u).distance + ((g.weight v : ℚ) : WithTop ℚ) = (st v).distance
  ranked : Ranked (aPrev st)

/-- The conclusions of the main induction over the `astar` loop, relative to
the state and closed set the loop was entered with. -/
structure AMaster (g : Grid) (s e : Pos) (st : Pos → ANode) (closed : List Pos)
    (r : AResult) : Prop where
  final : AFinal g s e r.state
  order_finite : ∀ z ∈ r.order, (r.state z).distance ≠ ⊤
  exhausted_closed : r.exhausted = true → ∀ z, (r.state z).distance ≠ ⊤ →
    z ∈ closed ∨ z ∈ r.order
  early_end : r.exhausted = false → r.order.getLast? = some e
  reach_end : e ∉ closed → Reachable g s e → r.order.getLast? = some e
  end_min : e ∉ closed → ∀ l, ValidPath g s e l →
    (r.state e).distance ≤ ((pathCost g l : ℚ) : WithTop ℚ)
  dist_mono : ∀ p, (r.state p).distance ≤ (st p).distance

/-- The termination potential of the `astar` loop: open-list length plus the
number of non-wall cells that could still join the open list. -/
def phiA (g : Grid) (openL closed : List Pos) : Nat :=
  openL.length +
    ((posFinset g).filter
      (fun p => g.isWall p = false ∧ p ∉ openL ∧ p ∉ closed)).card

/-- The termination potential of the `bfs` loop. -/
def phiB (g : Grid) (st : Pos → BNode) (queue : List Pos) : Nat :=
  queue.length +
    ((posFinset g).filter (fun p => (st p).isVisited = false)).card

/-- A concrete 2 by 2 open grid of unit weights, for witnesses. -/
def gridW : Grid :=
  { rows := 2, cols := 2, isWall := fun _ => false, weight := fun _ => 1 }

/-- A concrete 2 by 2 unit grid whose cell (1,1) is a wall, for witnesses. -/
def gridWE : Grid :=
  { rows := 2, cols := 2, isWall := fun p => decide (p = (1, 1)),
    weight := fun _ => 1 }

/-- The per-entry invariant of the BFS queue: the cell paired with its exact
breadth-first level `d`.  Its predecessor walk at fuel `d` is already a
complete valid path from the start of length `d + 1`, and no valid path to
it is shorter. -/
def ZipInv (g : Grid) (s : Pos) (st : Pos → BNode) (p : Pos) (d : Nat) : Prop :=
  (st p).isVisited = true ∧ g.isWall p = false ∧ g.inB p ∧
  (∀ l, ValidPath g s p l → d + 1 ≤ l.length) ∧
  ValidPath g s p (getNodesInShortestPathOrder (bPrev st) d p) ∧
  (getNodesInShortestPathOrder (bPrev st) d p).length = d + 1 ∧
  (∀ x ∈ getNodesInShortestPathOrder (bPrev st) d p, (st x).isVisited = true) ∧
  walkComplete (bPrev st) (getNodesInShortestPathOrder (bPrev st) d p)

/-! ## Basic lemmas -/

theorem setNode_self (st : Pos → ANode) (p : Pos) (n : ANode) : setNode st p n p = n := by
  simp [setNode]

theorem setNode_ne (st : Pos → ANode) (p : Pos) (n : ANode) {q : Pos} (h : q ≠ p) :
    setNode st p n q = st q := by
  simp [setNode, h]

theorem mem_getNeighbors {g : Grid} {p q : Pos} :
    q ∈ getNeighbors g p ↔
      (0 < p.1 ∧ q = (p.1 - 1, p.2)) ∨ (p.1 < g.rows - 1 ∧ q = (p.1 + 1, p.2)) ∨
      (0 < p.2 ∧ q = (p.1, p.2 - 1)) ∨ (p.2 < g.cols - 1 ∧ q = (p.1, p.2 + 1)) := by
  have memIte : ∀ (c : Prop) (_ : Decidable c) (x : Pos),
      (q ∈ (if c then [x] else [])) ↔ (c ∧ q = x) := by
    intro c inst x
    split_ifs with hc <;> simp [hc]
  unfold getNeighbors
  simp only [List.mem_append, memIte, or_assoc]

theorem getNeighbors_inB {g : Grid} {p q : Pos} (hp : g.inB p)
    (hq : q ∈ getNeighbors g p) : g.inB q := by
  obtain ⟨hr, hc⟩ := hp
  rcases mem_getNeighbors.1 hq with ⟨h, rfl⟩ | ⟨h, rfl⟩ | ⟨h, rfl⟩ | ⟨h, rfl⟩ <;>
    exact ⟨by omega, by omega⟩

theorem not_mem_getNeighbors_self (g : Grid) (p : Pos) : p ∉ getNeighbors g p := by
  intro h
  rcases mem_getNeighbors.1 h with ⟨h, he⟩ | ⟨h, he⟩ | ⟨h, he⟩ | ⟨h, he⟩ <;>
    · rw [Prod.ext_iff] at he
      omega

theorem getNeighbors_nodup (g : Grid) (p : Pos) : (getNeighbors g p).Nodup := by
  unfold getNeighbors
  split_ifs with h1 h2 h3 h4 <;>
    simp_all [Prod.ext_iff] <;> omega

theorem heuristic_nonneg (a b : Pos) : 0 ≤ heuristic a b := by
  unfold heuristic
  positivity

theorem heuristic_self (a : Pos) : heuristic a a = 0 := by
  simp [heuristic, Nat.dist_self]

theorem heuristic_step {g : Grid} {p q : Pos} (e : Pos) (hq : q ∈ getNeighbors g p) :
    heuristic p e ≤ heuristic q e + 1 := by
  unfold heuristic
  have : Nat.dist p.1 e.1 + Nat.dist p.2 e.2 ≤ (Nat.dist q.1 e.1 + Nat.dist q.2 e.2) + 1 := by
    rcases mem_getNeighbors.1 hq with ⟨h, rfl⟩ | ⟨h, rfl⟩ | ⟨h, rfl⟩ | ⟨h, rfl⟩ <;>
      simp [Nat.dist] <;> omega
  exact_mod_cast this

/-! ## Sorting the open list -/

theorem sortOpen_perm (st : Pos → ANode) (l : List Pos) : (sortOpen st l).Perm l :=
  List.perm_insertionSort _ l

theorem mem_sortOpen {st : Pos → ANode} {l : List Pos} {p : Pos} :
    p ∈ sortOpen st l ↔ p ∈ l :=
  (sortOpen_perm st l).mem_iff

theorem sortOpen_eq_nil_iff {st : Pos → ANode} {l : List Pos} :
    sortOpen st l = [] ↔ l = [] := by
  constructor
  · intro h
    have := (sortOpen_perm st l).length_eq
    rw [h] at this
    exact List.length_eq_zero.1 this.symm
  · intro h; subst h; rfl

theorem sortOpen_nodup {st : Pos → ANode} {l : List Pos} (h : l.Nodup) :
    (sortOpen st l).Nodup :=
  ((sortOpen_perm st l).nodup_iff).2 h

theorem sortOpen_head_min {st : Pos → ANode} {l : List Pos} {cur : Pos} {rest : List Pos}
    (h : sortOpen st l = cur :: rest) :
    ∀ y ∈ l, (st cur).totalCost ≤ (st y).totalCost := by
  intro y hy
  have hsorted : List.Sorted (tcLE st) (sortOpen st l) := List.sorted_insertionSort _ l
  rw [h] at hsorted
  have hy' : y ∈ cur :: rest := by
    rw [← h, mem_sortOpen]; exact hy
  rcases List.mem_cons.1 hy' with rfl | hy'
  · exact le_refl _
  · exact List.rel_of_sorted_cons hsorted y hy'

/-! ## The neighbor loop of `astar` -/

theorem relaxCond_congr {g : Grid} {cur : Pos} {closed : List Pos}
    {st st' : Pos → ANode} {p : Pos} (hc : st' cur = st cur) (hp : st' p = st p) :
    relaxCond g cur closed st' p ↔ relaxCond g cur closed st p := by
  unfold relaxCond
  rw [hc, hp]

theorem relaxAll_spec (g : Grid) (endP cur : Pos) (closed : List Pos) (st : Pos → ANode)
    (openL ns : List Pos) (hns : ns.Nodup) (hcur : cur ∉ ns) :
    RelaxOut g endP cur closed st openL ns (relaxAll g endP cur closed st openL ns) := by
  induction ns generalizing st openL with
  | nil =>
    exact ⟨fun p _ => rfl, fun p hp => absurd hp (List.not_mem_nil p),
      fun p hp => absurd hp (List.not_mem_nil p),
      ⟨[], by simp [relaxAll], List.nodup_nil, fun x hx => absurd hx (List.not_mem_nil x)⟩⟩
  | cons n ns ih =>
    have hnn : n ∉ ns := (List.nodup_cons.1 hns).1
    have hns' : ns.Nodup := (List.nodup_cons.1 hns).2
    have hcn : cur ≠ n := fun h => hcur (h ▸ List.mem_cons_self n ns)
    have hcur' : cur ∉ ns := fun h => hcur (List.mem_cons_of_mem n h)
    have hunf : relaxAll g endP cur closed st openL (n :: ns) =
        relaxAll g endP cur closed (relaxOne g endP cur closed (st, openL) n).1
          (relaxOne g endP cur closed (st, openL) n).2 ns := rfl
    by_cases hskip : n ∈ closed ∨ g.isWall n = true
    · have h1 : relaxOne g endP cur closed (st, openL) n = (st, openL) := by
        unfold relaxOne
        rw [if_pos hskip]
      rw [hunf, h1]
      obtain ⟨hu, hch, hun, news, hsh, hnd, hfacts⟩ := ih st openL hns' hcur'
      refine ⟨fun p hp => hu p (fun h => hp (List.mem_cons_of_mem n h)), ?_, ?_, ?_⟩
      · intro p hp hcond
        rcases List.mem_cons.1 hp with rfl | hp'
        · exact absurd hskip (by
            obtain ⟨h1', h2', _⟩ := hcond
            rintro (h | h)
            · exact h1' h
            · rw [h2'] at h; exact Bool.false_ne_true h)
        · exact hch p hp' hcond
      · intro p hp hcond
        rcases List.mem_cons.1 hp with rfl | hp'
        · exact hu p hnn
        · exact hun p hp' hcond
      · exact ⟨news, hsh, hnd, fun x hx =>
          ⟨List.mem_cons_of_mem n (hfacts x hx).1, (hfacts x hx).2.1, (hfacts x hx).2.2⟩⟩
    · push_neg at hskip
      obtain ⟨hncl, hnw⟩ := hskip
      have hnw' : g.isWall n = false := Bool.not_eq_true _ ▸ hnw
      by_cases hrel : (st cur).distance + (jsWeight g n : WithTop ℚ) < (st n).distance
      · have hcond : relaxCond g cur closed st n := ⟨hncl, hnw', hrel⟩
        set tg : WithTop ℚ := (st cur).distance + (jsWeight g n : WithTop ℚ) with htg
        set st1 : Pos → ANode := setNode st n (relaxedNode endP cur n (st n) tg) with hst1
        set openL' : List Pos := if n ∈ openL then openL else openL ++ [n] with hopenL'
        have h1 : relaxOne g endP cur closed (st, openL) n = (st1, openL') := by
          unfold relaxOne
          rw [if_neg (by rintro (h | h); exacts [hncl h, hnw h])]
          simp only
          rw [if_pos hrel]
        have hst1cur : st1 cur = st cur := setNode_ne st n _ hcn
        have hst1mem : ∀ p ∈ ns, st1 p = st p := fun p hp =>
          setNode_ne st n _ (fun h => hnn (h ▸ hp))
        rw [hunf, h1]
        obtain ⟨hu, hch, hun, news, hsh, hnd, hfacts⟩ := ih st1 openL' hns' hcur'
        have hnmem : n ∈ openL' := by
          rw [hopenL']
          split_ifs with h
          · exact h
          · exact List.mem_append_right openL (List.mem_singleton_self n)
        refine ⟨?_, ?_, ?_, ?_⟩
        · intro p hp
          have hp1 : p ∉ ns := fun h => hp (List.mem_cons_of_mem n h)
          have hp2 : p ≠ n := fun h => hp (h ▸ List.mem_cons_self n ns)
          rw [hu p hp1, hst1]
          exact setNode_ne st n _ hp2
        · intro p hp hcondp
          rcases List.mem_cons.1 hp with rfl | hp'
          · constructor
            · rw [hu p hnn, hst1, setNode_self]
            · have : (relaxAll g endP cur closed st1 openL' ns).2 = openL' ++ news := hsh
              rw [hunf, h1] at *
              rw [this]
              exact List.mem_append_left news hnmem
          · have hcond1 : relaxCond g cur closed st1 p :=
              (relaxCond_congr hst1cur (hst1mem p hp')).2 hcondp
            obtain ⟨he1, he2⟩ := hch p hp' hcond1
            refine ⟨?_, he2⟩
            rw [he1, hst1cur, hst1mem p hp']
        · intro p hp hcondp
          rcases List.mem_cons.1 hp with rfl | hp'
          · exact absurd hcond hcondp
          · have hcond1 : ¬ relaxCond g cur closed st1 p := fun h =>
              hcondp ((relaxCond_congr hst1cur (hst1mem p hp')).1 h)
            rw [hun p hp' hcond1]
            exact hst1mem p hp'
        · by_cases hno : n ∈ openL
          · refine ⟨news, ?_, hnd, ?_⟩
            · rw [hsh, hopenL', if_pos hno]
            · intro x hx
              obtain ⟨hx1, hx2, hx3⟩ := hfacts x hx
              have hxn : x ≠ n := fun h => hnn (h ▸ hx1)
              refine ⟨List.mem_cons_of_mem n hx1, ?_, ?_⟩
              · rw [hopenL', if_pos hno] at hx2
                exact hx2
              · exact (relaxCond_congr hst1cur (hst1mem x hx1)).1 hx3
          · refine ⟨n :: news, ?_, ?_, ?_⟩
            · rw [hsh, hopenL', if_neg hno, List.append_assoc]
              rfl
            · exact List.nodup_cons.2 ⟨fun h => hnn ((hfacts n h).1), hnd⟩
            · intro x hx
              rcases List.mem_cons.1 hx with rfl | hx'
              · exact ⟨List.mem_cons_self x ns, hno, hcond⟩
              · obtain ⟨hx1, hx2, hx3⟩ := hfacts x hx'
                refine ⟨List.mem_cons_of_mem n hx1, ?_, ?_⟩
                · rw [hopenL', if_neg hno] at hx2
                  exact fun h => hx2 (List.mem_append_left [n] h)
                · exact (relaxCond_congr hst1cur (hst1mem x hx1)).1 hx3
      · have h1 : relaxOne g endP cur closed (st, openL) n = (st, openL) := by
          unfold relaxOne
          rw [if_neg (by rintro (h | h); exacts [hncl h, hnw h])]
          simp only
          rw [if_neg hrel]
        rw [hunf, h1]
        obtain ⟨hu, hch, hun, news, hsh, hnd, hfacts⟩ := ih st openL hns' hcur'
        refine ⟨fun p hp => hu p (fun h => hp (List.mem_cons_of_mem n h)), ?_, ?_, ?_⟩
        · intro p hp hcondp
          rcases List.mem_cons.1 hp with rfl | hp'
          · exact absurd hcondp.2.2 hrel
          · exact hch p hp' hcondp
        · intro p hp hcondp
          rcases List.mem_cons.1 hp with rfl | hp'
          · exact hu p hnn
          · exact hun p hp' hcondp
        · exact ⟨news, hsh, hnd, fun x hx =>
            ⟨List.mem_cons_of_mem n (hfacts x hx).1, (hfacts x hx).2.1, (hfacts x hx).2.2⟩⟩

/-! ## Unfolding the main loops -/

theorem astarLoop_zero (g : Grid) (e : Pos) (st : Pos → ANode) (openL closed : List Pos) :
    astarLoop g e 0 st openL closed = ⟨[], [], false, false, st⟩ := rfl

theorem astarLoop_nil {g : Grid} {e : Pos} {st : Pos → ANode} {openL closed : List Pos}
    {fuel : Nat} (h : sortOpen st openL = []) :
    astarLoop g e (fuel + 1) st openL closed = ⟨[], [], false, true, st⟩ := by
  rw [astarLoop, h]

theorem astarLoop_wall {g : Grid} {e : Pos} {st : Pos → ANode} {openL closed : List Pos}
    {fuel : Nat} {cur : Pos} {rest : List Pos} (h : sortOpen st openL = cur :: rest)
    (hw : g.isWall cur = true) :
    astarLoop g e (fuel + 1) st openL closed = astarLoop g e fuel st rest closed := by
  rw [astarLoop, h]
  simp only [hw, if_true]

theorem astarLoop_closedSkip {g : Grid} {e : Pos} {st : Pos → ANode}
    {openL closed : List Pos} {fuel : Nat} {cur : Pos} {rest : List Pos}
    (h : sortOpen st openL = cur :: rest) (hw : g.isWall cur = false) (hc : cur ∈ closed) :
    astarLoop g e (fuel + 1) st openL closed = astarLoop g e fuel st rest closed := by
  rw [astarLoop, h]
  simp only [hw, Bool.false_eq_true, if_false, if_pos hc]

theorem astarLoop_guard {g : Grid} {e : Pos} {st : Pos → ANode}
    {openL closed : List Pos} {fuel : Nat} {cur : Pos} {rest : List Pos}
    (h : sortOpen st openL = cur :: rest) (hw : g.isWall cur = false) (hc : cur ∉ closed)
    (hd : (st cur).distance = ⊤) :
    astarLoop g e (fuel + 1) st openL closed = ⟨[], [], true, false, st⟩ := by
  rw [astarLoop, h]
  simp only [hw, Bool.false_eq_true, if_false, if_neg hc, if_pos hd]

theorem astarLoop_end {g : Grid} {e : Pos} {st : Pos → ANode}
    {openL closed : List Pos} {fuel : Nat} {rest : List Pos}
    (h : sortOpen st openL = e :: rest) (hw : g.isWall e = false) (hc : e ∉ closed)
    (hd : (st e).distance ≠ ⊤) :
    astarLoop g e (fuel + 1) st openL closed =
      ⟨[e], [(st e).totalCost], false, false,
        setNode st e { st e with isVisited := true }⟩ := by
  rw [astarLoop, h]
  simp only [hw, Bool.false_eq_true, if_false, if_neg hc, if_neg hd, if_true]

theorem astarLoop_step {g : Grid} {e : Pos} {st : Pos → ANode}
    {openL closed : List Pos} {fuel : Nat} {cur : Pos} {rest : List Pos}
    (h : sortOpen st openL = cur :: rest) (hw : g.isWall cur = false) (hc : cur ∉ closed)
    (hd : (st cur).distance ≠ ⊤) (hne : cur ≠ e) :
    astarLoop g e (fuel + 1) st openL closed =
      (let st1 := setNode st cur { st cur with isVisited := true }
      let pr := relaxAll g e cur (cur :: closed) st1 rest (getNeighbors g cur)
      let r := astarLoop g e fuel pr.1 pr.2 (cur :: closed)
      ⟨cur :: r.order, (st cur).totalCost :: r.fs, r.infGuard, r.exhausted, r.state⟩) := by
  rw [astarLoop, h]
  simp only [hw, Bool.false_eq_true, if_false, if_neg hc, if_neg hd, if_neg hne]

theorem bfsLoop_zero (g : Grid) (e : Pos) (st : Pos → BNode) (queue : List Pos) :
    bfsLoop g e 0 st queue = ⟨[], false, st⟩ := rfl

theorem bfsLoop_nil (g : Grid) (e : Pos) (st : Pos → BNode) (fuel : Nat) :
    bfsLoop g e (fuel + 1) st [] = ⟨[], true, st⟩ := rfl

theorem bfsLoop_wall {g : Grid} {e : Pos} {st : Pos → BNode} {fuel : Nat} {cur : Pos}
    {qs : List Pos} (hw : g.isWall cur = true) :
    bfsLoop g e (fuel + 1) st (cur :: qs) = bfsLoop g e fuel st qs := by
  rw [bfsLoop]
  simp only [hw, if_true]

theorem bfsLoop_end {g : Grid} {e : Pos} {st : Pos → BNode} {fuel : Nat}
    {qs : List Pos} (hw : g.isWall e = false) :
    bfsLoop g e (fuel + 1) st (e :: qs) = ⟨[e], false, st⟩ := by
  rw [bfsLoop]
  simp only [hw, Bool.false_eq_true, if_false, if_true]

theorem bfsLoop_step {g : Grid} {e : Pos} {st : Pos → BNode} {fuel : Nat} {cur : Pos}
    {qs : List Pos} (hw : g.isWall cur = false) (hne : cur ≠ e) :
    bfsLoop g e (fuel + 1) st (cur :: qs) =
      (let ns := getUnvisitedNeighbors g st cur
      let r := bfsLoop g e fuel (ns.foldl (markNeighbor cur) st) (qs ++ ns)
      ⟨cur :: r.order, r.exhausted, r.state⟩) := by
  rw [bfsLoop]
  simp only [hw, Bool.false_eq_true, if_false, if_neg hne]

/-! ## Marking discovered neighbors in `bfs` -/

theorem markFold_spec (cur : Pos) (ns : List Pos) (st : Pos → BNode) (p : Pos) :
    (ns.foldl (markNeighbor cur) st) p =
      if p ∈ ns then ⟨true, some cur⟩ else st p := by
  induction ns generalizing st with
  | nil => simp
  | cons n ns ih =>
    rw [List.foldl_cons, ih]
    by_cases hp : p ∈ ns
    · simp [hp]
    · by_cases hpn : p = n
      · subst hpn
        simp [hp, markNeighbor]
      · simp [hp, hpn, markNeighbor]

theorem markFold_mem {cur : Pos} {ns : List Pos} {st : Pos → BNode} {p : Pos}
    (h : p ∈ ns) : (ns.foldl (markNeighbor cur) st) p = ⟨true, some cur⟩ := by
  rw [markFold_spec, if_pos h]

theorem markFold_not_mem {cur : Pos} {ns : List Pos} {st : Pos → BNode} {p : Pos}
    (h : p ∉ ns) : (ns.foldl (markNeighbor cur) st) p = st p := by
  rw [markFold_spec, if_neg h]

theorem mem_getUnvisitedNeighbors {g : Grid} {st : Pos → BNode} {p q : Pos} :
    q ∈ getUnvisitedNeighbors g st p ↔
      q ∈ getNeighbors g p ∧ (st q).isVisited = false ∧ g.isWall q = false := by
  unfold getUnvisitedNeighbors
  rw [List.mem_filter]
  simp [Bool.and_eq_true]

theorem getUnvisitedNeighbors_nodup (g : Grid) (st : Pos → BNode) (p : Pos) :
    (getUnvisitedNeighbors g st p).Nodup :=
  (getNeighbors_nodup g p).filter _

/-! ## Path lemmas -/

theorem validPath_ne_nil {g : Grid} {s e : Pos} {l : List Pos} (h : ValidPath g s e l) :
    l ≠ [] := by
  intro hl
  rw [hl] at h
  exact Option.noConfusion h.1

theorem validPath_singleton {g : Grid} {s : Pos} (hs : g.inB s) (hw : g.isWall s = false) :
    ValidPath g s s [s] := by
  exact ⟨rfl, rfl, List.chain'_singleton s, fun p hp => by
    rw [List.mem_singleton] at hp
    exact hp ▸ ⟨hs, hw⟩⟩

theorem validPath_start_mem {g : Grid} {s e : Pos} {l : List Pos} (h : ValidPath g s e l) :
    s ∈ l := by
  obtain ⟨h1, -, -, -⟩ := h
  exact List.mem_of_mem_head? h1

theorem validPath_end_mem {g : Grid} {s e : Pos} {l : List Pos} (h : ValidPath g s e l) :
    e ∈ l := by
  obtain ⟨-, h2, -, -⟩ := h
  exact List.mem_of_mem_getLast? h2

theorem validPath_start_inB {g : Grid} {s e : Pos} {l : List Pos} (h : ValidPath g s e l) :
    g.inB s ∧ g.isWall s = false :=
  h.2.2.2 s (validPath_start_mem h)

theorem validPath_end_inB {g : Grid} {s e : Pos} {l : List Pos} (h : ValidPath g s e l) :
    g.inB e ∧ g.isWall e = false :=
  h.2.2.2 e (validPath_end_mem h)

theorem validPath_append {g : Grid} {s u v : Pos} {l : List Pos}
    (h : ValidPath g s u l) (hv : v ∈ getNeighbors g u) (hvb : g.inB v)
    (hvw : g.isWall v = false) : ValidPath g s v (l ++ [v]) := by
  obtain ⟨h1, h2, h3, h4⟩ := h
  refine ⟨?_, ?_, ?_, ?_⟩
  · rw [List.head?_append_of_ne_nil]
    · exact h1
    · intro hl; rw [hl] at h1; exact Option.noConfusion h1
  · exact List.getLast?_concat l
  · rw [List.chain'_append]
    refine ⟨h3, List.chain'_singleton v, ?_⟩
    intro x hx y hy
    rw [h2] at hx
    rw [List.head?_cons] at hy
    cases hx; cases hy
    exact hv
  · intro p hp
    rcases List.mem_append.1 hp with hp | hp
    · exact h4 p hp
    · rw [List.mem_singleton] at hp
      exact hp ▸ ⟨hvb, hvw⟩

theorem validPath_suffix {g : Grid} {s e y : Pos} {l1 l2 : List Pos}
    (h : ValidPath g s e (l1 ++ y :: l2)) : ValidPath g y e (y :: l2) := by
  obtain ⟨h1, h2, h3, h4⟩ := h
  refine ⟨rfl, ?_, ?_, ?_⟩
  · rw [List.getLast?_append_of_ne_nil l1 (List.cons_ne_nil y l2)] at h2
    exact h2
  · exact (List.chain'_append.1 h3).2.1
  · intro p hp
    exact h4 p (List.mem_append_right l1 hp)

theorem validPath_take {g : Grid} {s e y : Pos} {l1 l2 : List Pos}
    (h : ValidPath g s e (l1 ++ y :: l2)) : ValidPath g s y (l1 ++ [y]) := by
  obtain ⟨h1, h2, h3, h4⟩ := h
  refine ⟨?_, List.getLast?_concat l1, ?_, ?_⟩
  · cases l1 with
    | nil => exact h1
    | cons a t =>
      rw [List.cons_append, List.head?_cons] at h1
      rw [List.cons_append, List.head?_cons]
      exact h1
  · have : l1 ++ y :: l2 = (l1 ++ [y]) ++ l2 := by simp
    rw [this] at h3
    exact (List.chain'_append.1 h3).1
  · intro p hp
    rcases List.mem_append.1 hp with hp | hp
    · exact h4 p (List.mem_append_left _ hp)
    · rw [List.mem_singleton] at hp
      subst hp
      exact h4 _ (List.mem_append_right l1 (List.mem_cons_self _ l2))

theorem pathCost_concat {g : Grid} {l : List Pos} (h : l ≠ []) (v : Pos) :
    pathCost g (l ++ [v]) = pathCost g l + g.weight v := by
  unfold pathCost
  cases l with
  | nil => exact absurd rfl h
  | cons a t => simp

theorem pathCost_cons_cons (g : Grid) (a b : Pos) (t : List Pos) :
    pathCost g (a :: b :: t) = g.weight b + pathCost g (b :: t) := by
  unfold pathCost
  simp

theorem pathCost_split (g : Grid) (l1 : List Pos) (y : Pos) (l2 : List Pos) :
    pathCost g (l1 ++ y :: l2) = pathCost g (l1 ++ [y]) + pathCost g (y :: l2) := by
  unfold pathCost
  cases l1 with
  | nil => simp
  | cons a t => simp; ring

theorem pathCost_nonneg {g : Grid} {s e : Pos} {l : List Pos}
    (hw : ∀ p, g.inB p → g.isWall p = false → 1 ≤ g.weight p) (h : ValidPath g s e l) :
    0 ≤ pathCost g l := by
  unfold pathCost
  apply List.sum_nonneg
  intro x hx
  rw [List.mem_map] at hx
  obtain ⟨p, hp, rfl⟩ := hx
  have hp' := h.2.2.2 p (List.mem_of_mem_tail hp)
  linarith [hw p hp'.1 hp'.2]

theorem heuristic_le_pathCost {g : Grid} (e' : Pos)
    (hw : ∀ p, g.inB p → g.isWall p = false → 1 ≤ g.weight p) :
    ∀ (l : List Pos) (y z : Pos), ValidPath g y z l →
      heuristic y e' ≤ pathCost g l + heuristic z e' := by
  intro l
  induction l with
  | nil => intro y z h; exact absurd rfl (validPath_ne_nil h)
  | cons a t ih =>
    intro y z h
    have hay : a = y := by
      have := h.1
      rw [List.head?_cons] at this
      exact Option.some.inj this
    subst hay
    cases t with
    | nil =>
      have hz : z = a := by
        have := h.2.1
        simp at this
        exact this.symm
      subst hz
      simp [pathCost]
    | cons b t' =>
      have hsuf : ValidPath g b z (b :: t') := @validPath_suffix g _ _ _ [a] _ h
      have hb := h.2.2.2 b (List.mem_cons_of_mem a (List.mem_cons_self b t'))
      have hab : b ∈ getNeighbors g a := by
        have := h.2.2.1
        rw [List.chain'_cons] at this
        exact this.1
      have h1 : heuristic a e' ≤ heuristic b e' + 1 := heuristic_step e' hab
      have h2 := ih b z hsuf
      have h3 : (1 : ℚ) ≤ g.weight b := hw b hb.1 hb.2
      rw [pathCost_cons_cons]
      linarith

/-! ## Path reconstruction walk lemmas -/

theorem walk_getLast (prev : Pos → Option Pos) (fuel : Nat) (p : Pos) :
    (getNodesInShortestPathOrder prev fuel p).getLast? = some p := by
  induction fuel generalizing p with
  | zero => rfl
  | succ n ih =>
    rw [getNodesInShortestPathOrder]
    cases hp : prev p with
    | none => rfl
    | some q => exact List.getLast?_concat _

theorem walk_ne_nil (prev : Pos → Option Pos) (fuel : Nat) (p : Pos) :
    getNodesInShortestPathOrder prev fuel p ≠ [] := by
  intro h
  have := walk_getLast prev fuel p
  rw [h] at this
  exact Option.noConfusion this

theorem walk_self_mem (prev : Pos → Option Pos) (fuel : Nat) (p : Pos) :
    p ∈ getNodesInShortestPathOrder prev fuel p :=
  List.mem_of_mem_getLast? (walk_getLast prev fuel p)

theorem walk_chain (prev : Pos → Option Pos) (fuel : Nat) (p : Pos) :
    List.Chain' (fun a b => prev b = some a)
      (getNodesInShortestPathOrder prev fuel p) := by
  induction fuel generalizing p with
  | zero => exact List.chain'_singleton p
  | succ n ih =>
    rw [getNodesInShortestPathOrder]
    cases hp : prev p with
    | none => exact List.chain'_singleton p
    | some q =>
      rw [List.chain'_append]
      refine ⟨ih q, List.chain'_singleton p, ?_⟩
      intro x hx y hy
      rw [walk_getLast] at hx
      rw [List.head?_cons] at hy
      cases hx; cases hy
      exact hp

theorem walk_of_prev_none {prev : Pos → Option Pos} {p : Pos} (h : prev p = none)
    (fuel : Nat) : getNodesInShortestPathOrder prev fuel p = [p] := by
  cases fuel with
  | zero => rfl
  | succ n =>
    rw [getNodesInShortestPathOrder, h]

theorem walk_congr {prev prev' : Pos → Option Pos} (fuel : Nat) (p : Pos)
    (h : ∀ x ∈ getNodesInShortestPathOrder prev fuel p, prev' x = prev x) :
    getNodesInShortestPathOrder prev' fuel p =
      getNodesInShortestPathOrder prev fuel p := by
  induction fuel generalizing p with
  | zero => rfl
  | succ n ih =>
    have hp : prev' p = prev p := h p (walk_self_mem prev (n + 1) p)
    rw [getNodesInShortestPathOrder, getNodesInShortestPathOrder, hp]
    cases hpp : prev p with
    | none => rfl
    | some q =>
      dsimp only
      rw [ih q]
      intro x hx
      apply h
      rw [getNodesInShortestPathOrder, hpp]
      exact List.mem_append_left _ hx

theorem walk_fuel_mono {prev : Pos → Option Pos} {p : Pos} {n : Nat}
    (hc : walkComplete prev (getNodesInShortestPathOrder prev n p)) :
    ∀ m, n ≤ m → getNodesInShortestPathOrder prev m p =
      getNodesInShortestPathOrder prev n p := by
  induction n generalizing p with
  | zero =>
    obtain ⟨q, hq1, hq2⟩ := hc
    have hqp : q = p := by
      have : (getNodesInShortestPathOrder prev 0 p).head? = some p := rfl
      rw [this] at hq1
      exact (Option.some.inj hq1).symm
    subst hqp
    intro m _
    exact walk_of_prev_none hq2 m
  | succ n ih =>
    intro m hm
    cases hp : prev p with
    | none => rw [walk_of_prev_none hp, walk_of_prev_none hp]
    | some q =>
      obtain ⟨r, hr1, hr2⟩ := hc
      have hcq : walkComplete prev (getNodesInShortestPathOrder prev n q) := by
        rw [getNodesInShortestPathOrder, hp] at hr1
        rw [List.head?_append_of_ne_nil _ (walk_ne_nil prev n q)] at hr1
        exact ⟨r, hr1, hr2⟩
      cases m with
      | zero => omega
      | succ m' =>
        rw [getNodesInShortestPathOrder, getNodesInShortestPathOrder, hp]
        dsimp only
        rw [ih hcq m' (by omega)]

/-! ## Small state-update lemmas -/

theorem setVisited_distance (st : Pos → ANode) (cur p : Pos) :
    ((setNode st cur { st cur with isVisited := true }) p).distance = (st p).distance := by
  by_cases h : p = cur
  · subst h; rw [setNode_self]
  · rw [setNode_ne st cur _ h]

theorem setVisited_totalCost (st : Pos → ANode) (cur p : Pos) :
    ((setNode st cur { st cur with isVisited := true }) p).totalCost =
      (st p).totalCost := by
  by_cases h : p = cur
  · subst h; rw [setNode_self]
  · rw [setNode_ne st cur _ h]

theorem setVisited_previousNode (st : Pos → ANode) (cur p : Pos) :
    ((setNode st cur { st cur with isVisited := true }) p).previousNode =
      (st p).previousNode := by
  by_cases h : p = cur
  · subst h; rw [setNode_self]
  · rw [setNode_ne st cur _ h]

theorem bool_not_true {b : Bool} (h : ¬ b = true) : b = false := by
  cases b
  · rfl
  · exact absurd rfl h

theorem finite_add_coe {a : WithTop ℚ} (ha : a ≠ ⊤) (c : ℚ) :
    a + (c : WithTop ℚ) ≠ ⊤ := by
  obtain ⟨x, hx⟩ := WithTop.ne_top_iff_exists.1 ha
  rw [← hx, ← WithTop.coe_add]
  exact WithTop.coe_ne_top

/-! ## A* never revisits a closed cell and never expands a wall -/

theorem astar_order_aux (g : Grid) (e : Pos) :
    ∀ (fuel : Nat) (st : Pos → ANode) (openL closed : List Pos),
      (astarLoop g e fuel st openL closed).order.Nodup ∧
      ∀ p ∈ (astarLoop g e fuel st openL closed).order,
        g.isWall p = false ∧ p ∉ closed := by
  intro fuel
  induction fuel with
  | zero =>
    intro st openL closed
    rw [astarLoop_zero]
    exact ⟨List.nodup_nil, by simp⟩
  | succ n ih =>
    intro st openL closed
    cases hs : sortOpen st openL with
    | nil =>
      rw [astarLoop_nil hs]
      exact ⟨List.nodup_nil, by simp⟩
    | cons cur rest =>
      by_cases hw : g.isWall cur = true
      · rw [astarLoop_wall hs hw]
        exact ih st rest closed
      · have hw' : g.isWall cur = false := bool_not_true hw
        by_cases hc : cur ∈ closed
        · rw [astarLoop_closedSkip hs hw' hc]
          exact ih st rest closed
        · by_cases hd : (st cur).distance = ⊤
          · rw [astarLoop_guard hs hw' hc hd]
            exact ⟨List.nodup_nil, by simp⟩
          · by_cases hce : cur = e
            · subst hce
              rw [astarLoop_end hs hw' hc hd]
              refine ⟨List.nodup_singleton cur, ?_⟩
              intro p hp
              rw [List.mem_singleton] at hp
              subst hp
              exact ⟨hw', hc⟩
            · rw [astarLoop_step hs hw' hc hd hce]
              dsimp only
              obtain ⟨ihn, ihm⟩ := ih _ _ (cur :: closed)
              refine ⟨?_, ?_⟩
              · exact List.nodup_cons.2
                  ⟨fun hmem => (ihm cur hmem).2 (List.mem_cons_self _ _), ihn⟩
              · intro p hp
                rcases List.mem_cons.1 hp with rfl | hp'
                · exact ⟨hw', hc⟩
                · exact ⟨(ihm p hp').1,
                    fun h => (ihm p hp').2 (List.mem_cons_of_mem _ h)⟩

/-! ## The `Infinity` guard of A* never fires -/

theorem astar_guard_aux (g : Grid) (e : Pos) :
    ∀ (fuel : Nat) (st : Pos → ANode) (openL closed : List Pos),
      (∀ p ∈ openL, (st p).distance ≠ ⊤ ∧ (st p).totalCost ≠ ⊤) →
      (astarLoop g e fuel st openL closed).infGuard = false ∧
      ∀ f ∈ (astarLoop g e fuel st openL closed).fs, f ≠ ⊤ := by
  intro fuel
  induction fuel with
  | zero =>
    intro st openL closed _
    rw [astarLoop_zero]
    exact ⟨rfl, by simp⟩
  | succ n ih =>
    intro st openL closed hfin
    cases hs : sortOpen st openL with
    | nil =>
      rw [astarLoop_nil hs]
      exact ⟨rfl, by simp⟩
    | cons cur rest =>
      have hcur_mem : cur ∈ openL := by
        rw [← @mem_sortOpen st _ _, hs]; exact List.mem_cons_self _ _
      have hrest_mem : ∀ p ∈ rest, p ∈ openL := by
        intro p hp
        rw [← @mem_sortOpen st _ _, hs]
        exact List.mem_cons_of_mem _ hp
      have hrest : ∀ p ∈ rest, (st p).distance ≠ ⊤ ∧ (st p).totalCost ≠ ⊤ :=
        fun p hp => hfin p (hrest_mem p hp)
      by_cases hw : g.isWall cur = true
      · rw [astarLoop_wall hs hw]
        exact ih st rest closed hrest
      · have hw' : g.isWall cur = false := bool_not_true hw
        by_cases hc : cur ∈ closed
        · rw [astarLoop_closedSkip hs hw' hc]
          exact ih st rest closed hrest
        · have hd : (st cur).distance ≠ ⊤ := (hfin cur hcur_mem).1
          by_cases hce : cur = e
          · subst hce
            rw [astarLoop_end hs hw' hc hd]
            refine ⟨rfl, ?_⟩
            intro f hf
            rw [List.mem_singleton] at hf
            subst hf
            exact (hfin cur hcur_mem).2
          · rw [astarLoop_step hs hw' hc hd hce]
            dsimp only
            set st1 := setNode st cur { st cur with isVisited := true } with hst1
            have hro := relaxAll_spec g e cur (cur :: closed) st1 rest
              (getNeighbors g cur) (getNeighbors_nodup g cur)
              (not_mem_getNeighbors_self g cur)
            set pr := relaxAll g e cur (cur :: closed) st1 rest (getNeighbors g cur)
              with hpr
            have hcur1 : (st1 cur).distance ≠ ⊤ := by
              rw [hst1, setVisited_distance]; exact hd
            have hfin' : ∀ p ∈ pr.2, (pr.1 p).distance ≠ ⊤ ∧ (pr.1 p).totalCost ≠ ⊤ := by
              intro p hp
              by_cases hmem : p ∈ getNeighbors g cur
              · by_cases hcond : relaxCond g cur (cur :: closed) st1 p
                · obtain ⟨heq, -⟩ := hro.changed p hmem hcond
                  rw [heq]
                  unfold relaxedNode
                  dsimp only
                  have htg : (st1 cur).distance + (jsWeight g p : WithTop ℚ) ≠ ⊤ :=
                    finite_add_coe hcur1 _
                  exact ⟨htg, finite_add_coe htg _⟩
                · have heq := hro.unchanged p hmem hcond
                  rw [heq]
                  obtain ⟨news, hsh, -, hfacts⟩ := hro.shape
                  rw [hsh] at hp
                  rcases List.mem_append.1 hp with hp' | hp'
                  · have := hrest p hp'
                    rw [hst1, setVisited_distance, setVisited_totalCost]
                    exact this
                  · exact absurd ((hfacts p hp').2.2) hcond
              · have heq := hro.untouched p hmem
                rw [heq]
                obtain ⟨news, hsh, -, hfacts⟩ := hro.shape
                rw [hsh] at hp
                rcases List.mem_append.1 hp with hp' | hp'
                · have := hrest p hp'
                  rw [hst1, setVisited_distance, setVisited_totalCost]
                  exact this
                · exact absurd ((hfacts p hp').1) hmem
            obtain ⟨ih1, ih2⟩ := ih pr.1 pr.2 (cur :: closed) hfin'
            refine ⟨ih1, ?_⟩
            intro f hf
            rcases List.mem_cons.1 hf with rfl | hf'
            · exact (hfin cur hcur_mem).2
            · exact ih2 f hf'

/-! ## f-monotonicity of the A* visitation order -/

theorem jsWeight_eq {g : Grid} {p : Pos} (h : 1 ≤ g.weight p) :
    jsWeight g p = g.weight p := by
  unfold jsWeight
  rw [if_neg]
  intro h0
  rw [h0] at h
  norm_num at h

theorem astar_fs_aux (g : Grid) (e : Pos)
    (hwt : ∀ p, g.inB p → g.isWall p = false → 1 ≤ g.weight p) :
    ∀ (fuel : Nat) (st : Pos → ANode) (openL closed : List Pos) (c : WithTop ℚ),
      (∀ p ∈ openL, g.isWall p = false ∧ g.inB p ∧ (st p).distance ≠ ⊤ ∧
        (st p).totalCost = (st p).distance + (heuristic p e : WithTop ℚ)) →
      (∀ p ∈ openL, c ≤ (st p).totalCost) →
      List.Chain' (· ≤ ·) (astarLoop g e fuel st openL closed).fs ∧
      ∀ f ∈ (astarLoop g e fuel st openL closed).fs, c ≤ f := by
  intro fuel
  induction fuel with
  | zero =>
    intro st openL closed c _ _
    rw [astarLoop_zero]
    exact ⟨List.chain'_nil, by simp⟩
  | succ n ih =>
    intro st openL closed c hopen hbound
    cases hs : sortOpen st openL with
    | nil =>
      rw [astarLoop_nil hs]
      exact ⟨List.chain'_nil, by simp⟩
    | cons cur rest =>
      have hcur_mem : cur ∈ openL := by
        rw [← @mem_sortOpen st _ _, hs]; exact List.mem_cons_self _ _
      have hrest_mem : ∀ p ∈ rest, p ∈ openL := by
        intro p hp
        rw [← @mem_sortOpen st _ _, hs]
        exact List.mem_cons_of_mem _ hp
      obtain ⟨hcw, hcb, hcd, hctc⟩ := hopen cur hcur_mem
      have hmin : ∀ y ∈ openL, (st cur).totalCost ≤ (st y).totalCost :=
        sortOpen_head_min hs
      by_cases hw : g.isWall cur = true
      · rw [hcw] at hw
        exact absurd hw Bool.false_ne_true
      · by_cases hc : cur ∈ closed
        · rw [astarLoop_closedSkip hs hcw hc]
          exact ih st rest closed c (fun p hp => hopen p (hrest_mem p hp))
            (fun p hp => hbound p (hrest_mem p hp))
        · by_cases hce : cur = e
          · subst hce
            rw [astarLoop_end hs hcw hc hcd]
            refine ⟨List.chain'_singleton _, ?_⟩
            intro f hf
            rw [List.mem_singleton] at hf
            subst hf
            exact hbound cur hcur_mem
          · rw [astarLoop_step hs hcw hc hcd hce]
            dsimp only
            set st1 := setNode st cur { st cur with isVisited := true } with hst1
            have hro := relaxAll_spec g e cur (cur :: closed) st1 rest
              (getNeighbors g cur) (getNeighbors_nodup g cur)
              (not_mem_getNeighbors_self g cur)
            set pr := relaxAll g e cur (cur :: closed) st1 rest (getNeighbors g cur)
              with hpr
            obtain ⟨dc, hdc⟩ := WithTop.ne_top_iff_exists.1 hcd
            have hst1cur : (st1 cur).distance = (st cur).distance := by
              rw [hst1, setVisited_distance]
            -- a relaxed neighbor satisfies the open-list invariant and the bound
            have hrelaxed : ∀ p ∈ getNeighbors g cur,
                relaxCond g cur (cur :: closed) st1 p →
                (g.isWall p = false ∧ g.inB p ∧ (pr.1 p).distance ≠ ⊤ ∧
                  (pr.1 p).totalCost = (pr.1 p).distance + (heuristic p e : WithTop ℚ)) ∧
                (st cur).totalCost ≤ (pr.1 p).totalCost := by
              intro p hpmem hpcond
              obtain ⟨heq, -⟩ := hro.changed p hpmem hpcond
              obtain ⟨-, hpw, -⟩ := hpcond
              have hpb : g.inB p := getNeighbors_inB hcb hpmem
              have hwp : 1 ≤ g.weight p := hwt p hpb hpw
              have hjw : jsWeight g p = g.weight p := jsWeight_eq hwp
              have htg : (st1 cur).distance + (jsWeight g p : WithTop ℚ) =
                  ((dc + g.weight p : ℚ) : WithTop ℚ) := by
                rw [hst1cur, ← hdc, hjw, ← WithTop.coe_add]
              rw [heq]
              unfold relaxedNode
              dsimp only
              constructor
              · refine ⟨hpw, hpb, ?_, rfl⟩
                rw [htg]
                exact WithTop.coe_ne_top
              · rw [htg, ← WithTop.coe_add, hctc, ← hdc, ← WithTop.coe_add,
                  WithTop.coe_le_coe]
                have hstep : heuristic cur e ≤ heuristic p e + 1 := heuristic_step e hpmem
                linarith
            have hpr_open : ∀ p ∈ pr.2, g.isWall p = false ∧ g.inB p ∧
                (pr.1 p).distance ≠ ⊤ ∧
                (pr.1 p).totalCost = (pr.1 p).distance + (heuristic p e : WithTop ℚ) := by
              intro p hp
              by_cases hmem : p ∈ getNeighbors g cur
              · by_cases hcond : relaxCond g cur (cur :: closed) st1 p
                · exact (hrelaxed p hmem hcond).1
                · have heq := hro.unchanged p hmem hcond
                  obtain ⟨news, hsh, -, hfacts⟩ := hro.shape
                  rw [hsh] at hp
                  rcases List.mem_append.1 hp with hp' | hp'
                  · have h0 := hopen p (hrest_mem p hp')
                    rw [heq, hst1, setVisited_distance, setVisited_totalCost]
                    exact h0
                  · exact absurd ((hfacts p hp').2.2) hcond
              · have heq := hro.untouched p hmem
                obtain ⟨news, hsh, -, hfacts⟩ := hro.shape
                rw [hsh] at hp
                rcases List.mem_append.1 hp with hp' | hp'
                · have h0 := hopen p (hrest_mem p hp')
                  rw [heq, hst1, setVisited_distance, setVisited_totalCost]
                  exact h0
                · exact absurd ((hfacts p hp').1) hmem
            have hpr_bound : ∀ p ∈ pr.2, (st cur).totalCost ≤ (pr.1 p).totalCost := by
              intro p hp
              by_cases hmem : p ∈ getNeighbors g cur
              · by_cases hcond : relaxCond g cur (cur :: closed) st1 p
                · exact (hrelaxed p hmem hcond).2
                · have heq := hro.unchanged p hmem hcond
                  obtain ⟨news, hsh, -, hfacts⟩ := hro.shape
                  rw [hsh] at hp
                  rcases List.mem_append.1 hp with hp' | hp'
                  · rw [heq, hst1, setVisited_totalCost]
                    exact hmin p (hrest_mem p hp')
                  · exact absurd ((hfacts p hp').2.2) hcond
              · have heq := hro.untouched p hmem
                obtain ⟨news, hsh, -, hfacts⟩ := hro.shape
                rw [hsh] at hp
                rcases List.mem_append.1 hp with hp' | hp'
                · rw [heq, hst1, setVisited_totalCost]
                  exact hmin p (hrest_mem p hp')
                · exact absurd ((hfacts p hp').1) hmem
            obtain ⟨ih1, ih2⟩ := ih pr.1 pr.2 (cur :: closed) ((st cur).totalCost)
              hpr_open hpr_bound
            refine ⟨?_, ?_⟩
            · rw [List.chain'_cons']
              exact ⟨fun h hh => ih2 h (List.mem_of_mem_head? hh), ih1⟩
            · intro f hf
              rcases List.mem_cons.1 hf with rfl | hf'
              · exact hbound cur hcur_mem
              · exact le_trans (hbound cur hcur_mem) (ih2 f hf')

/-! ## The frontier argument and optimality of popped cells -/

theorem mem_posFinset {g : Grid} {p : Pos} : p ∈ posFinset g ↔ g.inB p := by
  unfold posFinset Grid.inB
  rw [Finset.mem_product, Finset.mem_range, Finset.mem_range]

theorem posFinset_card (g : Grid) : (posFinset g).card = g.rows * g.cols := by
  unfold posFinset
  rw [Finset.card_product, Finset.card_range, Finset.card_range]

theorem nodup_length_le {g : Grid} {l : List Pos} (hn : l.Nodup)
    (hb : ∀ x ∈ l, g.inB x) : l.length ≤ g.rows * g.cols := by
  have h1 : l.toFinset ⊆ posFinset g := by
    intro x hx
    rw [mem_posFinset]
    exact hb x (List.mem_toFinset.1 hx)
  have h2 := Finset.card_le_card h1
  rw [List.toFinset_card_of_nodup hn, posFinset_card] at h2
  exact h2

theorem exists_first_not_closed {closed : List Pos} :
    ∀ (l : List Pos) (z : Pos), z ∈ l → z ∉ closed →
      ∃ l1 y l2, l = l1 ++ y :: l2 ∧ (∀ x ∈ l1, x ∈ closed) ∧ y ∉ closed := by
  intro l
  induction l with
  | nil => intro z hz _; exact absurd hz (List.not_mem_nil z)
  | cons a t ih =>
    intro z hz hzc
    by_cases ha : a ∈ closed
    · have hzt : z ∈ t := by
        rcases List.mem_cons.1 hz with rfl | h
        · exact absurd ha hzc
        · exact h
      obtain ⟨l1, y, l2, heq, h1, h2⟩ := ih z hzt hzc
      refine ⟨a :: l1, y, l2, by rw [heq]; rfl, ?_, h2⟩
      intro x hx
      rcases List.mem_cons.1 hx with rfl | h
      · exact ha
      · exact h1 x h
    · exact ⟨[], a, t, rfl, by simp, ha⟩

theorem frontier_of_inv {g : Grid} {s e : Pos} {st : Pos → ANode}
    {openL closed : List Pos} (inv : AInv g s e st openL closed) :
    ∀ z l, ValidPath g s z l → z ∉ closed →
      ∃ y, y ∈ openL ∧ ∃ l1 l2, l = l1 ++ y :: l2 ∧
        (st y).distance ≤ ((pathCost g (l1 ++ [y]) : ℚ) : WithTop ℚ) := by
  intro z l hl hz
  obtain ⟨l1, y, l2, heq, hcl, hyc⟩ :=
    exists_first_not_closed l z (validPath_end_mem hl) hz
  rcases List.eq_nil_or_concat l1 with rfl | ⟨l1', u, rfl⟩
  · have hys : y = s := by
      have h1 := hl.1
      rw [heq] at h1
      rw [List.nil_append, List.head?_cons] at h1
      exact Option.some.inj h1
    subst hys
    have hyo : y ∈ openL := by
      rcases inv.start_in with h | h
      · exact h
      · exact absurd h hyc
    refine ⟨y, hyo, [], l2, heq, ?_⟩
    have : pathCost g ([] ++ [y]) = 0 := by simp [pathCost]
    rw [this, inv.start_dist, WithTop.coe_zero]
  · rw [List.concat_eq_append] at heq hcl
    have hu : u ∈ closed := hcl u (List.mem_append_right l1' (List.mem_singleton_self u))
    have heq2 : l = l1' ++ u :: y :: l2 := by
      rw [heq, List.append_assoc]
      rfl
    have hyu : y ∈ getNeighbors g u := by
      have h3 := hl.2.2.1
      rw [heq] at h3
      obtain ⟨-, -, hlink⟩ := List.chain'_append.1 h3
      exact hlink u (List.getLast?_concat l1') y rfl
    have hpre : ValidPath g s u (l1' ++ [u]) := validPath_take (heq2 ▸ hl)
    have hdu := inv.closed_min u hu (l1' ++ [u]) hpre
    have hymem : y ∈ l := by
      rw [heq]
      exact List.mem_append_right _ (List.mem_cons_self y l2)
    obtain ⟨hyb, hyw⟩ := hl.2.2.2 y hymem
    have hexp := inv.expanded u hu y hyu hyw
    rcases hexp with h | h
    · exact absurd h hyc
    · have hdy : (st y).distance ≤
          ((pathCost g (l1' ++ [u]) + g.weight y : ℚ) : WithTop ℚ) := by
        calc (st y).distance ≤ (st u).distance + ((g.weight y : ℚ) : WithTop ℚ) := h
          _ ≤ ((pathCost g (l1' ++ [u]) : ℚ) : WithTop ℚ) +
              ((g.weight y : ℚ) : WithTop ℚ) := add_le_add_right hdu _
          _ = ((pathCost g (l1' ++ [u]) + g.weight y : ℚ) : WithTop ℚ) := by
            rw [WithTop.coe_add]
      have hcost : pathCost g ((l1' ++ [u]) ++ [y]) =
          pathCost g (l1' ++ [u]) + g.weight y :=
        pathCost_concat (by simp) y
      have hyo : y ∈ openL := by
        have hfin : (st y).distance ≠ ⊤ :=
          ne_top_of_le_ne_top WithTop.coe_ne_top hdy
        rcases inv.finite_in y hfin with h' | h'
        · exact h'
        · exact absurd h' hyc
      exact ⟨y, hyo, l1' ++ [u], l2, heq, by rw [hcost]; exact hdy⟩

theorem pop_min {g : Grid} {s e : Pos} {st : Pos → ANode} {openL closed : List Pos}
    {cur : Pos} {rest : List Pos}
    (hwt : ∀ p, g.inB p → g.isWall p = false → 1 ≤ g.weight p)
    (inv : AInv g s e st openL closed)
    (hs : sortOpen st openL = cur :: rest) (hc : cur ∉ closed) :
    ∀ l, ValidPath g s cur l →
      (st cur).distance ≤ ((pathCost g l : ℚ) : WithTop ℚ) := by
  intro l hl
  obtain ⟨y, hy, l1, l2, heq, hbound⟩ := frontier_of_inv inv cur l hl hc
  have hcur_mem : cur ∈ openL := by
    rw [← @mem_sortOpen st _ _, hs]
    exact List.mem_cons_self _ _
  have hmin := sortOpen_head_min hs y hy
  obtain ⟨dc, hdc⟩ := WithTop.ne_top_iff_exists.1 (inv.open_finite cur hcur_mem)
  obtain ⟨dy, hdy⟩ := WithTop.ne_top_iff_exists.1 (inv.open_finite y hy)
  rw [inv.open_f cur hcur_mem, inv.open_f y hy, ← hdc, ← hdy, ← WithTop.coe_add,
    ← WithTop.coe_add, WithTop.coe_le_coe] at hmin
  have hsuf : ValidPath g y cur (y :: l2) := validPath_suffix (heq ▸ hl)
  have hcons := heuristic_le_pathCost e hwt (y :: l2) y cur hsuf
  rw [← hdy, WithTop.coe_le_coe] at hbound
  have hsplit : pathCost g l = pathCost g (l1 ++ [y]) + pathCost g (y :: l2) := by
    rw [heq]
    exact pathCost_split g l1 y l2
  rw [← hdc, WithTop.coe_le_coe, hsplit]
  linarith

/-! ## Reconstructing optimal paths from the final A* state -/

theorem walk_of_final {g : Grid} {s e : Pos} {st : Pos → ANode}
    (haf : AFinal g s e st) :
    ∀ v, (st v).distance ≠ ⊤ →
      ∃ n l, (∀ m, n ≤ m → getNodesInShortestPathOrder (aPrev st) m v = l) ∧
        ValidPath g s v l ∧
        ((pathCost g l : ℚ) : WithTop ℚ) = (st v).distance ∧
        l.Nodup ∧ n + 1 = l.length ∧ (∀ x ∈ l, (st x).distance ≠ ⊤) := by
  obtain ⟨ρ, hρ⟩ := haf.ranked
  have main : ∀ k v, ρ v < k → (st v).distance ≠ ⊤ →
      ∃ n l, (∀ m, n ≤ m → getNodesInShortestPathOrder (aPrev st) m v = l) ∧
        ValidPath g s v l ∧
        ((pathCost g l : ℚ) : WithTop ℚ) = (st v).distance ∧
        l.Nodup ∧ n + 1 = l.length ∧ (∀ x ∈ l, (st x).distance ≠ ⊤) ∧
        (∀ x ∈ l, ρ x ≤ ρ v) := by
    intro k
    induction k with
    | zero => intro v h; omega
    | succ k ih =>
      intro v hρv hv
      by_cases hvs : v = s
      · subst hvs
        refine ⟨0, [v], ?_, ?_, ?_, List.nodup_singleton v, rfl, ?_, ?_⟩
        · intro m _
          exact walk_of_prev_none (by rw [aPrev]; exact haf.start_prev) m
        · exact validPath_singleton (haf.finite_inB v hv) haf.start_wall
        · have : pathCost g [v] = 0 := by simp [pathCost]
          rw [this, WithTop.coe_zero, haf.start_dist]
        · intro x hx
          rw [List.mem_singleton] at hx
          subst hx
          exact hv
        · intro x hx
          rw [List.mem_singleton] at hx
          subst hx
          exact le_refl _
      · obtain ⟨u, hpu, hadj, hvb, hvw, hud, heq⟩ := haf.chain v hvs hv
        have hρu : ρ u < ρ v := hρ v u hpu
        obtain ⟨n, lu, hstab, hval, hcost, hnd, hlen, hfin, hrk⟩ :=
          ih u (by omega) hud
        refine ⟨n + 1, lu ++ [v], ?_, ?_, ?_, ?_, ?_, ?_, ?_⟩
        · intro m hm
          cases m with
          | zero => omega
          | succ m' =>
            rw [getNodesInShortestPathOrder]
            have huv : aPrev st v = some u := hpu
            rw [huv]
            dsimp only
            rw [hstab m' (by omega)]
        · exact validPath_append hval hadj hvb hvw
        · rw [pathCost_concat (validPath_ne_nil hval) v, WithTop.coe_add, hcost, heq]
        · rw [List.nodup_append]
          refine ⟨hnd, List.nodup_singleton v, ?_⟩
          intro x hx hxv
          rw [List.mem_singleton] at hxv
          subst hxv
          have := hrk x hx
          omega
        · rw [List.length_append, List.length_singleton]
          omega
        · intro x hx
          rcases List.mem_append.1 hx with hx' | hx'
          · exact hfin x hx'
          · rw [List.mem_singleton] at hx'
            subst hx'
            exact hv
        · intro x hx
          rcases List.mem_append.1 hx with hx' | hx'
          · exact le_trans (hrk x hx') (le_of_lt hρu)
          · rw [List.mem_singleton] at hx'
            subst hx'
            exact le_refl _
  intro v hv
  obtain ⟨n, l, h1, h2, h3, h4, h5, h6, -⟩ := main (ρ v + 1) v (by omega) hv
  exact ⟨n, l, h1, h2, h3, h4, h5, h6⟩

/-! ## Preservation of the A* loop invariant across one expansion -/

theorem AInv_step {g : Grid} {s e : Pos} {st : Pos → ANode} {openL closed : List Pos}
    {cur : Pos} {rest : List Pos}
    (hwt : ∀ p, g.inB p → g.isWall p = false → 1 ≤ g.weight p)
    (inv : AInv g s e st openL closed)
    (hs : sortOpen st openL = cur :: rest) (hc : cur ∉ closed) :
    AInv g s e
      (relaxAll g e cur (cur :: closed)
        (setNode st cur { st cur with isVisited := true }) rest (getNeighbors g cur)).1
      (relaxAll g e cur (cur :: closed)
        (setNode st cur { st cur with isVisited := true }) rest (getNeighbors g cur)).2
      (cur :: closed) := by
  classical
  set st1 := setNode st cur { st cur with isVisited := true } with hst1
  set ns := getNeighbors g cur with hnsdef
  have hro := relaxAll_spec g e cur (cur :: closed) st1 rest ns
    (getNeighbors_nodup g cur) (not_mem_getNeighbors_self g cur)
  set pr := relaxAll g e cur (cur :: closed) st1 rest ns with hpr
  obtain ⟨news, hsh, hnewnd, hnewf⟩ := hro.shape
  have hcur_mem : cur ∈ openL := by
    rw [← @mem_sortOpen st _ _, hs]
    exact List.mem_cons_self _ _
  have hrest_mem : ∀ p ∈ rest, p ∈ openL := by
    intro p hp
    rw [← @mem_sortOpen st _ _, hs]
    exact List.mem_cons_of_mem _ hp
  have hsortnd : (cur :: rest).Nodup := by
    rw [← hs]
    exact sortOpen_nodup inv.open_nodup
  have hcur_rest : cur ∉ rest := (List.nodup_cons.1 hsortnd).1
  have hrest_nd : rest.Nodup := (List.nodup_cons.1 hsortnd).2
  have hcw : g.isWall cur = false := inv.open_wall cur hcur_mem
  have hcb : g.inB cur := inv.open_inB cur hcur_mem
  have hcd : (st cur).distance ≠ ⊤ := inv.open_finite cur hcur_mem
  obtain ⟨dc, hdc⟩ := WithTop.ne_top_iff_exists.1 hcd
  have hdc0 : 0 ≤ dc := by
    have := inv.dist_nonneg cur
    rw [← hdc, ← WithTop.coe_zero, WithTop.coe_le_coe] at this
    exact this
  have hdist1 : ∀ p, (st1 p).distance = (st p).distance := setVisited_distance st cur
  have htc1 : ∀ p, (st1 p).totalCost = (st p).totalCost := setVisited_totalCost st cur
  have hprev1 : ∀ p, (st1 p).previousNode = (st p).previousNode :=
    setVisited_previousNode st cur
  have hchanged : ∀ p, p ∈ ns → relaxCond g cur (cur :: closed) st1 p →
      (pr.1 p).distance = ((dc + g.weight p : ℚ) : WithTop ℚ) ∧
      (pr.1 p).totalCost = (pr.1 p).distance + (heuristic p e : WithTop ℚ) ∧
      (pr.1 p).previousNode = some cur ∧ p ∈ pr.2 ∧ g.inB p ∧
      g.isWall p = false ∧ 1 ≤ g.weight p := by
    intro p hp hcond
    obtain ⟨heq, hmem⟩ := hro.changed p hp hcond
    have hpw : g.isWall p = false := hcond.2.1
    have hpb : g.inB p := getNeighbors_inB hcb hp
    have h1w : 1 ≤ g.weight p := hwt p hpb hpw
    have hjw : jsWeight g p = g.weight p := jsWeight_eq h1w
    have htg : (st1 cur).distance + (jsWeight g p : WithTop ℚ) =
        ((dc + g.weight p : ℚ) : WithTop ℚ) := by
      rw [hdist1 cur, ← hdc, hjw, ← WithTop.coe_add]
    rw [heq]
    unfold relaxedNode
    refine ⟨htg, ?_, rfl, hmem, hpb, hpw, h1w⟩
    dsimp only
  have hunch : ∀ p, ¬(p ∈ ns ∧ relaxCond g cur (cur :: closed) st1 p) →
      pr.1 p = st1 p := by
    intro p hp
    by_cases hm : p ∈ ns
    · exact hro.unchanged p hm (fun hcond => hp ⟨hm, hcond⟩)
    · exact hro.untouched p hm
  have hclosed_unch : ∀ u ∈ cur :: closed, pr.1 u = st1 u := by
    intro u hu
    exact hunch u (fun h => h.2.1 hu)
  have hmono : ∀ p, (pr.1 p).distance ≤ (st p).distance := by
    intro p
    by_cases h : p ∈ ns ∧ relaxCond g cur (cur :: closed) st1 p
    · obtain ⟨heq, -⟩ := hro.changed p h.1 h.2
      rw [heq]
      unfold relaxedNode
      dsimp only
      rw [← hdist1 p]
      exact le_of_lt h.2.2.2
    · rw [hunch p h, hdist1]
  have hcur_same : pr.1 cur = st1 cur :=
    hclosed_unch cur (List.mem_cons_self _ _)
  have hmem2 : ∀ p, p ∈ pr.2 ↔ p ∈ rest ∨ p ∈ news := by
    intro p
    rw [hsh, List.mem_append]
  have hnot_cond_s : ¬ (s ∈ ns ∧ relaxCond g cur (cur :: closed) st1 s) := by
    rintro ⟨hm, hcond⟩
    have hpb : g.inB s := getNeighbors_inB hcb hm
    have h1w : 1 ≤ g.weight s := hwt s hpb hcond.2.1
    have hjw : jsWeight g s = g.weight s := jsWeight_eq h1w
    have hlt := hcond.2.2
    rw [hdist1 s, inv.start_dist, hdist1 cur, ← hdc, hjw, ← WithTop.coe_add,
      ← WithTop.coe_zero, WithTop.coe_lt_coe] at hlt
    linarith
  refine ⟨?_, ?_, ?_, ?_, ?_, ?_, ?_, ?_, ?_, ?_, ?_, ?_, ?_, ?_, ?_, ?_, ?_, ?_, ?_, ?_⟩
  · -- open_nodup
    rw [hsh, List.nodup_append]
    exact ⟨hrest_nd, hnewnd, fun a ha hb => (hnewf a hb).2.1 ha⟩
  · -- open_closed
    intro p hp
    rcases (hmem2 p).1 hp with hp' | hp'
    · intro hmem
      rcases List.mem_cons.1 hmem with rfl | hmem'
      · exact hcur_rest hp'
      · exact inv.open_closed p (hrest_mem p hp') hmem'
    · exact (hnewf p hp').2.2.1
  · -- open_inB
    intro p hp
    rcases (hmem2 p).1 hp with hp' | hp'
    · exact inv.open_inB p (hrest_mem p hp')
    · exact getNeighbors_inB hcb (hnewf p hp').1
  · -- closed_inB
    intro p hp
    rcases List.mem_cons.1 hp with rfl | hp'
    · exact hcb
    · exact inv.closed_inB p hp'
  · -- open_wall
    intro p hp
    rcases (hmem2 p).1 hp with hp' | hp'
    · exact inv.open_wall p (hrest_mem p hp')
    · exact (hnewf p hp').2.2.2.1
  · -- closed_wall
    intro p hp
    rcases List.mem_cons.1 hp with rfl | hp'
    · exact hcw
    · exact inv.closed_wall p hp'
  · -- open_finite
    intro p hp
    by_cases h : p ∈ ns ∧ relaxCond g cur (cur :: closed) st1 p
    · rw [(hchanged p h.1 h.2).1]
      exact WithTop.coe_ne_top
    · rw [hunch p h, hdist1]
      rcases (hmem2 p).1 hp with hp' | hp'
      · exact inv.open_finite p (hrest_mem p hp')
      · exact absurd ⟨(hnewf p hp').1, (hnewf p hp').2.2⟩ h
  · -- closed_finite
    intro p hp
    rw [hclosed_unch p hp, hdist1]
    rcases List.mem_cons.1 hp with rfl | hp'
    · exact hcd
    · exact inv.closed_finite p hp'
  · -- open_f
    intro p hp
    by_cases h : p ∈ ns ∧ relaxCond g cur (cur :: closed) st1 p
    · exact (hchanged p h.1 h.2).2.1
    · rw [hunch p h, hdist1, htc1]
      rcases (hmem2 p).1 hp with hp' | hp'
      · exact inv.open_f p (hrest_mem p hp')
      · exact absurd ⟨(hnewf p hp').1, (hnewf p hp').2.2⟩ h
  · -- dist_nonneg
    intro p
    by_cases h : p ∈ ns ∧ relaxCond g cur (cur :: closed) st1 p
    · obtain ⟨hd, -, -, -, -, -, h1w⟩ := hchanged p h.1 h.2
      rw [hd, ← WithTop.coe_zero, WithTop.coe_le_coe]
      linarith
    · rw [hunch p h, hdist1]
      exact inv.dist_nonneg p
  · -- start_dist
    rw [hunch s hnot_cond_s, hdist1]
    exact inv.start_dist
  · -- start_prev
    rw [hunch s hnot_cond_s, hprev1]
    exact inv.start_prev
  · -- start_in
    rcases inv.start_in with h | h
    · have : s ∈ cur :: rest := by rw [← hs, mem_sortOpen]; exact h
      rcases List.mem_cons.1 this with rfl | h'
      · exact Or.inr (List.mem_cons_self _ _)
      · exact Or.inl ((hmem2 s).2 (Or.inl h'))
    · exact Or.inr (List.mem_cons_of_mem _ h)
  · -- finite_in
    intro p hp
    by_cases h : p ∈ ns ∧ relaxCond g cur (cur :: closed) st1 p
    · exact Or.inl ((hchanged p h.1 h.2).2.2.2.1)
    · rw [hunch p h, hdist1] at hp
      rcases inv.finite_in p hp with h' | h'
      · have : p ∈ cur :: rest := by rw [← hs, mem_sortOpen]; exact h'
        rcases List.mem_cons.1 this with rfl | h''
        · exact Or.inr (List.mem_cons_self _ _)
        · exact Or.inl ((hmem2 p).2 (Or.inl h''))
      · exact Or.inr (List.mem_cons_of_mem _ h')
  · -- prev_of_inf
    intro p hp
    by_cases h : p ∈ ns ∧ relaxCond g cur (cur :: closed) st1 p
    · rw [(hchanged p h.1 h.2).1] at hp
      exact absurd hp WithTop.coe_ne_top
    · rw [hunch p h, hdist1] at hp
      rw [hunch p h, hprev1]
      exact inv.prev_of_inf p hp
  · -- chain
    intro v hvs hv
    by_cases h : v ∈ ns ∧ relaxCond g cur (cur :: closed) st1 v
    · obtain ⟨hd, -, hpv, -, hvb, hvw, -⟩ := hchanged v h.1 h.2
      refine ⟨cur, hpv, List.mem_cons_self _ _, h.1, hvb, hvw, ?_⟩
      rw [hcur_same, hdist1 cur, ← hdc, hd, ← WithTop.coe_add]
    · rw [hunch v h, hdist1] at hv
      obtain ⟨u, h1, h2, h3, h4, h5, h6⟩ := inv.chain v hvs hv
      refine ⟨u, ?_, List.mem_cons_of_mem _ h2, h3, h4, h5, ?_⟩
      · rw [hunch v h, hprev1]
        exact h1
      · rw [hclosed_unch u (List.mem_cons_of_mem _ h2), hdist1,
          hunch v h, hdist1]
        exact h6
  · -- ranked
    obtain ⟨ρ, hρ⟩ := inv.ranked
    refine ⟨fun x => if x ∈ ns ∧ relaxCond g cur (cur :: closed) st1 x
      then ρ cur + 1 else ρ x, ?_⟩
    intro v u hvu
    by_cases h : v ∈ ns ∧ relaxCond g cur (cur :: closed) st1 v
    · have hpv := (hchanged v h.1 h.2).2.2.1
      rw [aPrev] at hvu
      rw [hpv] at hvu
      cases hvu
      dsimp only
      rw [if_pos h, if_neg]
      · omega
      · rintro ⟨hm, -⟩
        exact not_mem_getNeighbors_self g cur hm
    · rw [aPrev, hunch v h, hprev1] at hvu
      have hucl : u ∈ closed := inv.prev_closed v u hvu
      dsimp only
      rw [if_neg h, if_neg]
      · exact hρ v u hvu
      · rintro ⟨-, hcond⟩
        exact hcond.1 (List.mem_cons_of_mem _ hucl)
  · -- prev_closed
    intro v u hvu
    by_cases h : v ∈ ns ∧ relaxCond g cur (cur :: closed) st1 v
    · rw [(hchanged v h.1 h.2).2.2.1] at hvu
      cases hvu
      exact List.mem_cons_self _ _
    · rw [hunch v h, hprev1] at hvu
      exact List.mem_cons_of_mem _ (inv.prev_closed v u hvu)
  · -- closed_min
    intro u hu l hl
    rcases List.mem_cons.1 hu with rfl | hu'
    · rw [hcur_same, hdist1]
      exact pop_min hwt inv hs hc l hl
    · rw [hclosed_unch u hu, hdist1]
      exact inv.closed_min u hu' l hl
  · -- expanded
    intro u hu v hv hvw
    rcases List.mem_cons.1 hu with rfl | hu'
    · by_cases hvc : v ∈ u :: closed
      · exact Or.inl hvc
      · have hvb : g.inB v := getNeighbors_inB hcb hv
        have h1w : 1 ≤ g.weight v := hwt v hvb hvw
        have hjw : jsWeight g v = g.weight v := jsWeight_eq h1w
        by_cases hcond : relaxCond g u (u :: closed) st1 v
        · obtain ⟨hd, -, -, -, -, -, -⟩ := hchanged v hv hcond
          refine Or.inr ?_
          rw [hd, hcur_same, hdist1, ← hdc, ← WithTop.coe_add]
        · have hnlt : ¬ ((st1 u).distance + (jsWeight g v : WithTop ℚ) <
              (st1 v).distance) := fun hlt => hcond ⟨hvc, hvw, hlt⟩
          push_neg at hnlt
          refine Or.inr ?_
          have hveq : pr.1 v = st1 v := hunch v (fun hh => hcond hh.2)
          rw [hveq, hcur_same]
          calc (st1 v).distance ≤ (st1 u).distance + (jsWeight g v : WithTop ℚ) :=
              hnlt
            _ = (st1 u).distance + ((g.weight v : ℚ) : WithTop ℚ) := by rw [hjw]
    · rcases inv.expanded u hu' v hv hvw with h | h
      · exact Or.inl (List.mem_cons_of_mem _ h)
      · refine Or.inr ?_
        calc (pr.1 v).distance ≤ (st v).distance := hmono v
          _ ≤ (st u).distance + ((g.weight v : ℚ) : WithTop ℚ) := h
          _ = (pr.1 u).distance + ((g.weight v : ℚ) : WithTop ℚ) := by
            rw [hclosed_unch u (List.mem_cons_of_mem _ hu'), hdist1]

/-! ## The A* master induction -/

theorem relax_dist_mono (g : Grid) (e cur : Pos) (closed : List Pos)
    (st1 : Pos → ANode) (rest : List Pos) :
    ∀ p, ((relaxAll g e cur closed st1 rest (getNeighbors g cur)).1 p).distance ≤
      (st1 p).distance := by
  intro p
  have hro := relaxAll_spec g e cur closed st1 rest (getNeighbors g cur)
    (getNeighbors_nodup g cur) (not_mem_getNeighbors_self g cur)
  by_cases h : p ∈ getNeighbors g cur ∧ relaxCond g cur closed st1 p
  · obtain ⟨heq, -⟩ := hro.changed p h.1 h.2
    rw [heq]
    exact le_of_lt h.2.2.2
  · by_cases hm : p ∈ getNeighbors g cur
    · rw [hro.unchanged p hm (fun hcond => h ⟨hm, hcond⟩)]
    · rw [hro.untouched p hm]

theorem AFinal_of_AInv {g : Grid} {s e : Pos} {st : Pos → ANode}
    {openL closed : List Pos} (inv : AInv g s e st openL closed) :
    AFinal g s e st := by
  refine ⟨inv.start_dist, inv.start_prev, ?_, ?_, inv.prev_of_inf, ?_, inv.ranked⟩
  · rcases inv.start_in with h | h
    · exact inv.open_wall s h
    · exact inv.closed_wall s h
  · intro p hp
    rcases inv.finite_in p hp with h | h
    · exact inv.open_inB p h
    · exact inv.closed_inB p h
  · intro v hvs hv
    obtain ⟨u, h1, h2, h3, h4, h5, h6⟩ := inv.chain v hvs hv
    exact ⟨u, h1, h3, h4, h5, inv.closed_finite u h2, h6⟩

theorem AFinal_congr {g : Grid} {s e : Pos} {st st' : Pos → ANode}
    (hd : ∀ p, (st' p).distance = (st p).distance)
    (hp : ∀ p, (st' p).previousNode = (st p).previousNode)
    (h : AFinal g s e st) : AFinal g s e st' := by
  have haP : aPrev st' = aPrev st := by
    funext p
    rw [aPrev, aPrev, hp]
  refine ⟨?_, ?_, h.start_wall, ?_, ?_, ?_, ?_⟩
  · rw [hd]; exact h.start_dist
  · rw [hp]; exact h.start_prev
  · intro p hpd; rw [hd] at hpd; exact h.finite_inB p hpd
  · intro p hpd; rw [hd] at hpd; rw [hp]; exact h.prev_of_inf p hpd
  · intro v hvs hv
    rw [hd] at hv
    obtain ⟨u, h1, h2, h3, h4, h5, h6⟩ := h.chain v hvs hv
    refine ⟨u, ?_, h2, h3, h4, ?_, ?_⟩
    · rw [hp]; exact h1
    · rw [hd]; exact h5
    · rw [hd u, hd v]; exact h6
  · rw [haP]; exact h.ranked

theorem phiA_decrease {g : Grid} {openL closed rest news : List Pos} {cur : Pos}
    (hperm : openL.Perm (cur :: rest))
    (hnews : ∀ x ∈ news, g.inB x ∧ g.isWall x = false ∧ x ∉ openL ∧
      x ∉ (cur :: closed))
    (hnewnd : news.Nodup) :
    phiA g (rest ++ news) (cur :: closed) < phiA g openL closed := by
  classical
  unfold phiA
  set S := (posFinset g).filter
    (fun p => g.isWall p = false ∧ p ∉ openL ∧ p ∉ closed) with hS
  set S' := (posFinset g).filter
    (fun p => g.isWall p = false ∧ p ∉ rest ++ news ∧ p ∉ cur :: closed) with hS'
  have hlen : openL.length = rest.length + 1 := by
    rw [hperm.length_eq, List.length_cons]
  have hsubnews : news.toFinset ⊆ S := by
    intro x hx
    rw [List.mem_toFinset] at hx
    obtain ⟨h1, h2, h3, h4⟩ := hnews x hx
    rw [hS, Finset.mem_filter, mem_posFinset]
    exact ⟨h1, h2, h3, fun hm => h4 (List.mem_cons_of_mem _ hm)⟩
  have hsub : S' ⊆ S \ news.toFinset := by
    intro x hx
    rw [hS', Finset.mem_filter] at hx
    obtain ⟨hxp, hw, hrn, hcc⟩ := hx
    rw [Finset.mem_sdiff, hS, Finset.mem_filter]
    have hxo : x ∉ openL := by
      intro hxo
      have : x ∈ cur :: rest := hperm.mem_iff.1 hxo
      rcases List.mem_cons.1 this with rfl | h
      · exact hcc (List.mem_cons_self _ _)
      · exact hrn (List.mem_append_left _ h)
    refine ⟨⟨hxp, hw, hxo, fun hm => hcc (List.mem_cons_of_mem _ hm)⟩, ?_⟩
    rw [List.mem_toFinset]
    intro hm
    exact hrn (List.mem_append_right _ hm)
  have h1 : S'.card ≤ (S \ news.toFinset).card := Finset.card_le_card hsub
  have h2 : (S \ news.toFinset).card = S.card - news.toFinset.card :=
    Finset.card_sdiff hsubnews
  have h3 : news.toFinset.card = news.length := List.toFinset_card_of_nodup hnewnd
  have h4 : news.toFinset.card ≤ S.card := Finset.card_le_card hsubnews
  rw [List.length_append]
  omega

theorem astar_master (g : Grid) (s e : Pos)
    (hwt : ∀ p, g.inB p → g.isWall p = false → 1 ≤ g.weight p) :
    ∀ (fuel : Nat) (st : Pos → ANode) (openL closed : List Pos),
      AInv g s e st openL closed → phiA g openL closed < fuel →
      AMaster g s e st closed (astarLoop g e fuel st openL closed) := by
  intro fuel
  induction fuel with
  | zero =>
    intro st openL closed _ hphi
    omega
  | succ n ih =>
    intro st openL closed inv hphi
    cases hs : sortOpen st openL with
    | nil =>
      have hnil : openL = [] := sortOpen_eq_nil_iff.1 hs
      rw [astarLoop_nil hs]
      refine ⟨AFinal_of_AInv inv, ?_, ?_, ?_, ?_, ?_, ?_⟩
      · intro z hz
        exact absurd hz (List.not_mem_nil z)
      · intro _ z hz
        rcases inv.finite_in z hz with h | h
        · rw [hnil] at h
          exact absurd h (List.not_mem_nil z)
        · exact Or.inl h
      · intro habs
        simp at habs
      · intro henc hre
        obtain ⟨l, hl⟩ := hre
        obtain ⟨y, hy, -⟩ := frontier_of_inv inv e l hl henc
        rw [hnil] at hy
        exact absurd hy (List.not_mem_nil y)
      · intro henc l hl
        obtain ⟨y, hy, -⟩ := frontier_of_inv inv e l hl henc
        rw [hnil] at hy
        exact absurd hy (List.not_mem_nil y)
      · intro p
        exact le_refl _
    | cons cur rest =>
      have hcur_mem : cur ∈ openL := by
        rw [← @mem_sortOpen st _ _, hs]
        exact List.mem_cons_self _ _
      have hcw : g.isWall cur = false := inv.open_wall cur hcur_mem
      have hcn : cur ∉ closed := inv.open_closed cur hcur_mem
      have hcd : (st cur).distance ≠ ⊤ := inv.open_finite cur hcur_mem
      by_cases hce : cur = e
      · subst hce
        rw [astarLoop_end hs hcw hcn hcd]
        have hd1 := setVisited_distance st cur
        have hp1 := setVisited_previousNode st cur
        refine ⟨AFinal_congr hd1 hp1 (AFinal_of_AInv inv), ?_, ?_, ?_, ?_, ?_, ?_⟩
        · intro z hz
          rw [List.mem_singleton] at hz
          subst hz
          rw [hd1]
          exact hcd
        · intro habs
          simp at habs
        · intro _
          rfl
        · intro _ _
          rfl
        · intro _ l hl
          rw [hd1]
          exact pop_min hwt inv hs hcn l hl
        · intro p
          rw [hd1]
      · rw [astarLoop_step hs hcw hcn hcd hce]
        dsimp only
        have hinv' := AInv_step hwt inv hs hcn
        set st1 := setNode st cur { st cur with isVisited := true } with hst1
        set pr := relaxAll g e cur (cur :: closed) st1 rest (getNeighbors g cur)
          with hpr
        have hro := relaxAll_spec g e cur (cur :: closed) st1 rest
          (getNeighbors g cur) (getNeighbors_nodup g cur)
          (not_mem_getNeighbors_self g cur)
        obtain ⟨news, hsh, hnewnd, hnewf⟩ := hro.shape
        have hperm : openL.Perm (cur :: rest) := by
          rw [← hs]
          exact (sortOpen_perm st openL).symm
        have hphi' : phiA g pr.2 (cur :: closed) < n := by
          have hdec : phiA g (rest ++ news) (cur :: closed) < phiA g openL closed := by
            refine phiA_decrease hperm ?_ hnewnd
            intro x hx
            obtain ⟨hx1, hx2, hx3⟩ := hnewf x hx
            have hxb : g.inB x := getNeighbors_inB (inv.open_inB cur hcur_mem) hx1
            refine ⟨hxb, hx3.2.1, ?_, hx3.1⟩
            intro hxo
            have : x ∈ cur :: rest := hperm.mem_iff.1 hxo
            rcases List.mem_cons.1 this with heq | h
            · rw [heq] at hx1
              exact not_mem_getNeighbors_self g cur hx1
            · exact hx2 h
          have hpr2 : pr.2 = rest ++ news := hsh
          rw [hpr2]
          omega
        have hM := ih pr.1 pr.2 (cur :: closed) hinv' hphi'
        have hmono1 : ∀ p, (pr.1 p).distance ≤ (st p).distance := by
          intro p
          calc (pr.1 p).distance ≤ (st1 p).distance :=
              relax_dist_mono g e cur (cur :: closed) st1 rest p
            _ = (st p).distance := setVisited_distance st cur p
        set r := astarLoop g e n pr.1 pr.2 (cur :: closed) with hr
        refine ⟨hM.final, ?_, ?_, ?_, ?_, ?_, ?_⟩
        · intro z hz
          rcases List.mem_cons.1 hz with rfl | hz'
          · exact ne_top_of_le_ne_top hcd
              (le_trans (hM.dist_mono z) (hmono1 z))
          · exact hM.order_finite z hz'
        · intro hex z hz
          rcases hM.exhausted_closed hex z hz with h | h
          · rcases List.mem_cons.1 h with rfl | h'
            · exact Or.inr (List.mem_cons_self _ _)
            · exact Or.inl h'
          · exact Or.inr (List.mem_cons_of_mem _ h)
        · intro hex
          have h := hM.early_end hex
          cases horder : r.order with
          | nil =>
            rw [horder] at h
            exact absurd h (by simp)
          | cons a t =>
            rw [horder] at h
            rw [List.getLast?_cons_cons]
            exact h
        · intro henc hre
          have henc' : e ∉ cur :: closed := by
            intro hmem
            rcases List.mem_cons.1 hmem with h | h
            · exact hce h.symm
            · exact henc h
          have h := hM.reach_end henc' hre
          cases horder : r.order with
          | nil =>
            rw [horder] at h
            exact absurd h (by simp)
          | cons a t =>
            rw [horder] at h
            rw [List.getLast?_cons_cons]
            exact h
        · intro henc l hl
          have henc' : e ∉ cur :: closed := by
            intro hmem
            rcases List.mem_cons.1 hmem with h | h
            · exact hce h.symm
            · exact henc h
          exact hM.end_min henc' l hl
        · intro p
          exact le_trans (hM.dist_mono p) (hmono1 p)

/-! ## Acyclicity of the predecessor relation (both algorithms) -/

theorem astar_ranked_aux (g : Grid) (e : Pos) :
    ∀ (fuel : Nat) (st : Pos → ANode) (openL closed : List Pos),
      (∀ v u, (st v).previousNode = some u → u ∈ closed) →
      Ranked (aPrev st) →
      Ranked (aPrev (astarLoop g e fuel st openL closed).state) := by
  intro fuel
  induction fuel with
  | zero =>
    intro st openL closed _ hr
    rw [astarLoop_zero]
    exact hr
  | succ n ih =>
    intro st openL closed hpc hr
    cases hs : sortOpen st openL with
    | nil =>
      rw [astarLoop_nil hs]
      exact hr
    | cons cur rest =>
      by_cases hw : g.isWall cur = true
      · rw [astarLoop_wall hs hw]
        exact ih st rest closed hpc hr
      · have hw' : g.isWall cur = false := bool_not_true hw
        by_cases hc : cur ∈ closed
        · rw [astarLoop_closedSkip hs hw' hc]
          exact ih st rest closed hpc hr
        · by_cases hd : (st cur).distance = ⊤
          · rw [astarLoop_guard hs hw' hc hd]
            exact hr
          · have haP1 : aPrev (setNode st cur { st cur with isVisited := true }) =
                aPrev st := by
              funext p
              rw [aPrev, aPrev, setVisited_previousNode]
            by_cases hce : cur = e
            · subst hce
              rw [astarLoop_end hs hw' hc hd]
              dsimp only
              rw [haP1]
              exact hr
            · rw [astarLoop_step hs hw' hc hd hce]
              dsimp only
              classical
              set st1 := setNode st cur { st cur with isVisited := true } with hst1
              set ns := getNeighbors g cur with hnsdef
              have hro := relaxAll_spec g e cur (cur :: closed) st1 rest ns
                (getNeighbors_nodup g cur) (not_mem_getNeighbors_self g cur)
              set pr := relaxAll g e cur (cur :: closed) st1 rest ns with hpr
              have hprev1 : ∀ p, (st1 p).previousNode = (st p).previousNode :=
                setVisited_previousNode st cur
              have hunch : ∀ p, ¬(p ∈ ns ∧ relaxCond g cur (cur :: closed) st1 p) →
                  pr.1 p = st1 p := by
                intro p hp
                by_cases hm : p ∈ ns
                · exact hro.unchanged p hm (fun hcond => hp ⟨hm, hcond⟩)
                · exact hro.untouched p hm
              have hchprev : ∀ p, p ∈ ns → relaxCond g cur (cur :: closed) st1 p →
                  (pr.1 p).previousNode = some cur := by
                intro p hm hcond
                obtain ⟨heq, -⟩ := hro.changed p hm hcond
                rw [heq]
                rfl
              have hpc' : ∀ v u, (pr.1 v).previousNode = some u → u ∈ cur :: closed := by
                intro v u hvu
                by_cases h : v ∈ ns ∧ relaxCond g cur (cur :: closed) st1 v
                · rw [hchprev v h.1 h.2] at hvu
                  cases hvu
                  exact List.mem_cons_self _ _
                · rw [hunch v h, hprev1] at hvu
                  exact List.mem_cons_of_mem _ (hpc v u hvu)
              have hr' : Ranked (aPrev pr.1) := by
                obtain ⟨ρ, hρ⟩ := hr
                refine ⟨fun x => if x ∈ ns ∧ relaxCond g cur (cur :: closed) st1 x
                  then ρ cur + 1 else ρ x, ?_⟩
                intro v u hvu
                by_cases h : v ∈ ns ∧ relaxCond g cur (cur :: closed) st1 v
                · rw [aPrev] at hvu
                  rw [hchprev v h.1 h.2] at hvu
                  cases hvu
                  dsimp only
                  rw [if_pos h, if_neg]
                  · omega
                  · rintro ⟨hm, -⟩
                    exact not_mem_getNeighbors_self g cur hm
                · rw [aPrev, hunch v h, hprev1] at hvu
                  have hucl : u ∈ closed := hpc v u hvu
                  dsimp only
                  rw [if_neg h, if_neg]
                  · exact hρ v u hvu
                  · rintro ⟨-, hcond⟩
                    exact hcond.1 (List.mem_cons_of_mem _ hucl)
              exact ih pr.1 pr.2 (cur :: closed) hpc' hr'

theorem bfs_ranked_aux (g : Grid) (e : Pos) :
    ∀ (fuel : Nat) (st : Pos → BNode) (queue : List Pos),
      (∀ v u, (st v).previousNode = some u → (st u).isVisited = true) →
      (∀ p ∈ queue, (st p).isVisited = true) →
      Ranked (bPrev st) →
      Ranked (bPrev (bfsLoop g e fuel st queue).state) := by
  intro fuel
  induction fuel with
  | zero =>
    intro st queue _ _ hr
    rw [bfsLoop_zero]
    exact hr
  | succ n ih =>
    intro st queue hpv hq hr
    cases queue with
    | nil =>
      rw [bfsLoop_nil]
      exact hr
    | cons cur qs =>
      by_cases hw : g.isWall cur = true
      · rw [bfsLoop_wall hw]
        exact ih st qs hpv (fun p hp => hq p (List.mem_cons_of_mem _ hp)) hr
      · have hw' : g.isWall cur = false := bool_not_true hw
        by_cases hce : cur = e
        · subst hce
          rw [bfsLoop_end hw']
          exact hr
        · rw [bfsLoop_step hw' hce]
          dsimp only
          classical
          set ns := getUnvisitedNeighbors g st cur with hnsdef
          set st' := ns.foldl (markNeighbor cur) st with hst'
          have hcv : (st cur).isVisited = true := hq cur (List.mem_cons_self _ _)
          have hcur_ns : cur ∉ ns := by
            intro h
            exact not_mem_getNeighbors_self g cur (mem_getUnvisitedNeighbors.1 h).1
          have hns_unvis : ∀ p ∈ ns, (st p).isVisited = false :=
            fun p hp => (mem_getUnvisitedNeighbors.1 hp).2.1
          have hstate : ∀ p, st' p = if p ∈ ns then ⟨true, some cur⟩ else st p :=
            markFold_spec cur ns st
          have hpv' : ∀ v u, (st' v).previousNode = some u →
              (st' u).isVisited = true := by
            intro v u hvu
            rw [hstate v] at hvu
            rw [hstate u]
            by_cases hv : v ∈ ns
            · rw [if_pos hv] at hvu
              cases hvu
              rw [if_neg hcur_ns]
              exact hcv
            · rw [if_neg hv] at hvu
              by_cases hu : u ∈ ns
              · rw [if_pos hu]
              · rw [if_neg hu]
                exact hpv v u hvu
          have hq' : ∀ p ∈ qs ++ ns, (st' p).isVisited = true := by
            intro p hp
            rw [hstate p]
            by_cases hpns : p ∈ ns
            · rw [if_pos hpns]
            · rw [if_neg hpns]
              rcases List.mem_append.1 hp with h | h
              · exact hq p (List.mem_cons_of_mem _ h)
              · exact absurd h hpns
          have hr' : Ranked (bPrev st') := by
            obtain ⟨ρ, hρ⟩ := hr
            refine ⟨fun x => if x ∈ ns then ρ cur + 1 else ρ x, ?_⟩
            intro v u hvu
            rw [bPrev, hstate v] at hvu
            dsimp only
            by_cases hv : v ∈ ns
            · rw [if_pos hv] at hvu
              cases hvu
              rw [if_pos hv, if_neg hcur_ns]
              omega
            · rw [if_neg hv] at hvu
              have hu : u ∉ ns := by
                intro hu
                have h1 := hpv v u hvu
                rw [hns_unvis u hu] at h1
                exact Bool.false_ne_true h1
              rw [if_neg hv, if_neg hu]
              exact hρ v u hvu
          exact ih st' (qs ++ ns) hpv' hq' hr'

theorem ranked_chainHalts {prev : Pos → Option Pos} (hr : Ranked prev) :
    ∀ p, chainHalts prev p := by
  obtain ⟨ρ, hρ⟩ := hr
  have main : ∀ k p, ρ p < k → chainHalts prev p := by
    intro k
    induction k with
    | zero => intro p h; omega
    | succ n ih =>
      intro p hp
      cases hq : prev p with
      | none => exact ⟨1, by rw [prevIter, hq]⟩
      | some q =>
        obtain ⟨m, hm⟩ := ih q (by have := hρ p q hq; omega)
        refine ⟨m + 1, ?_⟩
        rw [prevIter, hq]
        exact hm
  intro p
  exact main (ρ p + 1) p (by omega)

theorem ranked_walkComplete {prev : Pos → Option Pos} (hr : Ranked prev) :
    ∀ p, ∃ n, walkComplete prev (getNodesInShortestPathOrder prev n p) := by
  obtain ⟨ρ, hρ⟩ := hr
  have main : ∀ k p, ρ p < k →
      ∃ n, walkComplete prev (getNodesInShortestPathOrder prev n p) := by
    intro k
    induction k with
    | zero => intro p h; omega
    | succ n ih =>
      intro p hp
      cases hq : prev p with
      | none =>
        refine ⟨0, p, rfl, hq⟩
      | some q =>
        obtain ⟨m, r, hr1, hr2⟩ := ih q (by have := hρ p q hq; omega)
        refine ⟨m + 1, r, ?_, hr2⟩
        rw [getNodesInShortestPathOrder, hq]
        dsimp only
        rw [List.head?_append_of_ne_nil _ (walk_ne_nil prev m q)]
        exact hr1
  intro p
  exact main (ρ p + 1) p (by omega)

/-! ## The BFS exhaustion master: visits exactly the reachable cells -/

theorem phiB_cons (g : Grid) (st : Pos → BNode) (cur : Pos) (qs : List Pos) :
    phiB g st (cur :: qs) = phiB g st qs + 1 := by
  unfold phiB
  rw [List.length_cons]
  omega

theorem phiB_mark_decrease {g : Grid} {st : Pos → BNode} {cur : Pos}
    {qs ns : List Pos} (hns : ∀ x ∈ ns, g.inB x ∧ (st x).isVisited = false)
    (hnd : ns.Nodup) :
    phiB g (ns.foldl (markNeighbor cur) st) (qs ++ ns) < phiB g st (cur :: qs) := by
  classical
  unfold phiB
  have hstate := markFold_spec cur ns st
  set S := (posFinset g).filter (fun p => (st p).isVisited = false) with hS
  have hSeq : (posFinset g).filter
      (fun p => ((ns.foldl (markNeighbor cur) st) p).isVisited = false) =
      S \ ns.toFinset := by
    ext p
    rw [Finset.mem_sdiff, hS, Finset.mem_filter, Finset.mem_filter,
      List.mem_toFinset, hstate p]
    by_cases hp : p ∈ ns
    · rw [if_pos hp]
      simp [hp]
    · rw [if_neg hp]
      simp [hp]
  have hsub : ns.toFinset ⊆ S := by
    intro x hx
    rw [List.mem_toFinset] at hx
    rw [hS, Finset.mem_filter, mem_posFinset]
    exact ⟨(hns x hx).1, (hns x hx).2⟩
  rw [hSeq, Finset.card_sdiff hsub, List.toFinset_card_of_nodup hnd,
    List.length_append, List.length_cons]
  have := Finset.card_le_card hsub
  rw [List.toFinset_card_of_nodup hnd] at this
  omega

theorem bfs_reach_master (g : Grid) (s e : Pos) (hsb : g.inB s)
    (hnoe : ¬ Reachable g s e) :
    ∀ (fuel : Nat) (st : Pos → BNode) (queue : List Pos),
      (∀ p ∈ queue, (st p).isVisited = true) →
      (∀ p ∈ queue, g.inB p) →
      queue.Nodup →
      (∀ p ∈ queue, Reachable g s p ∨ p = s) →
      (∀ p, (st p).isVisited = true → Reachable g s p ∨ p = s) →
      (∀ p, (st p).isVisited = true → g.isWall p = false → p ∉ queue →
        ∀ v ∈ getNeighbors g p, g.isWall v = false → (st v).isVisited = true) →
      phiB g st queue < fuel →
      (bfsLoop g e fuel st queue).exhausted = true ∧
      (∀ z ∈ (bfsLoop g e fuel st queue).order, Reachable g s z) ∧
      (bfsLoop g e fuel st queue).order.Nodup ∧
      (∀ z ∈ (bfsLoop g e fuel st queue).order,
        z ∈ queue ∨ (st z).isVisited = false) ∧
      (∀ z, (st z).isVisited = true →
        (((bfsLoop g e fuel st queue).state) z).isVisited = true) ∧
      (∀ p, (((bfsLoop g e fuel st queue).state) p).isVisited = true →
        g.isWall p = false → ∀ v ∈ getNeighbors g p, g.isWall v = false →
        (((bfsLoop g e fuel st queue).state) v).isVisited = true) ∧
      (∀ z, (((bfsLoop g e fuel st queue).state) z).isVisited = true →
        g.isWall z = false →
        z ∈ (bfsLoop g e fuel st queue).order ∨
          ((st z).isVisited = true ∧ z ∉ queue)) := by
  intro fuel
  induction fuel with
  | zero =>
    intro st queue _ _ _ _ _ _ hphi
    omega
  | succ n ih =>
    intro st queue hqv hqb hqnd hqr hvr hexp hphi
    cases queue with
    | nil =>
      rw [bfsLoop_nil]
      refine ⟨rfl, ?_, List.nodup_nil, ?_, fun z hz => hz, ?_, ?_⟩
      · intro z hz
        exact absurd hz (List.not_mem_nil z)
      · intro z hz
        exact absurd hz (List.not_mem_nil z)
      · intro p hp hpw v hv hvw
        exact hexp p hp hpw (List.not_mem_nil p) v hv hvw
      · intro z hz hzw
        exact Or.inr ⟨hz, List.not_mem_nil z⟩
    | cons cur qs =>
      have hcv : (st cur).isVisited = true := hqv cur (List.mem_cons_self _ _)
      have hcb : g.inB cur := hqb cur (List.mem_cons_self _ _)
      have hcur_qs : cur ∉ qs := (List.nodup_cons.1 hqnd).1
      have hqs_nd : qs.Nodup := (List.nodup_cons.1 hqnd).2
      by_cases hw : g.isWall cur = true
      · rw [bfsLoop_wall hw]
        have hexp' : ∀ p, (st p).isVisited = true → g.isWall p = false → p ∉ qs →
            ∀ v ∈ getNeighbors g p, g.isWall v = false →
            (st v).isVisited = true := by
          intro p hp hpw hpq
          refine hexp p hp hpw ?_
          intro hmem
          rcases List.mem_cons.1 hmem with heq | h
          · subst heq
            rw [hpw] at hw
            exact Bool.noConfusion hw
          · exact hpq h
        have hphi' : phiB g st qs < n := by
          rw [phiB_cons] at hphi
          omega
        obtain ⟨c1, c2, c3, c4, c5, c6, c7⟩ := ih st qs
          (fun p hp => hqv p (List.mem_cons_of_mem _ hp))
          (fun p hp => hqb p (List.mem_cons_of_mem _ hp)) hqs_nd
          (fun p hp => hqr p (List.mem_cons_of_mem _ hp)) hvr hexp' hphi'
        refine ⟨c1, c2, c3, ?_, c5, c6, ?_⟩
        · intro z hz
          rcases c4 z hz with h | h
          · exact Or.inl (List.mem_cons_of_mem _ h)
          · exact Or.inr h
        · intro z hz hzw
          rcases c7 z hz hzw with h | h
          · exact Or.inl h
          · refine Or.inr ⟨h.1, ?_⟩
            intro hmem
            rcases List.mem_cons.1 hmem with heq | hmem'
            · subst heq
              rw [hzw] at hw
              exact Bool.noConfusion hw
            · exact h.2 hmem'
      · have hw' : g.isWall cur = false := bool_not_true hw
        have hcreach : Reachable g s cur := by
          rcases hqr cur (List.mem_cons_self _ _) with h | h
          · exact h
          · subst h
            exact ⟨[cur], validPath_singleton hsb hw'⟩
        by_cases hce : cur = e
        · subst hce
          exact absurd hcreach hnoe
        · rw [bfsLoop_step hw' hce]
          dsimp only
          set ns := getUnvisitedNeighbors g st cur with hnsdef
          set st' := ns.foldl (markNeighbor cur) st with hst'
          have hstate : ∀ p, st' p = if p ∈ ns then ⟨true, some cur⟩ else st p :=
            markFold_spec cur ns st
          have hns_mem : ∀ x ∈ ns, x ∈ getNeighbors g cur ∧
              (st x).isVisited = false ∧ g.isWall x = false :=
            fun x hx => mem_getUnvisitedNeighbors.1 hx
          have hns_nd : ns.Nodup := getUnvisitedNeighbors_nodup g st cur
          have hcur_ns : cur ∉ ns := by
            intro h
            exact not_mem_getNeighbors_self g cur (hns_mem cur h).1
          have hns_reach : ∀ x ∈ ns, Reachable g s x := by
            intro x hx
            obtain ⟨l, hl⟩ := hcreach
            exact ⟨l ++ [x], validPath_append hl (hns_mem x hx).1
              (getNeighbors_inB hcb (hns_mem x hx).1) (hns_mem x hx).2.2⟩
          have hmonov : ∀ p, (st p).isVisited = true →
              (st' p).isVisited = true := by
            intro p hp
            rw [hstate p]
            by_cases h : p ∈ ns
            · rw [if_pos h]
            · rw [if_neg h]
              exact hp
          have hunvis : ∀ p, (st' p).isVisited = false →
              p ∉ ns ∧ (st p).isVisited = false := by
            intro p hp
            rw [hstate p] at hp
            by_cases h : p ∈ ns
            · rw [if_pos h] at hp
              exact absurd hp (by simp)
            · rw [if_neg h] at hp
              exact ⟨h, hp⟩
          have hqv' : ∀ p ∈ qs ++ ns, (st' p).isVisited = true := by
            intro p hp
            rw [hstate p]
            by_cases h : p ∈ ns
            · rw [if_pos h]
            · rw [if_neg h]
              rcases List.mem_append.1 hp with h' | h'
              · exact hqv p (List.mem_cons_of_mem _ h')
              · exact absurd h' h
          have hqb' : ∀ p ∈ qs ++ ns, g.inB p := by
            intro p hp
            rcases List.mem_append.1 hp with h' | h'
            · exact hqb p (List.mem_cons_of_mem _ h')
            · exact getNeighbors_inB hcb (hns_mem p h').1
          have hqnd' : (qs ++ ns).Nodup := by
            rw [List.nodup_append]
            refine ⟨hqs_nd, hns_nd, ?_⟩
            intro a ha hb
            have h1 := hqv a (List.mem_cons_of_mem _ ha)
            have h2 := (hns_mem a hb).2.1
            rw [h1] at h2
            exact Bool.noConfusion h2
          have hqr' : ∀ p ∈ qs ++ ns, Reachable g s p ∨ p = s := by
            intro p hp
            rcases List.mem_append.1 hp with h' | h'
            · exact hqr p (List.mem_cons_of_mem _ h')
            · exact Or.inl (hns_reach p h')
          have hvr' : ∀ p, (st' p).isVisited = true → Reachable g s p ∨ p = s := by
            intro p hp
            by_cases h : p ∈ ns
            · exact Or.inl (hns_reach p h)
            · rw [hstate p, if_neg h] at hp
              exact hvr p hp
          have hexp' : ∀ p, (st' p).isVisited = true → g.isWall p = false →
              p ∉ qs ++ ns → ∀ v ∈ getNeighbors g p, g.isWall v = false →
              (st' v).isVisited = true := by
            intro p hp hpw hpq v hv hvw
            by_cases hpc : p = cur
            · subst hpc
              rw [hstate v]
              by_cases hvns : v ∈ ns
              · rw [if_pos hvns]
              · rw [if_neg hvns]
                by_cases hvv : (st v).isVisited = true
                · exact hvv
                · exact absurd (mem_getUnvisitedNeighbors.2
                    ⟨hv, bool_not_true hvv, hvw⟩) hvns
            · have hpns : p ∉ ns := fun h => hpq (List.mem_append_right _ h)
              rw [hstate p, if_neg hpns] at hp
              have hpq2 : p ∉ cur :: qs := by
                intro hm
                rcases List.mem_cons.1 hm with h | h
                · exact hpc h
                · exact hpq (List.mem_append_left _ h)
              exact hmonov v (hexp p hp hpw hpq2 v hv hvw)
          have hphi' : phiB g st' (qs ++ ns) < n := by
            have hd := @phiB_mark_decrease g st cur qs ns
              (fun x hx => ⟨getNeighbors_inB hcb (hns_mem x hx).1,
                (hns_mem x hx).2.1⟩) hns_nd
            have h0 : phiB g st' (qs ++ ns) =
                phiB g (ns.foldl (markNeighbor cur) st) (qs ++ ns) := rfl
            omega
          obtain ⟨c1, c2, c3, c4, c5, c6, c7⟩ := ih st' (qs ++ ns) hqv' hqb'
            hqnd' hqr' hvr' hexp' hphi'
          refine ⟨c1, ?_, ?_, ?_, ?_, c6, ?_⟩
          · intro z hz
            rcases List.mem_cons.1 hz with heq | hz'
            · subst heq
              exact hcreach
            · exact c2 z hz'
          · refine List.nodup_cons.2 ⟨?_, c3⟩
            intro hmem
            rcases c4 cur hmem with h | h
            · rcases List.mem_append.1 h with h' | h'
              · exact hcur_qs h'
              · exact hcur_ns h'
            · have h2 := (hunvis cur h).2
              rw [hcv] at h2
              exact Bool.noConfusion h2
          · intro z hz
            rcases List.mem_cons.1 hz with heq | hz'
            · subst heq
              exact Or.inl (List.mem_cons_self _ _)
            · rcases c4 z hz' with h | h
              · rcases List.mem_append.1 h with h' | h'
                · exact Or.inl (List.mem_cons_of_mem _ h')
                · exact Or.inr (hns_mem z h').2.1
              · exact Or.inr (hunvis z h).2
          · intro z hz
            exact c5 z (hmonov z hz)
          · intro z hz hzw
            by_cases hzc : z = cur
            · subst hzc
              exact Or.inl (List.mem_cons_self _ _)
            · rcases c7 z hz hzw with h | h
              · exact Or.inl (List.mem_cons_of_mem _ h)
              · obtain ⟨h1, h2⟩ := h
                have hzns : z ∉ ns := fun hm => h2 (List.mem_append_right _ hm)
                rw [hstate z, if_neg hzns] at h1
                refine Or.inr ⟨h1, ?_⟩
                intro hm
                rcases List.mem_cons.1 hm with h' | h'
                · exact hzc h'
                · exact h2 (List.mem_append_left _ h')

/-! ## The BFS level bound on unvisited cells -/

theorem exists_first_not (P : Pos → Prop) :
    ∀ (l : List Pos) (z : Pos), z ∈ l → ¬ P z →
      ∃ l1 y l2, l = l1 ++ y :: l2 ∧ (∀ x ∈ l1, P x) ∧ ¬ P y := by
  classical
  intro l
  induction l with
  | nil => intro z hz _; exact absurd hz (List.not_mem_nil z)
  | cons a t ih =>
    intro z hz hzc
    by_cases ha : P a
    · have hzt : z ∈ t := by
        rcases List.mem_cons.1 hz with rfl | h
        · exact absurd ha hzc
        · exact h
      obtain ⟨l1, y, l2, heq, h1, h2⟩ := ih z hzt hzc
      refine ⟨a :: l1, y, l2, by rw [heq]; rfl, ?_, h2⟩
      intro x hx
      rcases List.mem_cons.1 hx with rfl | h
      · exact ha
      · exact h1 x h
    · exact ⟨[], a, t, rfl, by simp, ha⟩

theorem mem_zip_of_mem_left :
    ∀ (l1 : List Pos) (l2 : List Nat), l1.length = l2.length →
      ∀ u ∈ l1, ∃ d, (u, d) ∈ l1.zip l2 := by
  intro l1
  induction l1 with
  | nil => intro l2 _ u hu; exact absurd hu (List.not_mem_nil u)
  | cons a t ih =>
    intro l2 hlen u hu
    cases l2 with
    | nil => exact absurd hlen (by simp)
    | cons b t2 =>
      rcases List.mem_cons.1 hu with rfl | h
      · exact ⟨b, List.mem_cons_self _ _⟩
      · obtain ⟨d, hd⟩ := ih t2 (by simpa using hlen) u h
        exact ⟨d, List.mem_cons_of_mem _ hd⟩

theorem pairwise_map_const {α : Type} (ns : List α) (c : Nat) :
    List.Pairwise (· ≤ ·) (ns.map (fun _ => c)) := by
  induction ns with
  | nil => exact List.Pairwise.nil
  | cons a t ih =>
    rw [List.map_cons]
    refine List.Pairwise.cons ?_ ih
    intro b hb
    obtain ⟨x, -, rfl⟩ := List.mem_map.1 hb
    exact le_refl c

theorem bfs_unvisited_bound {g : Grid} {s : Pos} {st : Pos → BNode}
    {queue : List Pos} {ds : List Nat} (d1 : Nat)
    (hlen : ds.length = queue.length)
    (hzip : ∀ pd ∈ queue.zip ds, ZipInv g s st pd.1 pd.2)
    (hmin : ∀ d ∈ ds, d1 ≤ d)
    (hexp : ∀ p, (st p).isVisited = true → g.isWall p = false → p ∉ queue →
      ∀ v ∈ getNeighbors g p, g.isWall v = false → (st v).isVisited = true)
    (hsvis : (st s).isVisited = true) :
    ∀ z l, ValidPath g s z l → (st z).isVisited = false → d1 + 2 ≤ l.length := by
  intro z l hl hzv
  obtain ⟨l1, y, l2, heq, hvis1, hyv⟩ :=
    exists_first_not (fun x => (st x).isVisited = true) l z (validPath_end_mem hl)
      (by intro h; rw [hzv] at h; exact Bool.noConfusion h)
  rcases List.eq_nil_or_concat l1 with rfl | ⟨l1', u, rfl⟩
  · exfalso
    have hys : y = s := by
      have h1 := hl.1
      rw [heq, List.nil_append, List.head?_cons] at h1
      exact Option.some.inj h1
    subst hys
    exact hyv hsvis
  · rw [List.concat_eq_append] at heq hvis1
    have hu : (st u).isVisited = true :=
      hvis1 u (List.mem_append_right l1' (List.mem_singleton_self u))
    have heq2 : l = l1' ++ u :: y :: l2 := by
      rw [heq, List.append_assoc]
      rfl
    have hyu : y ∈ getNeighbors g u := by
      have h3 := hl.2.2.1
      rw [heq] at h3
      obtain ⟨-, -, hlink⟩ := List.chain'_append.1 h3
      exact hlink u (List.getLast?_concat l1') y rfl
    have hymem : y ∈ l := by
      rw [heq]
      exact List.mem_append_right _ (List.mem_cons_self y l2)
    have humem : u ∈ l := by
      rw [heq2]
      exact List.mem_append_right _ (List.mem_cons_self u _)
    obtain ⟨-, hyw⟩ := hl.2.2.2 y hymem
    obtain ⟨-, huw⟩ := hl.2.2.2 u humem
    by_cases huq : u ∈ queue
    · obtain ⟨du, hdu⟩ := mem_zip_of_mem_left queue ds hlen.symm u huq
      have hzu := hzip (u, du) hdu
      have hdud1 : d1 ≤ du := by
        refine hmin du ?_
        exact (List.of_mem_zip hdu).2
      have hpre : ValidPath g s u (l1' ++ [u]) := validPath_take (heq2 ▸ hl)
      have hlb := hzu.2.2.2.1 (l1' ++ [u]) hpre
      have hlenl : l.length = (l1' ++ [u]).length + (y :: l2).length := by
        rw [heq, List.length_append]
      rw [List.length_cons] at hlenl
      omega
    · exact absurd (hexp u hu huw huq y hyu hyw) hyv

/-! ## The BFS shortest-path master -/

theorem bfs_sp_master (g : Grid) (s e : Pos) (_hsb : g.inB s) :
    ∀ (fuel : Nat) (st : Pos → BNode) (queue : List Pos) (ds : List Nat),
      ds.length = queue.length →
      List.Pairwise (· ≤ ·) ds →
      (∀ a ∈ ds, ∀ b ∈ ds, a ≤ b + 1) →
      (∀ pd ∈ queue.zip ds, ZipInv g s st pd.1 pd.2) →
      (∀ p, (st p).isVisited = true → g.isWall p = false → p ∉ queue →
        ∀ v ∈ getNeighbors g p, g.isWall v = false → (st v).isVisited = true) →
      queue.Nodup →
      (st s).isVisited = true →
      phiB g st queue < fuel →
      (e ∈ queue ∨ (st e).isVisited = false) →
      Reachable g s e →
      e ∈ (bfsLoop g e fuel st queue).order ∧
      ∃ d w, (∀ m, d ≤ m →
          getNodesInShortestPathOrder
            (bPrev (bfsLoop g e fuel st queue).state) m e = w) ∧
        ValidPath g s e w ∧ w.length = d + 1 ∧
        (∀ l, ValidPath g s e l → d + 1 ≤ l.length) := by
  intro fuel
  induction fuel with
  | zero =>
    intro st queue ds _ _ _ _ _ _ _ hphi _ _
    omega
  | succ n ih =>
    intro st queue ds hlen hsorted hspread hzip hexp hqnd hsvis hphi hepend hre
    cases queue with
    | nil =>
      exfalso
      obtain ⟨l, hl⟩ := hre
      have hev : (st e).isVisited = false := by
        rcases hepend with h | h
        · exact absurd h (List.not_mem_nil e)
        · exact h
      have hds : ds = [] := List.length_eq_zero.1 (by rw [hlen]; rfl)
      subst hds
      have := bfs_unvisited_bound l.length hlen hzip
        (fun d hd => absurd hd (List.not_mem_nil d))
        hexp hsvis e l hl hev
      omega
    | cons cur qs =>
      cases ds with
      | nil => exact absurd hlen (by simp)
      | cons d1 ds' =>
        have hlen' : ds'.length = qs.length := by
          rw [List.length_cons, List.length_cons] at hlen
          omega
        have hzc : ZipInv g s st cur d1 := hzip (cur, d1) (by
          rw [List.zip_cons_cons]
          exact List.mem_cons_self _ _)
        obtain ⟨hcv, hcw, hcb, hcmin, hcwv, hcwl, hcwvis, hcwc⟩ := hzc
        have hd1min : ∀ d ∈ d1 :: ds', d1 ≤ d := by
          intro d hd
          rcases List.mem_cons.1 hd with rfl | hd'
          · exact le_refl d
          · exact List.rel_of_sorted_cons hsorted d hd'
        have hcur_qs : cur ∉ qs := (List.nodup_cons.1 hqnd).1
        have hqs_nd : qs.Nodup := (List.nodup_cons.1 hqnd).2
        have hqsvis : ∀ p ∈ qs, (st p).isVisited = true := by
          intro p hp
          obtain ⟨d, hd⟩ := mem_zip_of_mem_left qs ds' hlen'.symm p hp
          exact (hzip (p, d) (by
            rw [List.zip_cons_cons]
            exact List.mem_cons_of_mem _ hd)).1
        by_cases hce : cur = e
        · subst hce
          rw [bfsLoop_end hcw]
          dsimp only
          exact ⟨List.mem_singleton_self cur,
            d1, getNodesInShortestPathOrder (bPrev st) d1 cur,
            fun m hm => walk_fuel_mono hcwc m hm, hcwv, hcwl, hcmin⟩
        · rw [bfsLoop_step hcw hce]
          dsimp only
          set ns := getUnvisitedNeighbors g st cur with hnsdef
          set st' := ns.foldl (markNeighbor cur) st with hst'
          have hstate : ∀ p, st' p = if p ∈ ns then ⟨true, some cur⟩ else st p :=
            markFold_spec cur ns st
          have hns_mem : ∀ x ∈ ns, x ∈ getNeighbors g cur ∧
              (st x).isVisited = false ∧ g.isWall x = false :=
            fun x hx => mem_getUnvisitedNeighbors.1 hx
          have hns_nd : ns.Nodup := getUnvisitedNeighbors_nodup g st cur
          have hcur_ns : cur ∉ ns := by
            intro h
            exact not_mem_getNeighbors_self g cur (hns_mem cur h).1
          have hmonov : ∀ p, (st p).isVisited = true →
              (st' p).isVisited = true := by
            intro p hp
            rw [hstate p]
            by_cases h : p ∈ ns
            · rw [if_pos h]
            · rw [if_neg h]
              exact hp
          have hnotns : ∀ p, (st p).isVisited = true → p ∉ ns := by
            intro p hp h
            have h2 := (hns_mem p h).2.1
            rw [hp] at h2
            exact Bool.noConfusion h2
          have hprev_keep : ∀ p, (st p).isVisited = true →
              bPrev st' p = bPrev st p := by
            intro p hp
            rw [bPrev, bPrev, hstate p, if_neg (hnotns p hp)]
          have hwcongr : ∀ (d : Nat) (p : Pos),
              (∀ x ∈ getNodesInShortestPathOrder (bPrev st) d p,
                (st x).isVisited = true) →
              getNodesInShortestPathOrder (bPrev st') d p =
                getNodesInShortestPathOrder (bPrev st) d p := by
            intro d p hvis
            exact walk_congr d p (fun x hx => hprev_keep x (hvis x hx))
          have hbound := bfs_unvisited_bound d1 hlen hzip hd1min hexp hsvis
          have hexp' : ∀ p, (st' p).isVisited = true → g.isWall p = false →
              p ∉ qs ++ ns → ∀ v ∈ getNeighbors g p, g.isWall v = false →
              (st' v).isVisited = true := by
            intro p hp hpw hpq v hv hvw
            by_cases hpc : p = cur
            · subst hpc
              rw [hstate v]
              by_cases hvns : v ∈ ns
              · rw [if_pos hvns]
              · rw [if_neg hvns]
                by_cases hvv : (st v).isVisited = true
                · exact hvv
                · exact absurd (mem_getUnvisitedNeighbors.2
                    ⟨hv, bool_not_true hvv, hvw⟩) hvns
            · have hpns : p ∉ ns := fun h => hpq (List.mem_append_right _ h)
              rw [hstate p, if_neg hpns] at hp
              have hpq2 : p ∉ cur :: qs := by
                intro hm
                rcases List.mem_cons.1 hm with h | h
                · exact hpc h
                · exact hpq (List.mem_append_left _ h)
              exact hmonov v (hexp p hp hpw hpq2 v hv hvw)
          have hqnd' : (qs ++ ns).Nodup := by
            rw [List.nodup_append]
            refine ⟨hqs_nd, hns_nd, ?_⟩
            intro a ha hb
            exact hnotns a (hqsvis a ha) hb
          have hlen'' : (ds' ++ ns.map (fun _ => d1 + 1)).length =
              (qs ++ ns).length := by
            rw [List.length_append, List.length_append, List.length_map, hlen']
          have hmemds : ∀ a ∈ ds' ++ ns.map (fun _ => d1 + 1),
              a ∈ d1 :: ds' ∨ a = d1 + 1 := by
            intro a ha
            rcases List.mem_append.1 ha with h | h
            · exact Or.inl (List.mem_cons_of_mem _ h)
            · obtain ⟨x, -, rfl⟩ := List.mem_map.1 h
              exact Or.inr rfl
          have hsorted'' : List.Pairwise (· ≤ ·)
              (ds' ++ ns.map (fun _ => d1 + 1)) := by
            rw [List.pairwise_append]
            refine ⟨hsorted.of_cons, pairwise_map_const ns (d1 + 1), ?_⟩
            intro a ha b hb
            obtain ⟨x, -, rfl⟩ := List.mem_map.1 hb
            exact hspread a (List.mem_cons_of_mem _ ha) d1 (List.mem_cons_self _ _)
          have hspread'' : ∀ a ∈ ds' ++ ns.map (fun _ => d1 + 1),
              ∀ b ∈ ds' ++ ns.map (fun _ => d1 + 1), a ≤ b + 1 := by
            intro a ha b hb
            rcases hmemds a ha with ha' | ha' <;> rcases hmemds b hb with hb' | hb'
            · exact hspread a ha' b hb'
            · subst hb'
              have := hspread a ha' d1 (List.mem_cons_self _ _)
              omega
            · subst ha'
              have := hd1min b hb'
              omega
            · omega
          have hzip'' : ∀ pd ∈ (qs ++ ns).zip (ds' ++ ns.map (fun _ => d1 + 1)),
              ZipInv g s st' pd.1 pd.2 := by
            intro pd hpd
            rw [List.zip_append hlen'.symm] at hpd
            rcases List.mem_append.1 hpd with hold | hnew
            · -- an old queue entry
              have hz := hzip pd (by
                rw [List.zip_cons_cons]
                exact List.mem_cons_of_mem _ hold)
              obtain ⟨h1, h2, h3, h4, h5, h6, h7, h8⟩ := hz
              have hwc := hwcongr pd.2 pd.1 h7
              refine ⟨hmonov pd.1 h1, h2, h3, h4, ?_, ?_, ?_, ?_⟩
              · rw [hwc]; exact h5
              · rw [hwc]; exact h6
              · rw [hwc]
                intro x hx
                exact hmonov x (h7 x hx)
              · rw [hwc]
                obtain ⟨q0, hq01, hq02⟩ := h8
                refine ⟨q0, hq01, ?_⟩
                rw [hprev_keep q0 (h7 q0 (List.mem_of_mem_head? hq01))]
                exact hq02
            · -- a newly discovered neighbor at level d1 + 1
              obtain ⟨hx, hd⟩ := List.of_mem_zip hnew
              obtain ⟨x0, -, hx0⟩ := List.mem_map.1 hd
              obtain ⟨hxn, hxu, hxw⟩ := hns_mem pd.1 hx
              have hxb : g.inB pd.1 := getNeighbors_inB hcb hxn
              have hwalk : getNodesInShortestPathOrder (bPrev st') (d1 + 1) pd.1 =
                  getNodesInShortestPathOrder (bPrev st) d1 cur ++ [pd.1] := by
                rw [getNodesInShortestPathOrder]
                have hpx : bPrev st' pd.1 = some cur := by
                  rw [bPrev, hstate pd.1, if_pos hx]
                rw [hpx]
                dsimp only
                rw [hwcongr d1 cur hcwvis]
              rw [← hx0]
              refine ⟨?_, hxw, hxb, ?_, ?_, ?_, ?_, ?_⟩
              · rw [hstate pd.1, if_pos hx]
              · intro l hl
                have := hbound pd.1 l hl hxu
                omega
              · rw [hwalk]
                exact validPath_append hcwv hxn hxb hxw
              · rw [hwalk, List.length_append, List.length_singleton, hcwl]
              · rw [hwalk]
                intro x hxm
                rcases List.mem_append.1 hxm with h | h
                · exact hmonov x (hcwvis x h)
                · rw [List.mem_singleton] at h
                  subst h
                  rw [hstate pd.1, if_pos hx]
              · rw [hwalk]
                obtain ⟨q0, hq01, hq02⟩ := hcwc
                refine ⟨q0, ?_, ?_⟩
                · rw [List.head?_append_of_ne_nil _
                    (walk_ne_nil (bPrev st) d1 cur)]
                  exact hq01
                · rw [hprev_keep q0
                    (hcwvis q0 (List.mem_of_mem_head? hq01))]
                  exact hq02
          have hphi' : phiB g st' (qs ++ ns) < n := by
            have hd := @phiB_mark_decrease g st cur qs ns
              (fun x hx => ⟨getNeighbors_inB hcb (hns_mem x hx).1,
                (hns_mem x hx).2.1⟩) hns_nd
            have h0 : phiB g st' (qs ++ ns) =
                phiB g (ns.foldl (markNeighbor cur) st) (qs ++ ns) := rfl
            omega
          have hepend' : e ∈ qs ++ ns ∨ (st' e).isVisited = false := by
            rcases hepend with h | h
            · rcases List.mem_cons.1 h with heq | h'
              · exact absurd heq.symm hce
              · exact Or.inl (List.mem_append_left _ h')
            · by_cases hens : e ∈ ns
              · exact Or.inl (List.mem_append_right _ hens)
              · refine Or.inr ?_
                rw [hstate e, if_neg hens]
                exact h
          obtain ⟨hmem, hrest⟩ := ih st' (qs ++ ns)
            (ds' ++ ns.map (fun _ => d1 + 1)) hlen''
            hsorted'' hspread'' hzip'' hexp' hqnd' (hmonov s hsvis) hphi'
            hepend' hre
          exact ⟨List.mem_cons_of_mem _ hmem, hrest⟩

/-! ## BFS state stability and chain nodup -/

theorem bfs_visited_stable (g : Grid) (e : Pos) :
    ∀ (fuel : Nat) (st : Pos → BNode) (queue : List Pos) (p : Pos),
      (st p).isVisited = true → (bfsLoop g e fuel st queue).state p = st p := by
  intro fuel
  induction fuel with
  | zero => intro st queue p _; rfl
  | succ n ih =>
    intro st queue p hp
    cases queue with
    | nil => rfl
    | cons cur qs =>
      by_cases hw : g.isWall cur = true
      · rw [bfsLoop_wall hw]
        exact ih st qs p hp
      · have hw' : g.isWall cur = false := bool_not_true hw
        by_cases hce : cur = e
        · subst hce
          rw [bfsLoop_end hw']
        · rw [bfsLoop_step hw' hce]
          dsimp only
          set ns := getUnvisitedNeighbors g st cur with hnsdef
          have hpns : p ∉ ns := by
            intro h
            have h2 := (mem_getUnvisitedNeighbors.1 h).2.1
            rw [hp] at h2
            exact Bool.noConfusion h2
          have hkeep : (ns.foldl (markNeighbor cur) st) p = st p :=
            markFold_not_mem hpns
          rw [ih _ _ p (by rw [hkeep]; exact hp), hkeep]

theorem bfs_state_mono (g : Grid) (e : Pos) :
    ∀ (fuel : Nat) (st : Pos → BNode) (queue : List Pos) (p : Pos),
      (st p).isVisited = true →
      ((bfsLoop g e fuel st queue).state p).isVisited = true := by
  intro fuel st queue p hp
  rw [bfs_visited_stable g e fuel st queue p hp]
  exact hp

theorem bfs_unvisited_stable (g : Grid) (e : Pos) :
    ∀ (fuel : Nat) (st : Pos → BNode) (queue : List Pos) (p : Pos),
      ((bfsLoop g e fuel st queue).state p).isVisited = false →
      (bfsLoop g e fuel st queue).state p = st p := by
  intro fuel
  induction fuel with
  | zero => intro st queue p _; rfl
  | succ n ih =>
    intro st queue p hp
    cases queue with
    | nil => rfl
    | cons cur qs =>
      by_cases hw : g.isWall cur = true
      · rw [bfsLoop_wall hw] at hp ⊢
        exact ih st qs p hp
      · have hw' : g.isWall cur = false := bool_not_true hw
        by_cases hce : cur = e
        · subst hce
          rw [bfsLoop_end hw'] at hp ⊢
        · rw [bfsLoop_step hw' hce] at hp ⊢
          dsimp only at hp ⊢
          set ns := getUnvisitedNeighbors g st cur with hnsdef
          have h1 := ih _ _ p hp
          have hpns : p ∉ ns := by
            intro h
            have h2 : ((ns.foldl (markNeighbor cur) st) p).isVisited = true := by
              rw [markFold_mem h]
            rw [h1] at hp
            rw [hp] at h2
            exact Bool.noConfusion h2
          rw [h1, markFold_not_mem hpns]

theorem bfs_wall_stable (g : Grid) (e : Pos) :
    ∀ (fuel : Nat) (st : Pos → BNode) (queue : List Pos) (p : Pos),
      g.isWall p = true → (bfsLoop g e fuel st queue).state p = st p := by
  intro fuel
  induction fuel with
  | zero => intro st queue p _; rfl
  | succ n ih =>
    intro st queue p hp
    cases queue with
    | nil => rfl
    | cons cur qs =>
      by_cases hw : g.isWall cur = true
      · rw [bfsLoop_wall hw]
        exact ih st qs p hp
      · have hw' : g.isWall cur = false := bool_not_true hw
        by_cases hce : cur = e
        · subst hce
          rw [bfsLoop_end hw']
        · rw [bfsLoop_step hw' hce]
          dsimp only
          set ns := getUnvisitedNeighbors g st cur with hnsdef
          have hpns : p ∉ ns := by
            intro h
            have h2 := (mem_getUnvisitedNeighbors.1 h).2.2
            rw [hp] at h2
            exact Bool.noConfusion h2
          rw [ih _ _ p hp, markFold_not_mem hpns]

theorem chain_ranked_nodup {prev : Pos → Option Pos} (hr : Ranked prev)
    {w : List Pos} (hch : List.Chain' (fun a b => prev b = some a) w) :
    w.Nodup := by
  obtain ⟨ρ, hρ⟩ := hr
  have hch2 : List.Chain' (fun a b => ρ a < ρ b) w := by
    refine List.Chain'.imp ?_ hch
    intro a b hab
    exact hρ b a hab
  haveI : IsTrans Pos (fun a b => ρ a < ρ b) := ⟨fun _ _ _ h1 h2 => lt_trans h1 h2⟩
  have hpw : List.Pairwise (fun a b => ρ a < ρ b) w :=
    List.chain'_iff_pairwise.1 hch2
  refine List.Pairwise.imp ?_ hpw
  intro a b hab
  intro hEq
  rw [hEq] at hab
  omega

/-! ## Paths through an expanded-closed state are fully visited -/

theorem visited_along {g : Grid} {stF : Pos → BNode}
    (hclosure : ∀ p, (stF p).isVisited = true → g.isWall p = false →
      ∀ v ∈ getNeighbors g p, g.isWall v = false → (stF v).isVisited = true) :
    ∀ (l : List Pos) (a z : Pos), ValidPath g a z l →
      (stF a).isVisited = true → (stF z).isVisited = true := by
  intro l
  induction l with
  | nil => intro a z h _; exact absurd rfl (validPath_ne_nil h)
  | cons hd t ih =>
    intro a z h ha
    have hhd : hd = a := by
      have := h.1
      rw [List.head?_cons] at this
      exact Option.some.inj this
    subst hhd
    cases t with
    | nil =>
      have : z = hd := by
        have := h.2.1
        simp at this
        exact this.symm
      subst this
      exact ha
    | cons v t' =>
      have hsuf : ValidPath g v z (v :: t') := @validPath_suffix g _ _ _ [hd] _ h
      have hv : v ∈ getNeighbors g hd := by
        have := h.2.2.1
        rw [List.chain'_cons] at this
        exact this.1
      have hvw := (h.2.2.2 v (List.mem_cons_of_mem _ (List.mem_cons_self v t'))).2
      have hhw := (h.2.2.2 hd (List.mem_cons_self _ _)).2
      exact ih v z hsuf (hclosure hd ha hhw v hv hvw)

/-! ## Initial states of the two searches -/

theorem AInv_init {g : Grid} {s e : Pos} {st0 : Pos → ANode}
    (hreset : ∀ p, (st0 p).distance = ⊤ ∧ (st0 p).previousNode = none)
    (hsb : g.inB s) (hsw : g.isWall s = false) :
    AInv g s e
      (setNode st0 s
        { st0 s with distance := 0, totalCost := (heuristic s e : WithTop ℚ) })
      [s] [] := by
  set st1 := setNode st0 s
    { st0 s with distance := 0, totalCost := (heuristic s e : WithTop ℚ) } with hst1
  have hs_self : st1 s =
      { st0 s with distance := 0, totalCost := (heuristic s e : WithTop ℚ) } :=
    setNode_self st0 s _
  have hs_ne : ∀ p, p ≠ s → st1 p = st0 p := fun p hp => setNode_ne st0 s _ hp
  have hsd : (st1 s).distance = 0 := by rw [hs_self]
  have hsp : (st1 s).previousNode = (st0 s).previousNode := by rw [hs_self]
  have hstc : (st1 s).totalCost = (heuristic s e : WithTop ℚ) := by rw [hs_self]
  refine ⟨List.nodup_singleton s, ?_, ?_, ?_, ?_, ?_, ?_, ?_, ?_, ?_, hsd, ?_,
    Or.inl (List.mem_singleton_self s), ?_, ?_, ?_, ?_, ?_, ?_, ?_⟩
  · intro p _
    exact List.not_mem_nil p
  · intro p hp
    rw [List.mem_singleton] at hp
    subst hp
    exact hsb
  · intro p hp
    exact absurd hp (List.not_mem_nil p)
  · intro p hp
    rw [List.mem_singleton] at hp
    subst hp
    exact hsw
  · intro p hp
    exact absurd hp (List.not_mem_nil p)
  · intro p hp
    rw [List.mem_singleton] at hp
    subst hp
    rw [hsd, ← WithTop.coe_zero]
    exact WithTop.coe_ne_top
  · intro p hp
    exact absurd hp (List.not_mem_nil p)
  · intro p hp
    rw [List.mem_singleton] at hp
    subst hp
    rw [hstc, hsd, zero_add]
  · intro p
    by_cases hp : p = s
    · subst hp
      rw [hsd]
    · rw [hs_ne p hp, (hreset p).1]
      exact le_top
  · rw [hsp]
    exact (hreset s).2
  · intro p hp
    by_cases hps : p = s
    · subst hps
      exact Or.inl (List.mem_singleton_self p)
    · rw [hs_ne p hps, (hreset p).1] at hp
      exact absurd rfl hp
  · intro p hp
    by_cases hps : p = s
    · subst hps
      rw [hsd, ← WithTop.coe_zero] at hp
      exact absurd hp WithTop.coe_ne_top
    · rw [hs_ne p hps]
      exact (hreset p).2
  · intro v hvs hv
    rw [hs_ne v hvs, (hreset v).1] at hv
    exact absurd rfl hv
  · refine ⟨fun _ => 0, ?_⟩
    intro v u hvu
    rw [aPrev] at hvu
    by_cases hvsx : v = s
    · subst hvsx
      rw [hsp, (hreset v).2] at hvu
      exact Option.noConfusion hvu
    · rw [hs_ne v hvsx, (hreset v).2] at hvu
      exact Option.noConfusion hvu
  · intro v u hvu
    by_cases hvsx : v = s
    · subst hvsx
      rw [hsp, (hreset v).2] at hvu
      exact Option.noConfusion hvu
    · rw [hs_ne v hvsx, (hreset v).2] at hvu
      exact Option.noConfusion hvu
  · intro u hu
    exact absurd hu (List.not_mem_nil u)
  · intro u hu
    exact absurd hu (List.not_mem_nil u)

theorem phiA_init_lt {g : Grid} {s : Pos} (hsb : g.inB s) :
    phiA g [s] [] < g.rows * g.cols + 1 := by
  classical
  unfold phiA
  have hsub : (posFinset g).filter
      (fun p => g.isWall p = false ∧ p ∉ [s] ∧ p ∉ ([] : List Pos)) ⊆
      (posFinset g).erase s := by
    intro x hx
    rw [Finset.mem_filter] at hx
    rw [Finset.mem_erase]
    refine ⟨?_, hx.1⟩
    intro hxs
    subst hxs
    exact hx.2.2.1 (List.mem_singleton_self x)
  have h1 := Finset.card_le_card hsub
  have h2 : ((posFinset g).erase s).card = (posFinset g).card - 1 :=
    Finset.card_erase_of_mem (mem_posFinset.2 hsb)
  have h3 : 1 ≤ (posFinset g).card :=
    Finset.card_pos.2 ⟨s, mem_posFinset.2 hsb⟩
  rw [posFinset_card] at h2 h3
  simp only [List.length_singleton]
  omega

theorem phiB_init_lt {g : Grid} {s : Pos} {st1 : Pos → BNode} (hsb : g.inB s)
    (hvis : (st1 s).isVisited = true) :
    phiB g st1 [s] < g.rows * g.cols + 1 := by
  classical
  unfold phiB
  have hsub : (posFinset g).filter (fun p => (st1 p).isVisited = false) ⊆
      (posFinset g).erase s := by
    intro x hx
    rw [Finset.mem_filter] at hx
    rw [Finset.mem_erase]
    refine ⟨?_, hx.1⟩
    intro hxs
    subst hxs
    rw [hvis] at hx
    exact Bool.noConfusion hx.2
  have h1 := Finset.card_le_card hsub
  have h2 : ((posFinset g).erase s).card = (posFinset g).card - 1 :=
    Finset.card_erase_of_mem (mem_posFinset.2 hsb)
  have h3 : 1 ≤ (posFinset g).card :=
    Finset.card_pos.2 ⟨s, mem_posFinset.2 hsb⟩
  rw [posFinset_card] at h2 h3
  simp only [List.length_singleton]
  omega

theorem pathCost_ones {g : Grid} {s e : Pos} {l : List Pos}
    (hw1 : ∀ p, g.inB p → g.isWall p = false → g.weight p = 1)
    (h : ValidPath g s e l) : pathCost g l = ((l.length - 1 : ℕ) : ℚ) := by
  unfold pathCost
  have hmap : l.tail.map g.weight = l.tail.map (fun _ => (1 : ℚ)) := by
    refine List.map_congr_left ?_
    intro x hx
    obtain ⟨hb, hw⟩ := h.2.2.2 x (List.mem_of_mem_tail hx)
    exact hw1 x hb hw
  rw [hmap]
  have : (l.tail.map (fun _ => (1 : ℚ))).sum = l.tail.length := by
    induction l.tail with
    | nil => simp
    | cons a t iht =>
      rw [List.map_cons, List.sum_cons, iht, List.length_cons]
      push_cast
      ring
  rw [this, List.length_tail]

/-! ## Claim theorems -/

/-- **C1.** For every grid whose passable cells all have weight at least 1 and
whose scratch fields are reset (`distance = Infinity`, `previousNode = null`),
and valid distinct non-wall start and end cells: if a 4-directional non-wall
path connects start to end, then `astar` terminates having reached the end
(its visitation order ends with the end cell), and the predecessor walk from
the end is a start-to-end path whose total entered-cell cost (start's weight
excluded) is minimal over all such paths. -/
theorem astar_min_cost_path (g : Grid) (s e : Pos) (st0 : Pos → ANode)
    (hreset : ∀ p, (st0 p).distance = ⊤ ∧ (st0 p).previousNode = none)
    (hwt : ∀ p, g.inB p → g.isWall p = false → 1 ≤ g.weight p)
    (hsb : g.inB s) (_heb : g.inB e) (_hne : s ≠ e)
    (hsw : g.isWall s = false) (_hew : g.isWall e = false)
    (hre : Reachable g s e) :
    (astar g s e st0).order.getLast? = some e ∧
    ValidPath g s e (getNodesInShortestPathOrder (aPrev (astar g s e st0).state)
      (g.rows * g.cols) e) ∧
    ∀ l, ValidPath g s e l →
      pathCost g (getNodesInShortestPathOrder (aPrev (astar g s e st0).state)
        (g.rows * g.cols) e) ≤ pathCost g l := by
  have heq : astar g s e st0 = astarLoop g e (g.rows * g.cols + 1)
      (setNode st0 s
        { st0 s with distance := 0, totalCost := (heuristic s e : WithTop ℚ) })
      [s] [] := rfl
  have hM := astar_master g s e hwt (g.rows * g.cols + 1)
    (setNode st0 s
      { st0 s with distance := 0, totalCost := (heuristic s e : WithTop ℚ) })
    [s] [] (AInv_init hreset hsb hsw) (phiA_init_lt hsb)
  rw [heq]
  have hend := hM.reach_end (List.not_mem_nil e) hre
  have hmem : e ∈ (astarLoop g e (g.rows * g.cols + 1) _ [s] []).order :=
    List.mem_of_mem_getLast? hend
  have hfin := hM.order_finite e hmem
  obtain ⟨n, l, hstab, hval, hcost, hnd, hlen, -⟩ := walk_of_final hM.final e hfin
  have hbound : l.length ≤ g.rows * g.cols :=
    nodup_length_le hnd (fun x hx => (hval.2.2.2 x hx).1)
  have hwalk := hstab (g.rows * g.cols) (by omega)
  rw [hwalk]
  refine ⟨hend, hval, ?_⟩
  intro l' hl'
  have h1 := hM.end_min (List.not_mem_nil e) l' hl'
  rw [← hcost, WithTop.coe_le_coe] at h1
  exact h1

/-- A witness run for `astar_min_cost_path` on the open 2 by 2 unit grid. -/
theorem astar_min_cost_path_witness :
    ((∀ p, (resetA p).distance = ⊤ ∧ (resetA p).previousNode = none) ∧
      (∀ p, gridW.inB p → gridW.isWall p = false → 1 ≤ gridW.weight p) ∧
      gridW.inB (0, 0) ∧ gridW.inB (1, 1) ∧ (0, 0) ≠ ((1, 1) : Pos) ∧
      gridW.isWall (0, 0) = false ∧ gridW.isWall (1, 1) = false ∧
      Reachable gridW (0, 0) (1, 1)) ∧
    (astar gridW (0, 0) (1, 1) resetA).order.getLast? = some (1, 1) ∧
    ValidPath gridW (0, 0) (1, 1)
      (getNodesInShortestPathOrder
        (aPrev (astar gridW (0, 0) (1, 1) resetA).state)
        (gridW.rows * gridW.cols) (1, 1)) ∧
    ∀ l, ValidPath gridW (0, 0) (1, 1) l →
      pathCost gridW
        (getNodesInShortestPathOrder
          (aPrev (astar gridW (0, 0) (1, 1) resetA).state)
          (gridW.rows * gridW.cols) (1, 1)) ≤ pathCost gridW l := by
  have hre : Reachable gridW (0, 0) (1, 1) :=
    ⟨[(0, 0), (0, 1), (1, 1)], by decide⟩
  exact ⟨⟨fun p => ⟨rfl, rfl⟩, fun p _ _ => le_refl 1, by decide, by decide,
      by decide, rfl, rfl, hre⟩,
    astar_min_cost_path gridW (0, 0) (1, 1) resetA (fun p => ⟨rfl, rfl⟩)
      (fun p _ _ => le_refl 1) (by decide) (by decide) (by decide) rfl rfl hre⟩

/-- **C5.** On a reset grid with weights at least 1 and valid start and end,
the f-values (`totalCost`) of the cells of the A* run, at the moment each is
selected from the open list and appended to the visitation order, form a
monotonically non-decreasing sequence. -/
theorem astar_fs_monotone (g : Grid) (s e : Pos) (st0 : Pos → ANode)
    (_hreset : ∀ p, (st0 p).distance = ⊤ ∧ (st0 p).previousNode = none)
    (hwt : ∀ p, g.inB p → g.isWall p = false → 1 ≤ g.weight p)
    (hsb : g.inB s) (_heb : g.inB e)
    (hsw : g.isWall s = false) (_hew : g.isWall e = false) :
    List.Sorted (· ≤ ·) (astar g s e st0).fs := by
  have heq : astar g s e st0 = astarLoop g e (g.rows * g.cols + 1)
      (setNode st0 s
        { st0 s with distance := 0, totalCost := (heuristic s e : WithTop ℚ) })
      [s] [] := rfl
  rw [heq]
  set st1 := setNode st0 s
    { st0 s with distance := 0, totalCost := (heuristic s e : WithTop ℚ) }
    with hst1
  have hs_self : st1 s =
      { st0 s with distance := 0, totalCost := (heuristic s e : WithTop ℚ) } :=
    setNode_self st0 s _
  have hchain := (astar_fs_aux g e hwt (g.rows * g.cols + 1) st1 [s] []
    ((st1 s).totalCost) ?_ ?_).1
  · exact List.chain'_iff_pairwise.1 hchain
  · intro p hp
    rw [List.mem_singleton] at hp
    subst hp
    refine ⟨hsw, hsb, ?_, ?_⟩
    · rw [hs_self, ← WithTop.coe_zero]
      exact WithTop.coe_ne_top
    · rw [hs_self]
      show (heuristic p e : WithTop ℚ) = 0 + (heuristic p e : WithTop ℚ)
      rw [zero_add]
  · intro p hp
    rw [List.mem_singleton] at hp
    subst hp
    exact le_refl _

/-- A witness run for `astar_fs_monotone` on the open 2 by 2 unit grid. -/
theorem astar_fs_monotone_witness :
    ((∀ p, (resetA p).distance = ⊤ ∧ (resetA p).previousNode = none) ∧
      (∀ p, gridW.inB p → gridW.isWall p = false → 1 ≤ gridW.weight p) ∧
      gridW.inB (0, 0) ∧ gridW.inB (1, 1) ∧
      gridW.isWall (0, 0) = false ∧ gridW.isWall (1, 1) = false) ∧
    List.Sorted (· ≤ ·) (astar gridW (0, 0) (1, 1) resetA).fs :=
  ⟨⟨fun p => ⟨rfl, rfl⟩, fun p _ _ => le_refl 1, by decide, by decide, rfl, rfl⟩,
    astar_fs_monotone gridW (0, 0) (1, 1) resetA (fun p => ⟨rfl, rfl⟩)
      (fun p _ _ => le_refl 1) (by decide) (by decide) rfl rfl⟩

/-- **C7.** In every run of `astar`, no cell appears more than once in the
returned visitation order, and no wall cell ever appears in it. -/
theorem astar_no_revisit_no_wall (g : Grid) (s e : Pos) (st0 : Pos → ANode) :
    (astar g s e st0).order.Nodup ∧
    ∀ p ∈ (astar g s e st0).order, g.isWall p = false := by
  obtain ⟨h1, h2⟩ := astar_order_aux g e (g.rows * g.cols + 1)
    (setNode st0 s
      { st0 s with distance := 0, totalCost := (heuristic s e : WithTop ℚ) })
    [s] []
  exact ⟨h1, fun p hp => (h2 p hp).1⟩

/-- **C9.** On a grid with reset scratch fields, every cell processed from
the open list has a finite distance: the `current.distance === Infinity`
guard and its early return never fire, and every recorded f-value is
finite. -/
theorem astar_inf_guard_unreachable (g : Grid) (s e : Pos) (st0 : Pos → ANode)
    (_hreset : ∀ p, (st0 p).distance = ⊤ ∧ (st0 p).previousNode = none) :
    (astar g s e st0).infGuard = false ∧
    ∀ f ∈ (astar g s e st0).fs, f ≠ ⊤ := by
  refine astar_guard_aux g e (g.rows * g.cols + 1)
    (setNode st0 s
      { st0 s with distance := 0, totalCost := (heuristic s e : WithTop ℚ) })
    [s] [] ?_
  intro p hp
  rw [List.mem_singleton] at hp
  subst hp
  rw [setNode_self]
  constructor
  · show (0 : WithTop ℚ) ≠ ⊤
    rw [← WithTop.coe_zero]
    exact WithTop.coe_ne_top
  · show (heuristic p e : WithTop ℚ) ≠ ⊤
    exact WithTop.coe_ne_top

/-- A witness run for `astar_inf_guard_unreachable`. -/
theorem astar_inf_guard_unreachable_witness :
    (∀ p, (resetA p).distance = ⊤ ∧ (resetA p).previousNode = none) ∧
    (astar gridW (0, 0) (1, 1) resetA).infGuard = false ∧
    ∀ f ∈ (astar gridW (0, 0) (1, 1) resetA).fs, f ≠ ⊤ :=
  ⟨fun _ => ⟨rfl, rfl⟩,
    astar_inf_guard_unreachable gridW (0, 0) (1, 1) resetA (fun _ => ⟨rfl, rfl⟩)⟩

/-- **C10.** After a run of `bfs` or of `astar` on a grid whose
`previousNode` fields were all null beforehand, the predecessor relation is
acyclic: following `previousNode` links from any cell reaches a cell with no
predecessor in finitely many steps, and the predecessor walk of
`getNodesInShortestPathOrder` completes on every cell. -/
theorem prev_chains_acyclic (g : Grid) (s e : Pos)
    (st0b : Pos → BNode) (st0a : Pos → ANode)
    (hb : ∀ p, (st0b p).previousNode = none)
    (ha : ∀ p, (st0a p).previousNode = none) :
    (∀ p, chainHalts (bPrev (bfs g s e st0b).state) p ∧
      ∃ n, walkComplete (bPrev (bfs g s e st0b).state)
        (getNodesInShortestPathOrder (bPrev (bfs g s e st0b).state) n p)) ∧
    (∀ p, chainHalts (aPrev (astar g s e st0a).state) p ∧
      ∃ n, walkComplete (aPrev (astar g s e st0a).state)
        (getNodesInShortestPathOrder (aPrev (astar g s e st0a).state) n p)) := by
  have heqb : bfs g s e st0b = bfsLoop g e (g.rows * g.cols + 1)
      (bfsInit st0b s) [s] := rfl
  have heqa : astar g s e st0a = astarLoop g e (g.rows * g.cols + 1)
      (setNode st0a s
        { st0a s with distance := 0, totalCost := (heuristic s e : WithTop ℚ) })
      [s] [] := rfl
  set st1b : Pos → BNode := bfsInit st0b s with hst1b
  have hprevb : ∀ p, (st1b p).previousNode = none := by
    intro p
    rw [hst1b]
    unfold bfsInit
    split_ifs with hp
    · exact hb s
    · exact hb p
  have hrb : Ranked (bPrev (bfs g s e st0b).state) := by
    rw [heqb]
    refine bfs_ranked_aux g e (g.rows * g.cols + 1) st1b [s] ?_ ?_ ?_
    · intro v u hvu
      rw [hprevb v] at hvu
      exact Option.noConfusion hvu
    · intro p hp
      rw [List.mem_singleton] at hp
      subst hp
      rw [hst1b]
      unfold bfsInit
      rw [if_pos rfl]
    · refine ⟨fun _ => 0, ?_⟩
      intro v u hvu
      rw [bPrev, hprevb v] at hvu
      exact Option.noConfusion hvu
  set st1a := setNode st0a s
    { st0a s with distance := 0, totalCost := (heuristic s e : WithTop ℚ) }
    with hst1a
  have hpreva : ∀ p, (st1a p).previousNode = none := by
    intro p
    rw [hst1a]
    by_cases hp : p = s
    · subst hp
      rw [setNode_self]
      exact ha p
    · rw [setNode_ne st0a s _ hp]
      exact ha p
  have hra : Ranked (aPrev (astar g s e st0a).state) := by
    rw [heqa]
    refine astar_ranked_aux g e (g.rows * g.cols + 1) st1a [s] [] ?_ ?_
    · intro v u hvu
      rw [hpreva v] at hvu
      exact Option.noConfusion hvu
    · refine ⟨fun _ => 0, ?_⟩
      intro v u hvu
      rw [aPrev, hpreva v] at hvu
      exact Option.noConfusion hvu
  exact ⟨fun p => ⟨ranked_chainHalts hrb p, ranked_walkComplete hrb p⟩,
    fun p => ⟨ranked_chainHalts hra p, ranked_walkComplete hra p⟩⟩

/-- A witness run for `prev_chains_acyclic`. -/
theorem prev_chains_acyclic_witness :
    ((∀ p, (resetB p).previousNode = none) ∧
      (∀ p, (resetA p).previousNode = none)) ∧
    ((∀ p, chainHalts (bPrev (bfs gridW (0, 0) (1, 1) resetB).state) p ∧
      ∃ n, walkComplete (bPrev (bfs gridW (0, 0) (1, 1) resetB).state)
        (getNodesInShortestPathOrder
          (bPrev (bfs gridW (0, 0) (1, 1) resetB).state) n p)) ∧
    (∀ p, chainHalts (aPrev (astar gridW (0, 0) (1, 1) resetA).state) p ∧
      ∃ n, walkComplete (aPrev (astar gridW (0, 0) (1, 1) resetA).state)
        (getNodesInShortestPathOrder
          (aPrev (astar gridW (0, 0) (1, 1) resetA).state) n p))) :=
  ⟨⟨fun _ => rfl, fun _ => rfl⟩,
    prev_chains_acyclic gridW (0, 0) (1, 1) resetB resetA
      (fun _ => rfl) (fun _ => rfl)⟩

/-- **C8.** On a grid with at least 2 rows and 2 columns, the neighbor
lookup of any cell returns between 2 and 4 cells, each the in-bounds cell
immediately up, down, left or right of it, and always in the fixed order
up, down, left, right (a sublist of the four candidates in that order). -/
theorem getNeighbors_bounds (g : Grid) (p : Pos)
    (h2r : 2 ≤ g.rows) (h2c : 2 ≤ g.cols) (hp : g.inB p) :
    2 ≤ (getNeighbors g p).length ∧ (getNeighbors g p).length ≤ 4 ∧
    (∀ q ∈ getNeighbors g p, g.inB q) ∧
    List.Sublist (getNeighbors g p)
      [(p.1 - 1, p.2), (p.1 + 1, p.2), (p.1, p.2 - 1), (p.1, p.2 + 1)] ∧
    ∀ q ∈ getNeighbors g p,
      (0 < p.1 ∧ q = (p.1 - 1, p.2)) ∨ (p.1 < g.rows - 1 ∧ q = (p.1 + 1, p.2)) ∨
      (0 < p.2 ∧ q = (p.1, p.2 - 1)) ∨ (p.2 < g.cols - 1 ∧ q = (p.1, p.2 + 1)) := by
  obtain ⟨hr, hc⟩ := hp
  have hchoice : ∀ (c : Prop) (inst : Decidable c) (x : Pos),
      List.Sublist (if c then [x] else []) [x] := by
    intro c inst x
    split_ifs
    · exact List.Sublist.refl [x]
    · exact List.nil_sublist [x]
  refine ⟨?_, ?_, fun q hq => getNeighbors_inB ⟨hr, hc⟩ hq, ?_, fun q hq =>
    mem_getNeighbors.1 hq⟩
  · unfold getNeighbors
    split_ifs with h1 h2 h3 h4 <;> simp <;> omega
  · unfold getNeighbors
    split_ifs <;> simp
  · show List.Sublist _ ([(p.1 - 1, p.2)] ++ [(p.1 + 1, p.2)] ++
      [(p.1, p.2 - 1)] ++ [(p.1, p.2 + 1)])
    unfold getNeighbors
    exact ((((hchoice _ _ _).append (hchoice _ _ _)).append
      (hchoice _ _ _)).append (hchoice _ _ _))

/-- A witness cell for `getNeighbors_bounds` on the 2 by 2 grid. -/
theorem getNeighbors_bounds_witness :
    (2 ≤ gridW.rows ∧ 2 ≤ gridW.cols ∧ gridW.inB (0, 0)) ∧
    (2 ≤ (getNeighbors gridW (0, 0)).length ∧
      (getNeighbors gridW (0, 0)).length ≤ 4 ∧
      (∀ q ∈ getNeighbors gridW (0, 0), gridW.inB q) ∧
      List.Sublist (getNeighbors gridW (0, 0))
        [(0 - 1, 0), (0 + 1, 0), (0, 0 - 1), (0, 0 + 1)] ∧
      ∀ q ∈ getNeighbors gridW (0, 0),
        (0 < 0 ∧ q = (0 - 1, 0)) ∨ (0 < gridW.rows - 1 ∧ q = (0 + 1, 0)) ∨
        (0 < 0 ∧ q = (0, 0 - 1)) ∨ (0 < gridW.cols - 1 ∧ q = (0, 0 + 1))) :=
  ⟨⟨by decide, by decide, by decide⟩,
    getNeighbors_bounds gridW (0, 0) (by decide) (by decide) (by decide)⟩

/-- **C2.** On a grid with reset scratch fields and valid distinct non-wall
start and end cells connected by some 4-directional non-wall path, the
predecessor walk from the end after `bfs` is a start-to-end path with the
fewest edges among all such paths. -/
theorem bfs_fewest_edges_path (g : Grid) (s e : Pos) (st0 : Pos → BNode)
    (hreset : ∀ p, (st0 p).isVisited = false ∧ (st0 p).previousNode = none)
    (hsb : g.inB s) (_heb : g.inB e) (hne : s ≠ e)
    (hsw : g.isWall s = false) (_hew : g.isWall e = false)
    (hre : Reachable g s e) :
    ValidPath g s e (getNodesInShortestPathOrder (bPrev (bfs g s e st0).state)
      (g.rows * g.cols) e) ∧
    ∀ l, ValidPath g s e l →
      (getNodesInShortestPathOrder (bPrev (bfs g s e st0).state)
        (g.rows * g.cols) e).length ≤ l.length := by
  have heq : bfs g s e st0 =
      bfsLoop g e (g.rows * g.cols + 1) (bfsInit st0 s) [s] := rfl
  rw [heq]
  set st1 := bfsInit st0 s with hst1
  have hs_self : st1 s = ⟨true, (st0 s).previousNode⟩ := by
    rw [hst1]; unfold bfsInit; rw [if_pos rfl]
  have hs_vis : (st1 s).isVisited = true := by rw [hs_self]
  have hs_prev : (st1 s).previousNode = none := by
    rw [hs_self]; exact (hreset s).2
  have hother : ∀ p, p ≠ s → st1 p = st0 p := by
    intro p hp
    rw [hst1]; unfold bfsInit; rw [if_neg hp]
  have hprev_none : ∀ v, (st1 v).previousNode = none := by
    intro v
    by_cases hvs : v = s
    · rw [hvs]; exact hs_prev
    · rw [hother v hvs]; exact (hreset v).2
  have hzip : ∀ pd ∈ ([s].zip [0] : List (Pos × Nat)), ZipInv g s st1 pd.1 pd.2 := by
    intro pd hpd
    rw [show ([s].zip [0] : List (Pos × Nat)) = [(s, 0)] from rfl,
      List.mem_singleton] at hpd
    subst hpd
    unfold ZipInv
    refine ⟨hs_vis, hsw, hsb, ?_, validPath_singleton hsb hsw, rfl, ?_, ?_⟩
    · intro l hl
      have h1 : 0 < l.length := List.length_pos.2 (validPath_ne_nil hl)
      omega
    · intro x hx
      rw [show getNodesInShortestPathOrder (bPrev st1) 0 s = [s] from rfl,
        List.mem_singleton] at hx
      subst hx
      exact hs_vis
    · exact ⟨s, rfl, hprev_none s⟩
  have hclosure : ∀ p, (st1 p).isVisited = true → g.isWall p = false →
      p ∉ [s] → ∀ v ∈ getNeighbors g p, g.isWall v = false →
      (st1 v).isVisited = true := by
    intro p hp hpw hpq
    exfalso
    by_cases hps : p = s
    · subst hps
      exact hpq (List.mem_singleton.2 rfl)
    · rw [hother p hps, (hreset p).1] at hp
      exact Bool.noConfusion hp
  have hev : e ∈ [s] ∨ (st1 e).isVisited = false := by
    right
    rw [hother e (Ne.symm hne)]
    exact (hreset e).1
  have hM := bfs_sp_master g s e hsb (g.rows * g.cols + 1) st1 [s] [0]
    rfl (List.pairwise_singleton _ _)
    (by intro a ha b hb; rw [List.mem_singleton] at ha hb; omega)
    hzip hclosure (List.nodup_singleton s) hs_vis
    (phiB_init_lt hsb hs_vis) hev hre
  obtain ⟨-, d, w, hstab, hval, hlen, hmin⟩ := hM
  have hpre1 : ∀ v u, (st1 v).previousNode = some u → (st1 u).isVisited = true := by
    intro v u hvu
    rw [hprev_none v] at hvu
    exact Option.noConfusion hvu
  have hrank1 : Ranked (bPrev st1) := by
    refine ⟨fun _ => 0, ?_⟩
    intro v u hvu
    simp only [bPrev] at hvu
    rw [hprev_none v] at hvu
    exact Option.noConfusion hvu
  have hrankF := bfs_ranked_aux g e (g.rows * g.cols + 1) st1 [s] hpre1
    (by intro p hp; rw [List.mem_singleton] at hp; subst hp; exact hs_vis) hrank1
  have hwd := hstab d le_rfl
  have hch : List.Chain' (fun a b =>
      bPrev (bfsLoop g e (g.rows * g.cols + 1) st1 [s]).state b = some a) w := by
    rw [← hwd]
    exact walk_chain _ d e
  have hnd := chain_ranked_nodup hrankF hch
  have hbd : w.length ≤ g.rows * g.cols :=
    nodup_length_le hnd (fun x hx => (hval.2.2.2 x hx).1)
  have hdN : d ≤ g.rows * g.cols := by omega
  rw [hstab (g.rows * g.cols) hdN]
  refine ⟨hval, ?_⟩
  intro l hl
  have h1 := hmin l hl
  omega

/-- A witness run for `bfs_fewest_edges_path` on the open 2 by 2 unit grid. -/
theorem bfs_fewest_edges_path_witness :
    ((∀ p, (resetB p).isVisited = false ∧ (resetB p).previousNode = none) ∧
      gridW.inB (0, 0) ∧ gridW.inB (1, 1) ∧ (0, 0) ≠ ((1, 1) : Pos) ∧
      gridW.isWall (0, 0) = false ∧ gridW.isWall (1, 1) = false ∧
      Reachable gridW (0, 0) (1, 1)) ∧
    ValidPath gridW (0, 0) (1, 1)
      (getNodesInShortestPathOrder
        (bPrev (bfs gridW (0, 0) (1, 1) resetB).state)
        (gridW.rows * gridW.cols) (1, 1)) ∧
    ∀ l, ValidPath gridW (0, 0) (1, 1) l →
      (getNodesInShortestPathOrder
        (bPrev (bfs gridW (0, 0) (1, 1) resetB).state)
        (gridW.rows * gridW.cols) (1, 1)).length ≤ l.length := by
  have hre : Reachable gridW (0, 0) (1, 1) :=
    ⟨[(0, 0), (0, 1), (1, 1)], by decide⟩
  exact ⟨⟨fun p => ⟨rfl, rfl⟩, by decide, by decide, by decide, rfl, rfl, hre⟩,
    bfs_fewest_edges_path gridW (0, 0) (1, 1) resetB (fun p => ⟨rfl, rfl⟩)
      (by decide) (by decide) (by decide) rfl rfl hre⟩

/-- **C3.** If no non-wall path connects a valid start to the end, `bfs`
terminates with its queue exhausted and its visitation order is exactly the
set of cells reachable from the start, without repeats and never containing
the end; and if the start is a wall, both `bfs` and `astar` return the empty
visitation order. -/
theorem bfs_unreachable_exact (g : Grid) (s e : Pos)
    (st0 : Pos → BNode) (st0a : Pos → ANode)
    (hreset : ∀ p, (st0 p).isVisited = false ∧ (st0 p).previousNode = none) :
    (g.inB s → g.isWall s = false → ¬ Reachable g s e →
      (bfs g s e st0).exhausted = true ∧
      (∀ z, z ∈ (bfs g s e st0).order ↔ Reachable g s z) ∧
      (bfs g s e st0).order.Nodup ∧
      e ∉ (bfs g s e st0).order) ∧
    (g.isWall s = true →
      (bfs g s e st0).order = [] ∧ (astar g s e st0a).order = []) := by
  constructor
  · intro hsb hsw hnoe
    have heq : bfs g s e st0 =
        bfsLoop g e (g.rows * g.cols + 1) (bfsInit st0 s) [s] := rfl
    rw [heq]
    set st1 := bfsInit st0 s with hst1
    have hs_self : st1 s = ⟨true, (st0 s).previousNode⟩ := by
      rw [hst1]; unfold bfsInit; rw [if_pos rfl]
    have hs_vis : (st1 s).isVisited = true := by rw [hs_self]
    have hother : ∀ p, p ≠ s → st1 p = st0 p := by
      intro p hp
      rw [hst1]; unfold bfsInit; rw [if_neg hp]
    have hM := bfs_reach_master g s e hsb hnoe (g.rows * g.cols + 1) st1 [s]
      (by intro p hp; rw [List.mem_singleton] at hp; subst hp; exact hs_vis)
      (by intro p hp; rw [List.mem_singleton] at hp; subst hp; exact hsb)
      (List.nodup_singleton s)
      (by intro p hp; rw [List.mem_singleton] at hp; exact Or.inr hp)
      (by
        intro p hp
        by_cases hps : p = s
        · exact Or.inr hps
        · rw [hother p hps, (hreset p).1] at hp
          exact Bool.noConfusion hp)
      (by
        intro p hp hpw hpq
        exfalso
        by_cases hps : p = s
        · subst hps
          exact hpq (List.mem_singleton.2 rfl)
        · rw [hother p hps, (hreset p).1] at hp
          exact Bool.noConfusion hp)
      (phiB_init_lt hsb hs_vis)
    obtain ⟨c1, c2, c3, -, c5, c6, c7⟩ := hM
    refine ⟨c1, ?_, c3, ?_⟩
    · intro z
      constructor
      · exact c2 z
      · intro hrz
        obtain ⟨l, hl⟩ := hrz
        have hsv := c5 s hs_vis
        have hzv := visited_along c6 l s z hl hsv
        have hzw : g.isWall z = false := (validPath_end_inB hl).2
        rcases c7 z hzv hzw with h | ⟨h1, h2⟩
        · exact h
        · exfalso
          by_cases hzs : z = s
          · subst hzs
            exact h2 (List.mem_singleton.2 rfl)
          · rw [hother z hzs, (hreset z).1] at h1
            exact Bool.noConfusion h1
    · intro hmem
      exact hnoe (c2 e hmem)
  · intro hswall
    constructor
    · show (bfsLoop g e (g.rows * g.cols + 1) (bfsInit st0 s) [s]).order = []
      rw [bfsLoop_wall hswall]
      cases hN : g.rows * g.cols with
      | zero => rfl
      | succ n => rw [bfsLoop_nil]
    · show (astarLoop g e (g.rows * g.cols + 1)
        (setNode st0a s
          { st0a s with distance := 0, totalCost := (heuristic s e : WithTop ℚ) })
        [s] []).order = []
      rw [astarLoop_wall (show sortOpen _ [s] = s :: [] from rfl) hswall]
      cases hN : g.rows * g.cols with
      | zero => rfl
      | succ n => rw [astarLoop_nil (show sortOpen _ [] = [] from rfl)]

/-- A witness for `bfs_unreachable_exact`: on the 2 by 2 grid with a wall at
(1,1), the end (1,1) is unreachable from (0,0), and starting from the wall
cell (1,1) both searches return the empty order. -/
theorem bfs_unreachable_exact_witness :
    ((∀ p, (resetB p).isVisited = false ∧ (resetB p).previousNode = none) ∧
      gridWE.inB (0, 0) ∧ gridWE.isWall (0, 0) = false ∧
      ¬ Reachable gridWE (0, 0) (1, 1) ∧ gridWE.isWall (1, 1) = true) ∧
    ((bfs gridWE (0, 0) (1, 1) resetB).exhausted = true ∧
      (∀ z, z ∈ (bfs gridWE (0, 0) (1, 1) resetB).order ↔
        Reachable gridWE (0, 0) z) ∧
      (bfs gridWE (0, 0) (1, 1) resetB).order.Nodup ∧
      (1, 1) ∉ (bfs gridWE (0, 0) (1, 1) resetB).order) ∧
    ((bfs gridWE (1, 1) (0, 0) resetB).order = [] ∧
      (astar gridWE (1, 1) (0, 0) resetA).order = []) := by
  have hnoe : ¬ Reachable gridWE (0, 0) (1, 1) := fun h =>
    absurd (validPath_end_inB h.choose_spec).2 (by decide)
  refine ⟨⟨fun p => ⟨rfl, rfl⟩, by decide, by decide, hnoe, by decide⟩, ?_, ?_⟩
  · exact (bfs_unreachable_exact gridWE (0, 0) (1, 1) resetB resetA
      (fun p => ⟨rfl, rfl⟩)).1 (by decide) (by decide) hnoe
  · exact (bfs_unreachable_exact gridWE (1, 1) (0, 0) resetB resetA
      (fun p => ⟨rfl, rfl⟩)).2 (by decide)

/-- **C4.** After either search on a reset grid with a valid start, the
predecessor walk from any end cell stabilises to a non-empty sequence whose
last element is the end, in which consecutive elements are joined by one
`previousNode` link and whose first element has no predecessor; if the end's
`previousNode` is null the walk is exactly `[end]`, and the walk's first
element equals the start if and only if the search's visitation order
contains the end. -/
theorem walk_shape_start_iff (g : Grid) (s e : Pos)
    (st0a : Pos → ANode) (st0b : Pos → BNode)
    (hresetA : ∀ p, (st0a p).distance = ⊤ ∧ (st0a p).previousNode = none)
    (hresetB : ∀ p, (st0b p).isVisited = false ∧ (st0b p).previousNode = none)
    (hwt : ∀ p, g.inB p → g.isWall p = false → 1 ≤ g.weight p)
    (hsb : g.inB s) (hsw : g.isWall s = false) :
    (∃ n w, (∀ m, n ≤ m →
        getNodesInShortestPathOrder (aPrev (astar g s e st0a).state) m e = w) ∧
      w ≠ [] ∧ w.getLast? = some e ∧
      List.Chain' (fun a b => aPrev (astar g s e st0a).state b = some a) w ∧
      walkComplete (aPrev (astar g s e st0a).state) w ∧
      (aPrev (astar g s e st0a).state e = none → w = [e]) ∧
      (w.head? = some s ↔ e ∈ (astar g s e st0a).order)) ∧
    (∃ n w, (∀ m, n ≤ m →
        getNodesInShortestPathOrder (bPrev (bfs g s e st0b).state) m e = w) ∧
      w ≠ [] ∧ w.getLast? = some e ∧
      List.Chain' (fun a b => bPrev (bfs g s e st0b).state b = some a) w ∧
      walkComplete (bPrev (bfs g s e st0b).state) w ∧
      (bPrev (bfs g s e st0b).state e = none → w = [e]) ∧
      (w.head? = some s ↔ e ∈ (bfs g s e st0b).order)) := by
  have heqA : astar g s e st0a = astarLoop g e (g.rows * g.cols + 1)
      (setNode st0a s
        { st0a s with distance := 0, totalCost := (heuristic s e : WithTop ℚ) })
      [s] [] := rfl
  have heqB : bfs g s e st0b =
      bfsLoop g e (g.rows * g.cols + 1) (bfsInit st0b s) [s] := rfl
  constructor
  · -- the A* side
    have hMA := astar_master g s e hwt (g.rows * g.cols + 1)
      (setNode st0a s
        { st0a s with distance := 0, totalCost := (heuristic s e : WithTop ℚ) })
      [s] [] (AInv_init hresetA hsb hsw) (phiA_init_lt hsb)
    rw [← heqA] at hMA
    by_cases hfe : ((astar g s e st0a).state e).distance = ⊤
    · have hpe : aPrev (astar g s e st0a).state e = none :=
        hMA.final.prev_of_inf e hfe
      refine ⟨0, [e], fun m _ => walk_of_prev_none hpe m, List.cons_ne_nil e [],
        rfl, List.chain'_singleton e, ⟨e, rfl, hpe⟩, fun _ => rfl, ?_, ?_⟩
      · intro hh
        exfalso
        have hes : e = s := Option.some.inj hh
        subst hes
        rw [hMA.final.start_dist] at hfe
        have h0 : (0 : WithTop ℚ) ≠ ⊤ := by
          rw [← WithTop.coe_zero]
          exact WithTop.coe_ne_top
        exact h0 hfe
      · intro hmem
        exact absurd hfe (hMA.order_finite e hmem)
    · obtain ⟨n, w, hstab, hval, -, -, -, -⟩ := walk_of_final hMA.final e hfe
      have hmem : e ∈ (astar g s e st0a).order := by
        cases hex : (astar g s e st0a).exhausted with
        | false => exact List.mem_of_mem_getLast? (hMA.early_end hex)
        | true =>
          rcases hMA.exhausted_closed hex e hfe with h | h
          · exact absurd h (List.not_mem_nil e)
          · exact h
      refine ⟨n, w, hstab, validPath_ne_nil hval, hval.2.1, ?_,
        ⟨s, hval.1, hMA.final.start_prev⟩, ?_, ?_⟩
      · rw [← hstab n le_rfl]
        exact walk_chain _ n e
      · intro hpe
        rw [← hstab n le_rfl, walk_of_prev_none hpe]
      · exact ⟨fun _ => hmem, fun _ => hval.1⟩
  · -- the BFS side
    have hs_self : bfsInit st0b s s = ⟨true, (st0b s).previousNode⟩ := by
      unfold bfsInit; rw [if_pos rfl]
    have hs_vis : (bfsInit st0b s s).isVisited = true := by rw [hs_self]
    have hother : ∀ p, p ≠ s → bfsInit st0b s p = st0b p := by
      intro p hp
      unfold bfsInit; rw [if_neg hp]
    have hprev_none : ∀ v, (bfsInit st0b s v).previousNode = none := by
      intro v
      by_cases hvs : v = s
      · rw [hvs, hs_self]; exact (hresetB s).2
      · rw [hother v hvs]; exact (hresetB v).2
    by_cases hre : Reachable g s e
    · have hzip : ∀ pd ∈ ([s].zip [0] : List (Pos × Nat)),
          ZipInv g s (bfsInit st0b s) pd.1 pd.2 := by
        intro pd hpd
        rw [show ([s].zip [0] : List (Pos × Nat)) = [(s, 0)] from rfl,
          List.mem_singleton] at hpd
        subst hpd
        unfold ZipInv
        refine ⟨hs_vis, hsw, hsb, ?_, validPath_singleton hsb hsw, rfl, ?_, ?_⟩
        · intro l hl
          have h1 : 0 < l.length := List.length_pos.2 (validPath_ne_nil hl)
          omega
        · intro x hx
          rw [show getNodesInShortestPathOrder (bPrev (bfsInit st0b s)) 0 s = [s]
            from rfl, List.mem_singleton] at hx
          subst hx
          exact hs_vis
        · exact ⟨s, rfl, hprev_none s⟩
      have hclosure : ∀ p, (bfsInit st0b s p).isVisited = true →
          g.isWall p = false → p ∉ [s] → ∀ v ∈ getNeighbors g p,
          g.isWall v = false → (bfsInit st0b s v).isVisited = true := by
        intro p hp hpw hpq
        exfalso
        by_cases hps : p = s
        · subst hps
          exact hpq (List.mem_singleton.2 rfl)
        · rw [hother p hps, (hresetB p).1] at hp
          exact Bool.noConfusion hp
      have hev : e ∈ [s] ∨ (bfsInit st0b s e).isVisited = false := by
        by_cases hes : e = s
        · exact Or.inl (by rw [hes]; exact List.mem_singleton.2 rfl)
        · right
          rw [hother e hes]
          exact (hresetB e).1
      have hM := bfs_sp_master g s e hsb (g.rows * g.cols + 1)
        (bfsInit st0b s) [s] [0]
        rfl (List.pairwise_singleton _ _)
        (by intro a ha b hb; rw [List.mem_singleton] at ha hb; omega)
        hzip hclosure (List.nodup_singleton s) hs_vis
        (phiB_init_lt hsb hs_vis) hev hre
      rw [← heqB] at hM
      obtain ⟨hmem, d, w, hstab, hval, -, -⟩ := hM
      have hsprev : bPrev (bfs g s e st0b).state s = none := by
        have h1 := bfs_visited_stable g e (g.rows * g.cols + 1)
          (bfsInit st0b s) [s] s hs_vis
        rw [← heqB] at h1
        show ((bfs g s e st0b).state s).previousNode = none
        rw [h1, hs_self]
        exact (hresetB s).2
      refine ⟨d, w, hstab, validPath_ne_nil hval, hval.2.1, ?_,
        ⟨s, hval.1, hsprev⟩, ?_, ?_⟩
      · rw [← hstab d le_rfl]
        exact walk_chain _ d e
      · intro hpe
        rw [← hstab d le_rfl, walk_of_prev_none hpe]
      · exact ⟨fun _ => hmem, fun _ => hval.1⟩
    · have hMr := bfs_reach_master g s e hsb hre (g.rows * g.cols + 1)
        (bfsInit st0b s) [s]
        (by intro p hp; rw [List.mem_singleton] at hp; subst hp; exact hs_vis)
        (by intro p hp; rw [List.mem_singleton] at hp; subst hp; exact hsb)
        (List.nodup_singleton s)
        (by intro p hp; rw [List.mem_singleton] at hp; exact Or.inr hp)
        (by
          intro p hp
          by_cases hps : p = s
          · exact Or.inr hps
          · rw [hother p hps, (hresetB p).1] at hp
            exact Bool.noConfusion hp)
        (by
          intro p hp hpw hpq
          exfalso
          by_cases hps : p = s
          · subst hps
            exact hpq (List.mem_singleton.2 rfl)
          · rw [hother p hps, (hresetB p).1] at hp
            exact Bool.noConfusion hp)
        (phiB_init_lt hsb hs_vis)
      rw [← heqB] at hMr
      obtain ⟨-, c2, -, -, -, -, c7⟩ := hMr
      have hvfalse : ((bfs g s e st0b).state e).isVisited = false := by
        by_cases hvz : ((bfs g s e st0b).state e).isVisited = true
        · exfalso
          by_cases hwz : g.isWall e = true
          · have hst := bfs_wall_stable g e (g.rows * g.cols + 1)
              (bfsInit st0b s) [s] e hwz
            rw [← heqB] at hst
            rw [hst] at hvz
            by_cases hes : e = s
            · rw [hes, hsw] at hwz
              exact Bool.noConfusion hwz
            · rw [hother e hes, (hresetB e).1] at hvz
              exact Bool.noConfusion hvz
          · have hwz2 : g.isWall e = false := bool_not_true hwz
            rcases c7 e hvz hwz2 with h | ⟨h1, h2⟩
            · exact hre (c2 e h)
            · by_cases hes : e = s
              · subst hes
                exact h2 (List.mem_singleton.2 rfl)
              · rw [hother e hes, (hresetB e).1] at h1
                exact Bool.noConfusion h1
        · exact bool_not_true hvz
      have hes : e ≠ s := by
        intro h
        subst h
        have h1 := bfs_state_mono g e (g.rows * g.cols + 1)
          (bfsInit st0b e) [e] e hs_vis
        rw [← heqB] at h1
        rw [h1] at hvfalse
        exact Bool.noConfusion hvfalse
      have hstf := bfs_unvisited_stable g e (g.rows * g.cols + 1)
        (bfsInit st0b s) [s] e hvfalse
      rw [← heqB] at hstf
      have hpe : bPrev (bfs g s e st0b).state e = none := by
        show ((bfs g s e st0b).state e).previousNode = none
        rw [hstf, hother e hes]
        exact (hresetB e).2
      refine ⟨0, [e], fun m _ => walk_of_prev_none hpe m, List.cons_ne_nil e [],
        rfl, List.chain'_singleton e, ⟨e, rfl, hpe⟩, fun _ => rfl, ?_, ?_⟩
      · intro hh
        exact absurd (Option.some.inj hh) hes
      · intro hmem
        exact absurd (c2 e hmem) hre

/-- A witness run for `walk_shape_start_iff` on the open 2 by 2 unit grid. -/
theorem walk_shape_start_iff_witness :
    ((∀ p, (resetA p).distance = ⊤ ∧ (resetA p).previousNode = none) ∧
      (∀ p, (resetB p).isVisited = false ∧ (resetB p).previousNode = none) ∧
      (∀ p, gridW.inB p → gridW.isWall p = false → 1 ≤ gridW.weight p) ∧
      gridW.inB (0, 0) ∧ gridW.isWall (0, 0) = false) ∧
    (∃ n w, (∀ m, n ≤ m →
        getNodesInShortestPathOrder
          (aPrev (astar gridW (0, 0) (1, 1) resetA).state) m (1, 1) = w) ∧
      w ≠ [] ∧ w.getLast? = some (1, 1) ∧
      List.Chain' (fun a b =>
        aPrev (astar gridW (0, 0) (1, 1) resetA).state b = some a) w ∧
      walkComplete (aPrev (astar gridW (0, 0) (1, 1) resetA).state) w ∧
      (aPrev (astar gridW (0, 0) (1, 1) resetA).state (1, 1) = none →
        w = [(1, 1)]) ∧
      (w.head? = some (0, 0) ↔
        (1, 1) ∈ (astar gridW (0, 0) (1, 1) resetA).order)) ∧
    (∃ n w, (∀ m, n ≤ m →
        getNodesInShortestPathOrder
          (bPrev (bfs gridW (0, 0) (1, 1) resetB).state) m (1, 1) = w) ∧
      w ≠ [] ∧ w.getLast? = some (1, 1) ∧
      List.Chain' (fun a b =>
        bPrev (bfs gridW (0, 0) (1, 1) resetB).state b = some a) w ∧
      walkComplete (bPrev (bfs gridW (0, 0) (1, 1) resetB).state) w ∧
      (bPrev (bfs gridW (0, 0) (1, 1) resetB).state (1, 1) = none →
        w = [(1, 1)]) ∧
      (w.head? = some (0, 0) ↔
        (1, 1) ∈ (bfs gridW (0, 0) (1, 1) resetB).order)) :=
  ⟨⟨fun p => ⟨rfl, rfl⟩, fun p => ⟨rfl, rfl⟩, fun p _ _ => le_refl 1,
      by decide, rfl⟩,
    walk_shape_start_iff gridW (0, 0) (1, 1) resetA resetB
      (fun p => ⟨rfl, rfl⟩) (fun p => ⟨rfl, rfl⟩) (fun p _ _ => le_refl 1)
      (by decide) rfl⟩

/-- **C6.** On a reset grid in which every passable cell has weight exactly 1,
with valid distinct non-wall start and end joined by some path: the
entered-cell cost of the path reconstructed after `astar` equals the edge
count of the path reconstructed after `bfs`, and the A* g-value (`distance`)
of the end is that same number. -/
theorem unit_weights_agree (g : Grid) (s e : Pos)
    (st0a : Pos → ANode) (st0b : Pos → BNode)
    (hresetA : ∀ p, (st0a p).distance = ⊤ ∧ (st0a p).previousNode = none)
    (hresetB : ∀ p, (st0b p).isVisited = false ∧ (st0b p).previousNode = none)
    (hw1 : ∀ p, g.inB p → g.isWall p = false → g.weight p = 1)
    (hsb : g.inB s) (_heb : g.inB e) (hne : s ≠ e)
    (hsw : g.isWall s = false) (_hew : g.isWall e = false)
    (hre : Reachable g s e) :
    pathCost g (getNodesInShortestPathOrder (aPrev (astar g s e st0a).state)
        (g.rows * g.cols) e) =
      (((getNodesInShortestPathOrder (bPrev (bfs g s e st0b).state)
          (g.rows * g.cols) e).length - 1 : ℕ) : ℚ) ∧
    ((astar g s e st0a).state e).distance =
      ((((getNodesInShortestPathOrder (bPrev (bfs g s e st0b).state)
          (g.rows * g.cols) e).length - 1 : ℕ) : ℚ) : WithTop ℚ) := by
  have hwt : ∀ p, g.inB p → g.isWall p = false → 1 ≤ g.weight p := by
    intro p hb hw
    rw [hw1 p hb hw]
  have heqA : astar g s e st0a = astarLoop g e (g.rows * g.cols + 1)
      (setNode st0a s
        { st0a s with distance := 0, totalCost := (heuristic s e : WithTop ℚ) })
      [s] [] := rfl
  have hMA := astar_master g s e hwt (g.rows * g.cols + 1)
    (setNode st0a s
      { st0a s with distance := 0, totalCost := (heuristic s e : WithTop ℚ) })
    [s] [] (AInv_init hresetA hsb hsw) (phiA_init_lt hsb)
  rw [← heqA] at hMA
  have hend := hMA.reach_end (List.not_mem_nil e) hre
  have hmemA : e ∈ (astar g s e st0a).order := List.mem_of_mem_getLast? hend
  have hfin := hMA.order_finite e hmemA
  obtain ⟨n, wa, hstabA, hvalA, hcostA, hndA, hlenA, -⟩ :=
    walk_of_final hMA.final e hfin
  have hbdA : wa.length ≤ g.rows * g.cols :=
    nodup_length_le hndA (fun x hx => (hvalA.2.2.2 x hx).1)
  have hwaN := hstabA (g.rows * g.cols) (by omega)
  have heqB : bfs g s e st0b =
      bfsLoop g e (g.rows * g.cols + 1) (bfsInit st0b s) [s] := rfl
  have hs_self : bfsInit st0b s s = ⟨true, (st0b s).previousNode⟩ := by
    unfold bfsInit; rw [if_pos rfl]
  have hs_vis : (bfsInit st0b s s).isVisited = true := by rw [hs_self]
  have hother : ∀ p, p ≠ s → bfsInit st0b s p = st0b p := by
    intro p hp
    unfold bfsInit; rw [if_neg hp]
  have hprev_none : ∀ v, (bfsInit st0b s v).previousNode = none := by
    intro v
    by_cases hvs : v = s
    · rw [hvs, hs_self]; exact (hresetB s).2
    · rw [hother v hvs]; exact (hresetB v).2
  have hzip : ∀ pd ∈ ([s].zip [0] : List (Pos × Nat)),
      ZipInv g s (bfsInit st0b s) pd.1 pd.2 := by
    intro pd hpd
    rw [show ([s].zip [0] : List (Pos × Nat)) = [(s, 0)] from rfl,
      List.mem_singleton] at hpd
    subst hpd
    unfold ZipInv
    refine ⟨hs_vis, hsw, hsb, ?_, validPath_singleton hsb hsw, rfl, ?_, ?_⟩
    · intro l hl
      have h1 : 0 < l.length := List.length_pos.2 (validPath_ne_nil hl)
      omega
    · intro x hx
      rw [show getNodesInShortestPathOrder (bPrev (bfsInit st0b s)) 0 s = [s]
        from rfl, List.mem_singleton] at hx
      subst hx
      exact hs_vis
    · exact ⟨s, rfl, hprev_none s⟩
  have hclosure : ∀ p, (bfsInit st0b s p).isVisited = true →
      g.isWall p = false → p ∉ [s] → ∀ v ∈ getNeighbors g p,
      g.isWall v = false → (bfsInit st0b s v).isVisited = true := by
    intro p hp hpw hpq
    exfalso
    by_cases hps : p = s
    · subst hps
      exact hpq (List.mem_singleton.2 rfl)
    · rw [hother p hps, (hresetB p).1] at hp
      exact Bool.noConfusion hp
  have hev : e ∈ [s] ∨ (bfsInit st0b s e).isVisited = false := by
    right
    rw [hother e (Ne.symm hne)]
    exact (hresetB e).1
  have hMB := bfs_sp_master g s e hsb (g.rows * g.cols + 1)
    (bfsInit st0b s) [s] [0]
    rfl (List.pairwise_singleton _ _)
    (by intro a ha b hb; rw [List.mem_singleton] at ha hb; omega)
    hzip hclosure (List.nodup_singleton s) hs_vis
    (phiB_init_lt hsb hs_vis) hev hre
  rw [← heqB] at hMB
  obtain ⟨-, d, wb, hstabB, hvalB, hlenB, hminB⟩ := hMB
  have hpre1 : ∀ v u, (bfsInit st0b s v).previousNode = some u →
      (bfsInit st0b s u).isVisited = true := by
    intro v u hvu
    rw [hprev_none v] at hvu
    exact Option.noConfusion hvu
  have hrank1 : Ranked (bPrev (bfsInit st0b s)) := by
    refine ⟨fun _ => 0, ?_⟩
    intro v u hvu
    simp only [bPrev] at hvu
    rw [hprev_none v] at hvu
    exact Option.noConfusion hvu
  have hrankF := bfs_ranked_aux g e (g.rows * g.cols + 1) (bfsInit st0b s) [s]
    hpre1
    (by intro p hp; rw [List.mem_singleton] at hp; subst hp; exact hs_vis)
    hrank1
  rw [← heqB] at hrankF
  have hwd := hstabB d le_rfl
  have hch : List.Chain' (fun a b =>
      bPrev (bfs g s e st0b).state b = some a) wb := by
    rw [← hwd]
    exact walk_chain _ d e
  have hndB := chain_ranked_nodup hrankF hch
  have hbdB : wb.length ≤ g.rows * g.cols :=
    nodup_length_le hndB (fun x hx => (hvalB.2.2.2 x hx).1)
  have hwbN := hstabB (g.rows * g.cols) (by omega)
  have hcA : pathCost g wa = ((wa.length - 1 : ℕ) : ℚ) := pathCost_ones hw1 hvalA
  have hcB : pathCost g wb = ((wb.length - 1 : ℕ) : ℚ) := pathCost_ones hw1 hvalB
  have hmin := hMA.end_min (List.not_mem_nil e) wb hvalB
  rw [← hcostA, WithTop.coe_le_coe, hcA, hcB] at hmin
  have hq : wa.length - 1 ≤ wb.length - 1 := by exact_mod_cast hmin
  have hminL := hminB wa hvalA
  have heqlen : wa.length - 1 = wb.length - 1 := by omega
  rw [hwaN, hwbN]
  constructor
  · rw [hcA, heqlen]
  · rw [← hcostA, hcA, heqlen]

/-- A witness run for `unit_weights_agree` on the open 2 by 2 unit grid. -/
theorem unit_weights_agree_witness :
    ((∀ p, (resetA p).distance = ⊤ ∧ (resetA p).previousNode = none) ∧
      (∀ p, (resetB p).isVisited = false ∧ (resetB p).previousNode = none) ∧
      (∀ p, gridW.inB p → gridW.isWall p = false → gridW.weight p = 1) ∧
      gridW.inB (0, 0) ∧ gridW.inB (1, 1) ∧ (0, 0) ≠ ((1, 1) : Pos) ∧
      gridW.isWall (0, 0) = false ∧ gridW.isWall (1, 1) = false ∧
      Reachable gridW (0, 0) (1, 1)) ∧
    pathCost gridW
        (getNodesInShortestPathOrder
          (aPrev (astar gridW (0, 0) (1, 1) resetA).state)
          (gridW.rows * gridW.cols) (1, 1)) =
      (((getNodesInShortestPathOrder
          (bPrev (bfs gridW (0, 0) (1, 1) resetB).state)
          (gridW.rows * gridW.cols) (1, 1)).length - 1 : ℕ) : ℚ) ∧
    ((astar gridW (0, 0) (1, 1) resetA).state (1, 1)).distance =
      ((((getNodesInShortestPathOrder
          (bPrev (bfs gridW (0, 0) (1, 1) resetB).state)
          (gridW.rows * gridW.cols) (1, 1)).length - 1 : ℕ) : ℚ) : WithTop ℚ) := by
  have hre : Reachable gridW (0, 0) (1, 1) :=
    ⟨[(0, 0), (0, 1), (1, 1)], by decide⟩
  exact ⟨⟨fun p => ⟨rfl, rfl⟩, fun p => ⟨rfl, rfl⟩, fun p _ _ => rfl,
      by decide, by decide, by decide, rfl, rfl, hre⟩,
    unit_weights_agree gridW (0, 0) (1, 1) resetA resetB
      (fun p => ⟨rfl, rfl⟩) (fun p => ⟨rfl, rfl⟩) (fun p _ _ => rfl)
      (by decide) (by decide) (by decide) rfl rfl hre⟩

end PathfinderEdu
